import Mathlib

/-!
# Verification of the mock-okta record/replay layer (`tools/mock-okta/util.js`)

This file gives a shallow embedding, in Lean 4, of the request-normalization and
response-reconstruction pipeline of the mock-okta gateway, and proves (or refutes)
the specification claims about it.

Conventions of the embedding:
* JS strings are Lean `String`s; most algorithms work on the underlying `List Char`.
* JS header objects are association lists `List (String × String)` (requests) or
  `List (String × HVal)` (responses, which may carry array-valued headers).
* Mutation in place becomes explicit state passing; wall-clock time is an explicit
  `now : Nat` argument (seconds); code that can throw returns `Except String _`.
* External npm modules (`jws`, `oidc-token-hash`, `url`/`querystring`, the key
  material in `keys-test.js`) are modelled symbolically; each model carries a doc
  comment saying what it stands for.
-/

namespace MockOkta

/-! ## Character-list utilities -/

/-- Value of a hex digit character (`0`-`9`, `a`-`f`, `A`-`F`). -/
def hexDigitVal (c : Char) : Option Nat :=
  if '0' ≤ c ∧ c ≤ '9' then some (c.toNat - '0'.toNat)
  else if 'a' ≤ c ∧ c ≤ 'f' then some (c.toNat - 'a'.toNat + 10)
  else if 'A' ≤ c ∧ c ≤ 'F' then some (c.toNat - 'A'.toNat + 10)
  else none

/-- Fixed-width (6 hex digits) encoding of a natural number below `16^6`. -/
def hex6 (n : Nat) : List Char :=
  [Nat.digitChar (n / 16 ^ 5 % 16), Nat.digitChar (n / 16 ^ 4 % 16),
   Nat.digitChar (n / 16 ^ 3 % 16), Nat.digitChar (n / 16 ^ 2 % 16),
   Nat.digitChar (n / 16 % 16), Nat.digitChar (n % 16)]

/-- Decode six hex digit characters into a natural number. -/
def hexVal6 (a b c d e f : Char) : Option Nat := do
  let va ← hexDigitVal a
  let vb ← hexDigitVal b
  let vc ← hexDigitVal c
  let vd ← hexDigitVal d
  let ve ← hexDigitVal e
  let vf ← hexDigitVal f
  pure (va * 16 ^ 5 + vb * 16 ^ 4 + vc * 16 ^ 3 + vd * 16 ^ 2 + ve * 16 + vf)

theorem hexDigitVal_digitChar {d : Nat} (h : d < 16) :
    hexDigitVal (Nat.digitChar d) = some d := by
  interval_cases d <;> decide

/-- Two-hex-digit encoding of a natural number below 256. -/
def hex2 (n : Nat) : List Char :=
  [Nat.digitChar (n / 16 % 16), Nat.digitChar (n % 16)]

/-- Per-character base64url-model encoding: a byte-sized character becomes two
hex digits, any other character becomes `z` followed by six hex digits.  The
image uses only hex digit characters and `z`, hence contains no `.`, `"` or
`'`, which is all the surrounding code relies on. -/
def encChar (c : Char) : List Char :=
  if c.toNat < 256 then hex2 c.toNat else 'z' :: hex6 c.toNat

def encL (s : List Char) : List Char :=
  s.foldr (fun c acc => encChar c ++ acc) []

/-- Decoder matching `encL`. -/
def decL : List Char → Option (List Char)
  | [] => some []
  | c0 :: rest =>
    if c0 = 'z' then
      match rest with
      | a :: b :: c :: d :: e :: f :: r => do
        let n ← hexVal6 a b c d e f
        let tl ← decL r
        pure (Char.ofNat n :: tl)
      | _ => none
    else
      match rest with
      | b :: r => do
        let x ← hexDigitVal c0
        let y ← hexDigitVal b
        let tl ← decL r
        pure (Char.ofNat (16 * x + y) :: tl)
      | [] => none

theorem char_toNat_lt (c : Char) : c.toNat < 16 ^ 6 := by
  have h := c.valid
  rcases h with h | ⟨_, h⟩ <;>
    · simp only [Char.toNat]
      omega

theorem hexVal6_hex6 {n : Nat} (h : n < 16 ^ 6) :
    (match hex6 n with
     | [a, b, c, d, e, f] => hexVal6 a b c d e f
     | _ => none) = some n := by
  simp only [hex6, hexVal6]
  rw [hexDigitVal_digitChar (by omega), hexDigitVal_digitChar (by omega),
    hexDigitVal_digitChar (by omega), hexDigitVal_digitChar (by omega),
    hexDigitVal_digitChar (Nat.mod_lt _ (by omega)),
    hexDigitVal_digitChar (Nat.mod_lt _ (by omega))]
  simp only [Option.bind_eq_bind, Option.some_bind, Option.some.injEq]
  norm_num
  omega

theorem digitChar_ne_z {d : Nat} (h : d < 16) : Nat.digitChar d ≠ 'z' := by
  interval_cases d <;> decide

theorem decL_encL (s : List Char) : decL (encL s) = some s := by
  induction s with
  | nil => rfl
  | cons c r ih =>
    have he : encL (c :: r) = encChar c ++ encL r := rfl
    rw [he]
    by_cases h : c.toNat < 256
    · rw [encChar, if_pos h]
      have hne : Nat.digitChar (c.toNat / 16 % 16) ≠ 'z' :=
        digitChar_ne_z (Nat.mod_lt _ (by omega))
      show decL (Nat.digitChar (c.toNat / 16 % 16) :: Nat.digitChar (c.toNat % 16) :: encL r)
        = some (c :: r)
      rw [decL.eq_def]
      simp only [if_neg hne,
        hexDigitVal_digitChar (Nat.mod_lt (c.toNat / 16) (show 0 < 16 by omega)),
        hexDigitVal_digitChar (Nat.mod_lt c.toNat (show 0 < 16 by omega)),
        Option.bind_eq_bind, Option.some_bind, ih]
      have : 16 * (c.toNat / 16 % 16) + c.toNat % 16 = c.toNat := by omega
      rw [this]
      simp [Char.ofNat_toNat]
    · rw [encChar, if_neg h]
      have h6 := hexVal6_hex6 (char_toNat_lt c)
      simp only [hex6] at h6
      show decL ('z' :: Nat.digitChar (c.toNat / 16 ^ 5 % 16) ::
        Nat.digitChar (c.toNat / 16 ^ 4 % 16) :: Nat.digitChar (c.toNat / 16 ^ 3 % 16) ::
        Nat.digitChar (c.toNat / 16 ^ 2 % 16) :: Nat.digitChar (c.toNat / 16 % 16) ::
        Nat.digitChar (c.toNat % 16) :: encL r) = some (c :: r)
      rw [decL.eq_def]
      simp only [if_pos rfl, h6, Option.bind_eq_bind, Option.some_bind, ih]
      simp [Char.ofNat_toNat]

/-- The alphabet `encL` writes over: the sixteen hex digits and `z`. -/
def hexAlphabet : List Char := "0123456789abcdef".data ++ ['z']

/-- `encL` produces only hex digit characters and `z`. -/
theorem mem_encL {c : Char} {s : List Char} (h : c ∈ encL s) : c ∈ hexAlphabet := by
  induction s with
  | nil => simp [encL] at h
  | cons x r ih =>
    have he : encL (x :: r) = encChar x ++ encL r := rfl
    rw [he] at h
    have digit : ∀ d : Nat, d < 16 → Nat.digitChar d ∈ hexAlphabet := by
      intro d hd
      interval_cases d <;> decide
    rcases List.mem_append.1 h with h' | h'
    · by_cases hx : x.toNat < 256
      · rw [encChar, if_pos hx] at h'
        simp only [hex2, List.mem_cons, List.mem_singleton] at h'
        rcases h' with rfl | rfl | h'
        · exact digit _ (Nat.mod_lt _ (by omega))
        · exact digit _ (Nat.mod_lt _ (by omega))
        · cases h'
      · rw [encChar, if_neg hx] at h'
        rcases List.mem_cons.1 h' with rfl | h''
        · decide
        · simp only [hex6, List.mem_cons, List.mem_singleton] at h''
          rcases h'' with rfl | rfl | rfl | rfl | rfl | rfl | h''
          · exact digit _ (Nat.mod_lt _ (by omega))
          · exact digit _ (Nat.mod_lt _ (by omega))
          · exact digit _ (Nat.mod_lt _ (by omega))
          · exact digit _ (Nat.mod_lt _ (by omega))
          · exact digit _ (Nat.mod_lt _ (by omega))
          · exact digit _ (Nat.mod_lt _ (by omega))
          · cases h''
    · exact ih h'

/-- String wrapper for `encL`. -/
def encS (s : String) : String := ⟨encL s.data⟩

/-- String wrapper for `decL`. -/
def decS (s : String) : Option String := (decL s.data).map fun l => ⟨l⟩

theorem decS_encS (s : String) : decS (encS s) = some s := by
  simp [decS, encS, decL_encL]

/-- Split a character list on every occurrence of a separator character
(JS `String.prototype.split` with a single-character separator). -/
def splitOnCharL (sep : Char) : List Char → List (List Char)
  | [] => [[]]
  | c :: r =>
    if c = sep then [] :: splitOnCharL sep r
    else
      match splitOnCharL sep r with
      | h :: t => (c :: h) :: t
      | [] => [[c]]

theorem splitOnCharL_ne_nil (sep : Char) (s : List Char) : splitOnCharL sep s ≠ [] := by
  induction s with
  | nil => simp [splitOnCharL]
  | cons c r ih =>
    by_cases h : c = sep
    · simp [splitOnCharL, h]
    · simp only [splitOnCharL, if_neg h]
      match hm : splitOnCharL sep r with
      | [] => exact absurd hm ih
      | x :: t => simp

theorem splitOnCharL_append_of_not_mem {sep : Char} {a : List Char} (ha : sep ∉ a)
    (b : List Char) : splitOnCharL sep (a ++ sep :: b) = a :: splitOnCharL sep b := by
  induction a with
  | nil => simp [splitOnCharL]
  | cons c r ih =>
    have hc : c ≠ sep := fun h => ha (h ▸ List.mem_cons_self c r)
    have hr : sep ∉ r := fun h => ha (List.mem_cons_of_mem _ h)
    have hrw := ih hr
    simp only [List.cons_append, splitOnCharL, if_neg hc]
    rw [show List.append r (sep :: b) = r ++ sep :: b from rfl] at *
    rw [hrw]

theorem splitOnCharL_of_not_mem {sep : Char} {a : List Char} (ha : sep ∉ a) :
    splitOnCharL sep a = [a] := by
  induction a with
  | nil => rfl
  | cons c r ih =>
    have hc : c ≠ sep := fun h => ha (h ▸ List.mem_cons_self c r)
    have hr : sep ∉ r := fun h => ha (List.mem_cons_of_mem _ h)
    simp only [splitOnCharL, if_neg hc, ih hr]

theorem not_mem_of_mem_splitOnCharL {sep : Char} {s e : List Char}
    (he : e ∈ splitOnCharL sep s) : sep ∉ e := by
  induction s generalizing e with
  | nil =>
    simp only [splitOnCharL, List.mem_singleton] at he
    subst he; simp
  | cons c r ih =>
    by_cases h : c = sep
    · simp only [splitOnCharL, if_pos h, List.mem_cons] at he
      rcases he with rfl | he
      · simp
      · exact ih he
    · simp only [splitOnCharL, if_neg h] at he
      match hm : splitOnCharL sep r with
      | [] => exact absurd hm (splitOnCharL_ne_nil sep r)
      | x :: t =>
        rw [hm] at he
        rcases List.mem_cons.1 he with rfl | he'
        · intro hmem
          rcases List.mem_cons.1 hmem with h' | h'
          · exact h h'.symm
          · exact ih (hm ▸ List.mem_cons_self x t) h'
        · exact ih (hm ▸ List.mem_cons_of_mem x he')

/-- First occurrence of a separator character: returns the parts before and after it. -/
def splitFirstChar (sep : Char) : List Char → Option (List Char × List Char)
  | [] => none
  | c :: r =>
    if c = sep then some ([], r)
    else (splitFirstChar sep r).map fun p => (c :: p.1, p.2)

/-- Substring containment test (`str.indexOf(t) > -1`). -/
def containsL (t : List Char) : List Char → Bool
  | [] => t.isEmpty
  | c :: rest => t.isPrefixOf (c :: rest) || containsL t rest

/-- String wrapper: `s.indexOf(t) > -1` in JS. -/
def containsS (s t : String) : Bool := containsL t.data s.data

/-- Replace the first occurrence of `t` in `s` by `r`
(JS `String.prototype.replace` with a plain-string pattern). -/
def replaceFirstL (t r : List Char) : List Char → List Char
  | [] => if t.isEmpty then r else []
  | c :: rest =>
    if t.isPrefixOf (c :: rest) then r ++ (c :: rest).drop t.length
    else c :: replaceFirstL t r rest

/-- String wrapper for `replaceFirstL`. -/
def replaceFirstS (s t r : String) : String := ⟨replaceFirstL t.data r.data s.data⟩

/-- Whitespace for the purposes of JS `trim` / `\s` (ASCII subset; the source only
ever meets spaces and tabs here). -/
def isWsChar (c : Char) : Bool := c == ' ' || c == '\t' || c == '\n' || c == '\r'

/-- JS `String.prototype.trim`. -/
def trimL (l : List Char) : List Char :=
  ((l.dropWhile isWsChar).reverse.dropWhile isWsChar).reverse

/-- Lexicographic comparison of strings by code point, the default JS
`Array.prototype.sort` comparator restricted to the values that occur here. -/
def lexLe : List Char → List Char → Bool
  | [], _ => true
  | _ :: _, [] => false
  | a :: as, b :: bs => if a < b then true else if b < a then false else lexLe as bs

/-- Insert into a `lexLe`-sorted list. -/
def insertLe (x : List Char) : List (List Char) → List (List Char)
  | [] => [x]
  | y :: ys => if lexLe x y then x :: y :: ys else y :: insertLe x ys

/-- Stable sort by `lexLe` (the result of JS `Array.prototype.sort` on strings). -/
def sortLe (l : List (List Char)) : List (List Char) := l.foldr insertLe []

/-- Normalization of the `access-control-request-headers` value
(`util.js` lines 185-190): split on `,`, trim each entry, drop entries equal to
`accept` or `origin`, sort, re-join with `", "`. -/
def normalizeAcrhVal (s : String) : String :=
  let parts := (splitOnCharL ',' s.data).map trimL
  let parts := parts.filter fun e => !(e == "accept".data) && !(e == "origin".data)
  ⟨List.intercalate [',', ' '] (sortLe parts)⟩

/-- One attempt of the regex `/ADRUM[^;]+(;|$)\\s*/i` anchored at the head of the
list; on success returns the remainder after the whole match.  After the greedy
`[^;]+` run the `(;|$)` group consumes the `;` if one is present (the run stops
exactly at the first `;`, so taking the tail of the `dropWhile` consumes it),
and `\\s*` then eats trailing whitespace. -/
def isAdrumAt : List Char → Option (List Char)
  | a :: d :: r :: u :: m :: rest =>
    if a.toLower = 'a' ∧ d.toLower = 'd' ∧ r.toLower = 'r' ∧ u.toLower = 'u' ∧ m.toLower = 'm' then
      let run := rest.takeWhile (· ≠ ';')
      if run.isEmpty then none
      else some (((rest.dropWhile (· ≠ ';')).tail).dropWhile isWsChar)
    else none
  | _ => none

theorem isAdrumAt_shrinks {s rem : List Char} (h : isAdrumAt s = some rem) :
    rem.length < s.length := by
  match s with
  | [] | [_] | [_, _] | [_, _, _] | [_, _, _, _] => simp [isAdrumAt] at h
  | a :: d :: r :: u :: m :: rest =>
    simp only [isAdrumAt] at h
    split at h
    · split at h
      · exact absurd h (by simp)
      · simp only [Option.some.injEq] at h
        subst h
        have hd : (rest.dropWhile (· ≠ ';')).length ≤ rest.length :=
          (List.dropWhile_sublist _).length_le
        have ht : ((rest.dropWhile (· ≠ ';')).tail).length ≤
            (rest.dropWhile (· ≠ ';')).length := by
          cases rest.dropWhile (· ≠ ';') <;> simp
        have h2 : (((rest.dropWhile (· ≠ ';')).tail).dropWhile isWsChar).length ≤
            ((rest.dropWhile (· ≠ ';')).tail).length :=
          (List.dropWhile_sublist _).length_le
        simp only [List.length_cons]
        omega
    · exact absurd h (by simp)

/-- Fuel-indexed worker for `adrumStripL`; the fuel only serves structural
recursion and is always at least the length of the list. -/
def adrumStripAux : Nat → List Char → List Char
  | 0, s => s
  | _, [] => []
  | fuel + 1, c :: rest =>
    match isAdrumAt (c :: rest) with
    | some rem => adrumStripAux fuel rem
    | none => c :: adrumStripAux fuel rest

/-- Global application of the `ADRUM` cookie-scrubbing regex
(`util.js` line 195: `cookie.replace(/ADRUM[^;]+(;|$)\\s*/gi, '')`): scan left
to right; at each position remove a match and continue after it, or keep the
character.  `isAdrumAt_shrinks` guarantees the fuel never runs out. -/
def adrumStripL (s : List Char) : List Char := adrumStripAux s.length s

/-- String wrapper for `adrumStripL`. -/
def adrumStrip (s : String) : String := ⟨adrumStripL s.data⟩

/-- Percent/plus decoding done by Node's `querystring.parse` on keys and values.
Malformed escapes are kept literally (Node's `unescapeBuffer` fallback). -/
def qsUnescapeL : List Char → List Char
  | [] => []
  | '+' :: r => ' ' :: qsUnescapeL r
  | '%' :: a :: b :: r =>
    match hexDigitVal a, hexDigitVal b with
    | some x, some y => Char.ofNat (16 * x + y) :: qsUnescapeL r
    | _, _ => '%' :: qsUnescapeL (a :: b :: r)
  | c :: r => c :: qsUnescapeL r

/-- Model of `util.parseQuery` (`util.js` lines 118-121): `url.parse` takes the
part of the url after the first `?` (up to a `#`), and `querystring.parse`
splits it on `&`, then each segment on its first `=`, percent-decoding both
sides.  Duplicate keys are looked up first-occurrence-first. -/
def parseQuery (urlStr : String) : List (String × String) :=
  match splitFirstChar '?' urlStr.data with
  | none => []
  | some (_, afterQ) =>
    let q := afterQ.takeWhile (· ≠ '#')
    ((splitOnCharL '&' q).filter fun seg => !seg.isEmpty).map fun seg =>
      match splitFirstChar '=' seg with
      | some (k, v) => (⟨qsUnescapeL k⟩, ⟨qsUnescapeL v⟩)
      | none => (⟨qsUnescapeL seg⟩, "")

/-- First-occurrence lookup in a parsed query. -/
def qGet (q : List (String × String)) (k : String) : Option String :=
  (q.find? fun p => p.1 == k).map (·.2)

/-! ## A small matcher for the fixed regular expressions of the source -/

/-- A single-character regex item: a literal or `.` (any character). -/
inductive MPat where
  | lit (c : Char)
  | any
deriving DecidableEq

/-- Match a list of single-character items against the head of `s`; returns the
remainder.  Each item consumes exactly one character. -/
def matchPre : List MPat → List Char → Option (List Char)
  | [], s => some s
  | .lit c :: ps, x :: xs => if x = c then matchPre ps xs else none
  | .any :: ps, _ :: xs => matchPre ps xs
  | _ :: _, [] => none

/-- All-literal pattern from a string. -/
def litPats (s : String) : List MPat := s.data.map .lit

/-- Pattern from a string as the source interpolates it into a regex: `.`
becomes a wildcard, everything else is literal. -/
def regexOfChars (s : String) : List MPat :=
  s.data.map fun c => if c = '.' then MPat.any else MPat.lit c

/-- Leftmost match-and-capture for regexes of the shape `PRE([^c]+)c`
(the token markers of `mapCachedBodyToResponse`).  Mirrors
`str.match(...)[1]`: scans left to right, at each position requires the prefix
pattern, then a non-empty run of non-`stop` characters followed by `stop`. -/
def findCapL (pre : List MPat) (stop : Char) : List Char → Option (List Char)
  | [] => none
  | c :: rest =>
    match matchPre pre (c :: rest) with
    | some r =>
      let cap := r.takeWhile (· ≠ stop)
      let r2 := r.dropWhile (· ≠ stop)
      if cap.isEmpty || r2.isEmpty then findCapL pre stop rest else some cap
    | none => findCapL pre stop rest

/-- `[hi, hi-1, ..., lo]`: the order in which a greedy `.{lo,hi}` tries lengths. -/
def descRange (hi lo : Nat) : List Nat := (List.range (hi + 1 - lo)).map fun i => hi - i

/-- Matcher for the first pattern of `replaceUrls`
(`protocol.{3,12}hostname`, extended to `protocol.{3,12}hostname.{1,4}port`
whenever the proxied url carries a port — the port part is then mandatory,
`util.js` lines 276-278), anchored at the head of `s`; returns the length of
the (greedy, backtracking) match. -/
def matchHostPat (p1 p2 : List MPat) (portPats : Option (List MPat)) (s : List Char) :
    Option Nat :=
  match matchPre p1 s with
  | none => none
  | some r1 =>
    (descRange 12 3).findSome? fun k =>
      if k ≤ r1.length then
        match matchPre p2 (r1.drop k) with
        | none => none
        | some r2 =>
          match portPats with
          | none => some (p1.length + k + p2.length)
          | some p3 =>
            (descRange 4 1).findSome? fun m =>
              if m ≤ r2.length then
                match matchPre p3 (r2.drop m) with
                | none => none
                | some _ => some (p1.length + k + p2.length + m + p3.length)
              else none
      else none

/-- Matcher for the second pattern of `replaceUrls` (`(https:)?//cdnhost`),
anchored at the head of `s`; returns the length of the match. -/
def matchCdnPat (p4 : List MPat) (s : List Char) : Option Nat :=
  let withScheme :=
    if "https:".data.isPrefixOf s then
      match matchPre p4 (s.drop 6) with
      | some _ => some (6 + p4.length)
      | none => none
    else none
  match withScheme with
  | some n => some n
  | none => (matchPre p4 s).map fun _ => p4.length

/-- Fuel-indexed worker for `replaceAllMatches`; the fuel only serves
structural recursion and is always at least the length of the list (every
match consumes at least one character). -/
def replaceAllAux (matcher : List Char → Option Nat) (repl : List Char) :
    Nat → List Char → List Char
  | 0, s => s
  | _, [] => []
  | fuel + 1, c :: rest =>
    match matcher (c :: rest) with
    | some (n + 1) => repl ++ replaceAllAux matcher repl fuel ((c :: rest).drop (n + 1))
    | _ => c :: replaceAllAux matcher repl fuel rest

/-- Global regex replacement: scan left to right, replace every (non-empty)
match and continue after it (JS `String.prototype.replace` with a `g` regex). -/
def replaceAllMatches (matcher : List Char → Option Nat) (repl : List Char)
    (s : List Char) : List Char :=
  replaceAllAux matcher repl s.length s

/-! ## JSON values and flat objects

The JWT headers and payloads that `util.js` manipulates are flat JSON objects of
strings and (non-negative) numbers.  We model `JSON.parse`/`JSON.stringify`
on exactly that fragment; a JS property holding `undefined` is represented
explicitly (assigning `undefined` keeps the property but `JSON.stringify`
omits it). -/

inductive JVal where
  | str (s : String)
  | num (n : Nat)
  | undefv
deriving DecidableEq, Repr

abbrev JsObj := List (String × JVal)

/-- Property read (`o[k]`), first occurrence. -/
def objGet : JsObj → String → Option JVal
  | [], _ => none
  | p :: t, k => if p.1 = k then some p.2 else objGet t k

/-- Property write (`o[k] = v`): overwrite in place when the key exists
(JS objects cannot hold duplicate keys, so overwriting the first occurrence is
the JS semantics), append otherwise — insertion-order semantics. -/
def objSet : JsObj → String → JVal → JsObj
  | [], k, v => [(k, v)]
  | p :: t, k, v => if p.1 = k then (k, v) :: t else p :: objSet t k v

/-- Drop `undefined`-valued properties, as `JSON.stringify` does. -/
def stripUndef (o : JsObj) : JsObj := o.filter fun p => !(p.2 == JVal.undefv)

def strOk (s : String) : Bool := s.data.all fun c => !(c == '"')

def valOk : JVal → Bool
  | .str s => strOk s
  | _ => true

/-- Well-formed flat object: no duplicate keys, and keys/string values are
quote-free (our printer does not escape). -/
def wfObj (o : JsObj) : Prop :=
  (o.map Prod.fst).Nodup ∧ ∀ p ∈ o, strOk p.1 = true ∧ valOk p.2 = true

instance (o : JsObj) : Decidable (wfObj o) := by
  unfold wfObj
  infer_instance

/-- Fuel-indexed little-endian decimal digits of a natural number (structural
so that it reduces in the kernel; agrees with `Nat.digits 10` for fuel `≥ n`). -/
def natDigitsAux : Nat → Nat → List Nat
  | 0, _ => []
  | _, 0 => []
  | fuel + 1, n + 1 => ((n + 1) % 10) :: natDigitsAux fuel ((n + 1) / 10)

/-- Decimal printing of a natural number. -/
def natPrintL (n : Nat) : List Char :=
  if n = 0 then ['0'] else ((natDigitsAux n n).map Nat.digitChar).reverse

def printVal : JVal → List Char
  | .str s => '"' :: s.data ++ ['"']
  | .num n => natPrintL n
  | .undefv => []

def printEntry (p : String × JVal) : List Char :=
  '"' :: p.1.data ++ ['"', ':'] ++ printVal p.2

/-- `JSON.stringify` on a flat object. -/
def stringifyObj (o : JsObj) : String :=
  ⟨'{' :: List.intercalate [','] ((stripUndef o).map printEntry) ++ ['}']⟩

/-- Parse a string literal body (opening quote already consumed). -/
def parseStringLit (s : List Char) : Option (String × List Char) :=
  match s.dropWhile (· ≠ '"') with
  | '"' :: r => some (⟨s.takeWhile (· ≠ '"')⟩, r)
  | _ => none

def parseNatLit (s : List Char) : Option (Nat × List Char) :=
  let ds := s.takeWhile Char.isDigit
  if ds.isEmpty then none
  else some (ds.foldl (fun a c => a * 10 + (c.toNat - 48)) 0, s.dropWhile Char.isDigit)

def parseVal : List Char → Option (JVal × List Char)
  | [] => none
  | c :: r =>
    if c = '"' then (parseStringLit r).map fun p => (.str p.1, p.2)
    else (parseNatLit (c :: r)).map fun p => (.num p.1, p.2)

def parseEntry : List Char → Option ((String × JVal) × List Char)
  | '"' :: r => do
    let (k, r1) ← parseStringLit r
    match r1 with
    | ':' :: r2 => do
      let (v, r3) ← parseVal r2
      pure ((k, v), r3)
    | _ => none
  | _ => none

def parseEntriesAux : Nat → JsObj → List Char → Option JsObj
  | 0, _, _ => none
  | fuel + 1, acc, s => do
    let ((k, v), r) ← parseEntry s
    let acc' := objSet acc k v
    match r with
    | '}' :: r2 => if r2.isEmpty then some acc' else none
    | ',' :: r2 => parseEntriesAux fuel acc' r2
    | _ => none

/-- `JSON.parse` on the flat-object fragment (whole-string parse; duplicate keys
overwrite like JS). -/
def parseObj (s : String) : Option JsObj :=
  match s.data with
  | '{' :: '}' :: r => if r.isEmpty then some [] else none
  | '{' :: rest => parseEntriesAux (rest.length + 1) [] rest
  | _ => none

/-! ## The `jws` module and key material, modelled symbolically -/

/-- Modelled from the spec: the key-material collaborator (`keys-test.js`: a
fixed signing keypair, its public-key identifier `kid`, and the recorded access
token) is outside the given source; only its interface matters. -/
def keys_publicJwk_kid : String := "PUBKID"

/-- Modelled from the spec: fixed private signing key (PEM), see `keys_publicJwk_kid`. -/
def keys_privatePem : String := "PRIVPEM"

/-- Modelled from the spec: fixed public key paired with `keys_privatePem`. -/
def keys_publicPem : String := "PUBPEM"

/-- Modelled from the spec: the access token value that the `/userinfo` tape was
recorded with. -/
def keys_accessToken : String := "RECTOKEN"

/-- The private key that signs what a given public key verifies (symbolic
keypair relation). -/
def privateFor (pub : String) : String :=
  if pub = keys_publicPem then keys_privatePem else "NO-KEY-" ++ pub

/-- Symbolic signature of the `jws` module: an opaque token determined by
algorithm, signing input and secret.  Like a real base64url signature it
contains no `.`, `"` or `'` (algorithm and secret are `encS`-coded, the dots of
the signing input are folded to `_`). -/
def mkSig (alg input secret : String) : String :=
  "SIG" ++ encS (alg ++ "," ++ secret) ++ "," ++
    ⟨input.data.map fun c => if c = '.' then '_' else c⟩

def algOf (header : JsObj) : Option String :=
  match objGet header "alg" with
  | some (.str a) => some a
  | _ => none

/-- Model of `jws.sign({header, payload, secret})`: serialize header and payload
(`JSON.stringify` + base64url, modelled by `stringifyObj` + `encS`), sign with
the algorithm named in the header.  `none` models the throw on a missing/bad
`alg`. -/
def jws_sign (header claims : JsObj) (secret : String) : Option String :=
  match algOf header with
  | none => none
  | some alg =>
    let h64 := encS (stringifyObj header)
    let p64 := encS (stringifyObj claims)
    some (h64 ++ "." ++ p64 ++ "." ++ mkSig alg (h64 ++ "." ++ p64) secret)

structure DecodedJws where
  header : JsObj
  payload : String
  signature : String
deriving DecidableEq

/-- Model of `jws.decode(token)`: split the compact serialization on `.`,
base64url-decode, JSON-parse the header; the payload is returned as a string
(the caller JSON-parses it itself).  `none` models a decode failure. -/
def jws_decode (token : String) : Option DecodedJws :=
  match splitOnCharL '.' token.data with
  | [h64, p64, sig] => do
    let hs ← decL h64
    let header ← parseObj ⟨hs⟩
    let ps ← decL p64
    pure ⟨header, ⟨ps⟩, ⟨sig⟩⟩
  | _ => none

/-- Signature verification against a public key: true iff the signature part was
produced by `mkSig` with the paired private key over the same signing input and
the header's algorithm. -/
def jws_verify (token : String) (pub : String) : Bool :=
  match splitOnCharL '.' token.data with
  | [h64, p64, sig] =>
    match (decL h64).bind (fun hs => parseObj ⟨hs⟩) with
    | some header =>
      match algOf header with
      | some alg =>
        sig == (mkSig alg (⟨h64 ++ '.' :: p64⟩) (privateFor pub)).data
      | none => false
    | none => false
  | _ => false

/-- Modelled from the `oidc-token-hash` npm module: `tokenHash.generate(token,
'sha256')` — half of the SHA-256 digest of the token, base64url-encoded.  The
digest is symbolic and, like the real one, of (roughly) fixed length and
non-invertible: a fingerprint of the token's first characters plus its length.
By construction it consists of `ath`, hex digits, `z` and `x` only — in
particular it is never the string `"undefined"` and never contains `"`. -/
def tokenHash_generate (token : String) : String :=
  "ath" ++ encS ⟨token.data.take 8⟩ ++ "x" ++ ⟨natPrintL token.data.length⟩

/-! ## Token swapping (`util.js` lines 295-332 and 343-371) -/

/-- The JS loose comparison `x != 'undefined'` used at `util.js` line 318:
`undefined != 'undefined'` is `true` (loose equality never holds between
`undefined` and a string), a number is never loosely equal to `'undefined'`,
and a string is compared literally. -/
def jsNeqStrUndefined : JVal → Bool
  | .str s => !(s == "undefined")
  | _ => true

/-- `swapIdToken(idToken, data)` (`util.js` lines 295-332), with the fields of
`data` as explicit arguments (`at_hash := JVal.undefv` when absent) and wall
clock `now` in seconds.  Decode the token, set `kid`, JSON-parse the payload,
overwrite `nonce`/`iss`, conditionally `at_hash` (line 318), set `exp` to
`now + 3600`, re-sign with the fixed private key. -/
def swapIdToken (idToken : String) (nonce iss at_hash : JVal) (now : Nat) :
    Except String String :=
  match jws_decode idToken with
  | none => .error "TypeError: jws.decode returned null"
  | some decoded =>
    let header := objSet decoded.header "kid" (.str keys_publicJwk_kid)
    match parseObj decoded.payload with
    | none => .error "SyntaxError: JSON.parse"
    | some claims0 =>
      let claims1 := objSet claims0 "nonce" nonce
      let claims2 := objSet claims1 "iss" iss
      let claims3 :=
        if jsNeqStrUndefined at_hash then objSet claims2 "at_hash" at_hash else claims2
      let claims4 := objSet claims3 "exp" (.num (now + 3600))
      match jws_sign header claims4 keys_privatePem with
      | some tok => .ok tok
      | none => .error "jws.sign failed"

/-- `swapAccessToken(accessToken, data)` (`util.js` lines 343-371): like
`swapIdToken` but with no `at_hash` handling. -/
def swapAccessToken (accessToken : String) (nonce iss : JVal) (now : Nat) :
    Except String String :=
  match jws_decode accessToken with
  | none => .error "TypeError: jws.decode returned null"
  | some decoded =>
    let header := objSet decoded.header "kid" (.str keys_publicJwk_kid)
    match parseObj decoded.payload with
    | none => .error "SyntaxError: JSON.parse"
    | some claims0 =>
      let claims1 := objSet claims0 "nonce" nonce
      let claims2 := objSet claims1 "iss" iss
      let claims3 := objSet claims2 "exp" (.num (now + 3600))
      match jws_sign header claims3 keys_privatePem with
      | some tok => .ok tok
      | none => .error "jws.sign failed"

/-! ## Request normalization (`util.js` lines 132-253) -/

/-- Request headers: a JS object, i.e. an insertion-ordered association list
with unique keys; Node request header values are strings. -/
abbrev Headers := List (String × String)

def hGet : Headers → String → Option String
  | [], _ => none
  | (k', v) :: t, k => if k' = k then some v else hGet t k

/-- `headers[k] = v`: overwrite in place when the key exists (a JS object never
holds duplicate keys), append otherwise. -/
def hSet : Headers → String → String → Headers
  | [], k, v => [(k, v)]
  | p :: t, k, v => if p.1 = k then (k, v) :: t else p :: hSet t k v

/-- `delete headers[k]`. -/
def hDel (h : Headers) (k : String) : Headers := h.filter fun p => ¬(p.1 = k)

/-- JS truthiness of a possibly-absent header value. -/
def truthy : Option String → Bool
  | some s => !s.isEmpty
  | none => false

structure Req where
  method : String
  url : String
  headers : Headers
deriving DecidableEq

/-- The record the normalizer emits for the response reconstruction
("Session Extract"); all fields optional, JS `{}` defaults. -/
structure SessionData where
  isAuthorizeReq : Bool := false
  responseMode : Option String := none
  state : Option String := none
  nonce : Option String := none
  cookie : Option String := none
  isRedirectCallback : Bool := false
  isTokenReq : Bool := false
deriving DecidableEq

/-- The fixed user-agent literal of `util.js` lines 148-149. -/
def uaString : String :=
  "Mozilla/5.0 (Macintosh; Intel Mac OS X 10.10; rv:48.0) Gecko/20100101 Firefox/48.0"

/-- The fixed html accept literal of `util.js` line 163. -/
def htmlAccept : String :=
  "text/html,application/xhtml+xml,application/xml;q=0.9,image/webp,*/*;q=0.8"

/-- `!!headers['access-control-request-method']` (`util.js` line 136). -/
def isPreflightReq (req : Req) : Bool :=
  truthy (hGet req.headers "access-control-request-method")

/-- `util.js` lines 139-175: header deletions, forced constants, accept
normalization and api content-type. -/
def normBase (req : Req) : Headers :=
  let h1 := hDel (hDel (hDel (hDel (hDel (hDel req.headers
    "upgrade-insecure-requests") "x-okta-user-agent-extended") "if-none-match")
    "if-modified-since") "expect") "referer"
  let h2 := hSet h1 "user-agent" uaString
  let h3 := hSet h2 "connection" "keep-alive"
  let h4 := hSet h3 "accept-language" "en-US"
  let h5 := hSet h4 "accept-encoding" "gzip"
  let h6 :=
    if truthy (hGet h5 "accept") then
      let a := (hGet h5 "accept").getD ""
      if containsS a "text/html" then hSet h5 "accept" htmlAccept
      else if containsS a "json" then hSet h5 "accept" "application/json"
      else hSet h5 "accept" "*/*"
    else h5
  if !isPreflightReq req && containsS req.url "/api/v1" then
    hSet h6 "content-type" "application/json"
  else h6

/-- `util.js` lines 177-191: preflight handling (the only stage that can
throw: `.split` of an absent `access-control-request-headers`). -/
def normPreflight (req : Req) (h : Headers) : Except String Headers :=
  if isPreflightReq req then
    let h8 := if hGet h "content-length" = some "0" then hDel h "content-length" else h
    match hGet h8 "access-control-request-headers" with
    | none => .error "TypeError: Cannot read property split of undefined"
    | some acrh => .ok (hSet h8 "access-control-request-headers" (normalizeAcrhVal acrh))
  else .ok h

/-- `util.js` lines 194-199: cookie scrubbing (an absent cookie becomes the
empty string) and forced no-cache headers; also returns the scrubbed cookie
value. -/
def normCookieCache (h : Headers) : Headers × String :=
  let cookie1 := adrumStrip ((hGet h "cookie").getD "")
  let h9 := hSet h "cookie" cookie1
  (hSet (hSet h9 "cache-control" "no-cache, no-store") "pragma" "no-cache", cookie1)

/-- `util.js` lines 203-249: mutually exclusive flow-specific handling,
selected on the (original) url and method. -/
def normFlow (req : Req) (record : Bool) (h10 : Headers) (cookie1 : String) :
    Req × SessionData :=
  if containsS req.url "authorize?" then
    let q := parseQuery req.url
    let st := qGet q "state"
    let no := qGet q "nonce"
    -- lines 212-215: `'state=' + query.state` stringifies undefined as "undefined"
    let url1 := replaceFirstS (replaceFirstS (replaceFirstS req.url
      ("state=" ++ st.getD "undefined") "state=STATE")
      ("nonce=" ++ no.getD "undefined") "nonce=NONCE")
      "profile%20email%20openid" "openid%20profile%20email"
    ({ method := req.method, url := url1, headers := hDel h10 "cookie" },
      { isAuthorizeReq := true, responseMode := qGet q "response_mode",
        state := st, nonce := no, cookie := some cookie1 })
  else if req.url = "/api/v1/authn" then
    ({ req with headers := hDel h10 "cookie" }, { cookie := some cookie1 })
  else if containsS req.url "/sessions/me" && (req.method = "DELETE") then
    ({ req with headers := h10 }, { cookie := some cookie1 })
  else if "/oauth2/v1/authorize/redirect".isPrefixOf req.url then
    ({ req with headers := h10 }, { isRedirectCallback := true })
  else if "/oauth2/default/v1/token".isPrefixOf req.url then
    ({ req with headers := h10 }, { isTokenReq := true })
  else if !record && containsS req.url "/oauth2/default/v1/userinfo" then
    ({ req with headers := hSet h10 "authorization" ("Bearer " ++ keys_accessToken) }, {})
  else
    ({ req with headers := h10 }, {})

/-- `util.mapRequestToCache(req, record)` (`util.js` lines 132-253), assembled
from the stages above in source order.  Returns the rewritten request together
with the Session Extract. -/
def mapRequestToCache (req : Req) (record : Bool) : Except String (Req × SessionData) :=
  match normPreflight req (normBase req) with
  | .error e => .error e
  | .ok h8 =>
    let hc := normCookieCache h8
    .ok (normFlow req record hc.1 hc.2)

/-! ## URL rewriting (`util.js` lines 269-284) -/

/-- The Endpoint Configuration, pre-parsed: `url.parse(data.proxied)` fields and
`url.parse(data.cdn).host` (the `url` module is an external collaborator). -/
structure Cfg where
  proxy : String
  proxiedProtocol : String
  proxiedHostname : String
  proxiedPort : Option String
  cdnHost : String
deriving DecidableEq

/-- `replaceUrls(str, data)` (`util.js` lines 269-284): globally replace
`protocol.{3,12}hostname` — with a mandatory `.{1,4}port` suffix when the
proxied url carries a port — and `(https:)?//cdnhost` by the proxy url, in
that order ('.' in the interpolated host strings is a regex wildcard). -/
def replaceUrls (str : String) (cfg : Cfg) : String :=
  let protoPats := regexOfChars ⟨cfg.proxiedProtocol.data.dropLast⟩
  let hostPats := regexOfChars cfg.proxiedHostname
  let portPats := cfg.proxiedPort.map regexOfChars
  let cdnPats := regexOfChars ("//" ++ cfg.cdnHost)
  let s1 := replaceAllMatches (matchHostPat protoPats hostPats portPats) cfg.proxy.data str.data
  let s2 := replaceAllMatches (matchCdnPat cdnPats) cfg.proxy.data s1
  ⟨s2⟩

/-! ## Response reconstruction (`util.js` lines 385-411 and 439-502) -/

/-- Response header values: Node response headers may be strings or arrays
(e.g. `set-cookie`); only strings are URL-rewritten. -/
inductive HVal where
  | str (s : String)
  | arr (l : List String)
deriving DecidableEq

abbrev RHeaders := List (String × HVal)

def rGet : RHeaders → String → Option HVal
  | [], _ => none
  | (k', v) :: t, k => if k' = k then some v else rGet t k

def rSet : RHeaders → String → HVal → RHeaders
  | [], k, v => [(k, v)]
  | p :: t, k, v => if p.1 = k then (k, v) :: t else p :: rSet t k v

def rDel (h : RHeaders) (k : String) : RHeaders := h.filter fun p => ¬(p.1 = k)

/-- `util.mapCachedHeadersToResponse(headers, data, record)` (`util.js` lines
385-411).  `Except` models the throw of `mapped.location.replace` when
`location` is absent or not a string on a redirect callback. -/
def mapCachedHeadersToResponse (headers : RHeaders) (cfg : Cfg) (d : SessionData)
    (record : Bool) : Except String RHeaders :=
  let mapped := headers.map fun p =>
    (p.1, match p.2 with
          | .str s => .str (replaceUrls s cfg)
          | v => v)
  match (if d.isRedirectCallback then
      match rGet mapped "location" with
      | some (.str loc) =>
        Except.ok (rSet mapped "location"
          (.str (replaceFirstS loc "state=STATE" ("state=" ++ d.state.getD "undefined"))))
      | _ => Except.error "TypeError: mapped.location.replace is not a function"
    else Except.ok mapped) with
  | .error e => .error e
  | .ok m2 =>
    let m3 := rSet (rSet m2 "cache-control" (.str "no-cache, no-store")) "pragma" (.str "no-cache")
    .ok (rDel (rDel m3 "etag") "last-modified")

/-- Marker regex `/data.id_token = '([^']+)'/` (`util.js` line 449). -/
def idTokenAuthPre : List MPat :=
  [.lit 'd', .lit 'a', .lit 't', .lit 'a', .any] ++ litPats "id_token = '"

/-- Marker regex `/"access_token":"([^"]+)"/` (`util.js` lines 457 and 481). -/
def accessTokenPre : List MPat := litPats "\"access_token\":\""

/-- Marker regex `/"id_token":"([^"]+)"/` (`util.js` lines 473 and 491). -/
def idTokenJsonPre : List MPat := litPats "\"id_token\":\""

/-- `JVal` of a possibly-absent session string (an absent field is JS
`undefined`). -/
def jvalOfOpt : Option String → JVal
  | some s => .str s
  | none => .undefv

/-- `util.mapCachedBodyToResponse(chunk, data, record)` (`util.js` lines
439-502), with the Endpoint Configuration part of `data` passed as `cfg` and
the wall clock as `now`.  `Except` models the TypeError thrown when a marker
regex does not match (`.match(...)[1]` on `null`) and propagated swap errors. -/
def mapCachedBodyToResponse (chunk : String) (cfg : Cfg) (d : SessionData)
    (record : Bool) (now : Nat) : Except String String := do
  -- line 441
  let newChunk := replaceUrls chunk cfg
  -- line 444
  let issuer := cfg.proxy ++ "/oauth2/default"
  -- lines 448-463
  let newChunk ←
    if d.isAuthorizeReq && (d.responseMode == some "okta_post_message") then do
      match findCapL idTokenAuthPre '\'' newChunk.data with
      | none => Except.error "TypeError: cannot read 1 of null"
      | some idTok => do
        let newIdToken ← swapIdToken ⟨idTok⟩ (jvalOfOpt d.nonce) (.str issuer) .undefv now
        let c1 : String := ⟨replaceFirstL idTok newIdToken.data newChunk.data⟩
        match findCapL accessTokenPre '"' c1.data with
        | none => Except.error "TypeError: cannot read 1 of null"
        | some accTok => do
          let newAccessToken ← swapAccessToken ⟨accTok⟩ (jvalOfOpt d.nonce) (.str issuer) now
          pure (⟨replaceFirstL accTok newAccessToken.data c1.data⟩ : String)
    else pure newChunk
  -- lines 469-499
  let newChunk ←
    if d.isTokenReq then
      if record then do
        match findCapL idTokenJsonPre '"' newChunk.data with
        | none => Except.error "TypeError: cannot read 1 of null"
        | some idTok => do
          let newIdToken ← swapIdToken ⟨idTok⟩ (jvalOfOpt d.nonce) (.str issuer) .undefv now
          pure (⟨replaceFirstL idTok newIdToken.data newChunk.data⟩ : String)
      else do
        match findCapL accessTokenPre '"' newChunk.data with
        | none => Except.error "TypeError: cannot read 1 of null"
        | some accTok => do
          let newAccessToken ← swapAccessToken ⟨accTok⟩ (jvalOfOpt d.nonce) (.str issuer) now
          let c1 : String := ⟨replaceFirstL accTok newAccessToken.data newChunk.data⟩
          let atHash := tokenHash_generate newAccessToken
          match findCapL idTokenJsonPre '"' c1.data with
          | none => Except.error "TypeError: cannot read 1 of null"
          | some idTok => do
            let newIdToken ← swapIdToken ⟨idTok⟩ (jvalOfOpt d.nonce) (.str issuer)
              (.str atHash) now
            pure (⟨replaceFirstL idTok newIdToken.data c1.data⟩ : String)
    else pure newChunk
  pure newChunk

/-! ## Association-list lemmas for header maps -/

theorem hGet_hSet_self (h : Headers) (k v : String) : hGet (hSet h k v) k = some v := by
  induction h with
  | nil => simp [hSet, hGet]
  | cons p t ih =>
    by_cases hp : p.1 = k
    · simp [hSet, hp, hGet]
    · simp only [hSet, if_neg hp, hGet, ih]

theorem hGet_hSet_ne (h : Headers) {k k' : String} (v : String) (hne : k' ≠ k) :
    hGet (hSet h k v) k' = hGet h k' := by
  induction h with
  | nil => simp [hSet, hGet, Ne.symm hne]
  | cons p t ih =>
    by_cases hp : p.1 = k
    · simp only [hSet, if_pos hp, hGet, if_neg (Ne.symm hne), if_neg (hp ▸ Ne.symm hne)]
    · rw [show hSet (p :: t) k v = p :: hSet t k v from by simp [hSet, hp]]
      by_cases hp' : p.1 = k'
      · simp [hGet, hp']
      · simp only [hGet, if_neg hp', ih]

theorem hGet_hDel_self (h : Headers) (k : String) : hGet (hDel h k) k = none := by
  induction h with
  | nil => rfl
  | cons p t ih =>
    by_cases hp : p.1 = k
    · simpa [hDel, List.filter_cons, hp] using ih
    · rw [show hDel (p :: t) k = p :: hDel t k from by simp [hDel, List.filter_cons, hp]]
      simp only [hGet, if_neg hp]
      exact ih

theorem hGet_hDel_ne (h : Headers) {k k' : String} (hne : k' ≠ k) :
    hGet (hDel h k) k' = hGet h k' := by
  induction h with
  | nil => rfl
  | cons p t ih =>
    by_cases hp : p.1 = k
    · rw [show hDel (p :: t) k = hDel t k from by simp [hDel, List.filter_cons, hp]]
      rw [show hGet (p :: t) k' = hGet t k' from by
        simp [hGet, if_neg (hp ▸ Ne.symm hne)]]
      exact ih
    · rw [show hDel (p :: t) k = p :: hDel t k from by simp [hDel, List.filter_cons, hp]]
      by_cases hp' : p.1 = k'
      · simp [hGet, hp']
      · simp only [hGet, if_neg hp']
        exact ih

theorem hDel_of_hGet_none {h : Headers} {k : String} (hn : hGet h k = none) :
    hDel h k = h := by
  induction h with
  | nil => rfl
  | cons p t ih =>
    by_cases hp : p.1 = k
    · simp [hGet, hp] at hn
    · simp only [hGet, if_neg hp] at hn
      rw [show hDel (p :: t) k = p :: hDel t k from by simp [hDel, List.filter_cons, hp]]
      rw [ih hn]

theorem hSet_of_hGet_some {h : Headers} {k v : String} (hs : hGet h k = some v) :
    hSet h k v = h := by
  induction h with
  | nil => simp [hGet] at hs
  | cons p t ih =>
    by_cases hp : p.1 = k
    · simp only [hGet, if_pos hp, Option.some.injEq] at hs
      obtain ⟨p1, p2⟩ := p
      simp only at hp hs
      simp [hSet, hp, hs]
    · simp only [hGet, if_neg hp] at hs
      simp only [hSet, if_neg hp, ih hs]

theorem hDel_append_single_self {h : Headers} {k : String} (v : String)
    (hn : hGet h k = none) : hDel (h ++ [(k, v)]) k = h := by
  induction h with
  | nil => simp [hDel, List.filter_cons]
  | cons p t ih =>
    by_cases hp : p.1 = k
    · simp [hGet, hp] at hn
    · simp only [hGet, if_neg hp] at hn
      simp only [List.cons_append]
      rw [show hDel (p :: (t ++ [(k, v)])) k = p :: hDel (t ++ [(k, v)]) k from by
        simp [hDel, List.filter_cons, hp]]
      rw [ih hn]

theorem hSet_append_of_none {h : Headers} {k : String} (v : String)
    (hn : hGet h k = none) : hSet h k v = h ++ [(k, v)] := by
  induction h with
  | nil => simp [hSet]
  | cons p t ih =>
    by_cases hp : p.1 = k
    · simp [hGet, hp] at hn
    · simp only [hGet, if_neg hp] at hn
      simp only [hSet, if_neg hp, List.cons_append, ih hn]

theorem hGet_append_single_ne (h : Headers) {k k' : String} (v : String) (hne : k' ≠ k) :
    hGet (h ++ [(k, v)]) k' = hGet h k' := by
  induction h with
  | nil => simp [hGet, if_neg (Ne.symm hne)]
  | cons p t ih =>
    by_cases hp' : p.1 = k'
    · simp [hGet, hp']
    · simp only [List.cons_append, hGet, if_neg hp']
      exact ih

theorem rGet_rSet_self (h : RHeaders) (k : String) (v : HVal) : rGet (rSet h k v) k = some v := by
  induction h with
  | nil => simp [rSet, rGet]
  | cons p t ih =>
    by_cases hp : p.1 = k
    · simp [rSet, hp, rGet]
    · simp only [rSet, if_neg hp, rGet, ih]

theorem rGet_rSet_ne (h : RHeaders) {k k' : String} (v : HVal) (hne : k' ≠ k) :
    rGet (rSet h k v) k' = rGet h k' := by
  induction h with
  | nil => simp [rSet, rGet, Ne.symm hne]
  | cons p t ih =>
    by_cases hp : p.1 = k
    · simp only [rSet, if_pos hp, rGet, if_neg (Ne.symm hne), if_neg (hp ▸ Ne.symm hne)]
    · rw [show rSet (p :: t) k v = p :: rSet t k v from by simp [rSet, hp]]
      by_cases hp' : p.1 = k'
      · simp [rGet, hp']
      · simp only [rGet, if_neg hp', ih]

theorem rGet_rDel_self (h : RHeaders) (k : String) : rGet (rDel h k) k = none := by
  induction h with
  | nil => rfl
  | cons p t ih =>
    by_cases hp : p.1 = k
    · simpa [rDel, List.filter_cons, hp] using ih
    · rw [show rDel (p :: t) k = p :: rDel t k from by simp [rDel, List.filter_cons, hp]]
      simp only [rGet, if_neg hp]
      exact ih

theorem rGet_rDel_ne (h : RHeaders) {k k' : String} (hne : k' ≠ k) :
    rGet (rDel h k) k' = rGet h k' := by
  induction h with
  | nil => rfl
  | cons p t ih =>
    by_cases hp : p.1 = k
    · rw [show rDel (p :: t) k = rDel t k from by simp [rDel, List.filter_cons, hp]]
      rw [show rGet (p :: t) k' = rGet t k' from by
        simp [rGet, if_neg (hp ▸ Ne.symm hne)]]
      exact ih
    · rw [show rDel (p :: t) k = p :: rDel t k from by simp [rDel, List.filter_cons, hp]]
      by_cases hp' : p.1 = k'
      · simp [rGet, hp']
      · simp only [rGet, if_neg hp']
        exact ih

theorem rGet_map_rewrite (h : RHeaders) (f : HVal → HVal) (k : String) :
    rGet (h.map fun p => (p.1, f p.2)) k = (rGet h k).map f := by
  induction h with
  | nil => rfl
  | cons p t ih =>
    by_cases hp : p.1 = k
    · simp [rGet, hp]
    · simp only [List.map_cons, rGet, if_neg hp, ih]

/-! ## JSON object lemmas -/

theorem objGet_objSet_self (o : JsObj) (k : String) (v : JVal) :
    objGet (objSet o k v) k = some v := by
  induction o with
  | nil => simp [objSet, objGet]
  | cons p t ih =>
    by_cases hp : p.1 = k
    · simp [objSet, hp, objGet]
    · simp only [objSet, if_neg hp, objGet, ih]

theorem objGet_objSet_ne (o : JsObj) {k k' : String} (v : JVal) (hne : k' ≠ k) :
    objGet (objSet o k v) k' = objGet o k' := by
  induction o with
  | nil => simp [objSet, objGet, Ne.symm hne]
  | cons p t ih =>
    by_cases hp : p.1 = k
    · simp only [objSet, if_pos hp, objGet, if_neg (Ne.symm hne), if_neg (hp ▸ Ne.symm hne)]
    · rw [show objSet (p :: t) k v = p :: objSet t k v from by simp [objSet, hp]]
      by_cases hp' : p.1 = k'
      · simp [objGet, hp']
      · simp only [objGet, if_neg hp', ih]

/-! ## Decimal printing round trip -/

theorem natDigitsAux_eq_digits {fuel n : Nat} (h : n ≤ fuel) :
    natDigitsAux fuel n = Nat.digits 10 n := by
  induction fuel generalizing n with
  | zero =>
    interval_cases n
    simp [natDigitsAux]
  | succ f ih =>
    cases n with
    | zero => simp [natDigitsAux]
    | succ m =>
      rw [natDigitsAux]
      have hle : (m + 1) / 10 ≤ f := by omega
      rw [ih hle, Nat.digits_def' (by norm_num : (1 : ℕ) < 10) (Nat.succ_pos m)]

theorem digits_foldl (ds : List Nat) (hd : ∀ d ∈ ds, d < 10) (a : Nat) :
    ((ds.map Nat.digitChar).reverse).foldl (fun acc c => acc * 10 + (c.toNat - 48)) a
      = a * 10 ^ ds.length + Nat.ofDigits 10 ds := by
  induction ds generalizing a with
  | nil => simp [Nat.ofDigits]
  | cons d t ih =>
    simp only [List.map_cons, List.reverse_cons, List.foldl_append, List.foldl_cons,
      List.foldl_nil]
    rw [ih (fun x hx => hd x (List.mem_cons_of_mem _ hx))]
    have hval : (Nat.digitChar d).toNat - 48 = d := by
      have hlt := hd d (List.mem_cons_self _ _)
      interval_cases d <;> decide
    rw [hval, Nat.ofDigits_cons]
    simp only [List.length_cons]
    ring

theorem natParse_natPrint (n : Nat) :
    (natPrintL n).foldl (fun a c => a * 10 + (c.toNat - 48)) 0 = n := by
  unfold natPrintL
  split
  · next h => subst h; decide
  · next h =>
    rw [natDigitsAux_eq_digits le_rfl]
    rw [digits_foldl _ (fun d hd => Nat.digits_lt_base (by norm_num) hd) 0]
    simp [Nat.ofDigits_digits]

theorem natPrintL_digits {n : Nat} {c : Char} (h : c ∈ natPrintL n) : c.isDigit = true := by
  unfold natPrintL at h
  split at h
  · simp only [List.mem_singleton] at h
    subst h
    decide
  · rw [natDigitsAux_eq_digits le_rfl] at h
    rw [List.mem_reverse] at h
    rcases List.mem_map.1 h with ⟨d, hd, rfl⟩
    have := Nat.digits_lt_base (by norm_num : (1:ℕ) < 10) hd
    interval_cases d <;> decide

theorem natPrintL_ne_nil (n : Nat) : natPrintL n ≠ [] := by
  unfold natPrintL
  split
  · simp
  · next h =>
    rw [natDigitsAux_eq_digits le_rfl]
    simp only [ne_eq, List.reverse_eq_nil_iff, List.map_eq_nil_iff]
    exact fun hh => h (Nat.digits_eq_nil_iff_eq_zero.1 hh)

/-! ## JSON print/parse round trip -/

theorem strMkData (s : String) : String.mk s.data = s := by
  cases s
  rfl

theorem takeWhile_append_of_all {α} (p : α → Bool) {a : List α} (ha : ∀ c ∈ a, p c = true)
    {x : α} (hx : p x = false) (b : List α) : (a ++ x :: b).takeWhile p = a := by
  induction a with
  | nil => simp [List.takeWhile_cons, hx]
  | cons c t ih =>
    have hc : p c = true := ha c (List.mem_cons_self _ _)
    have ih' := ih fun d hd => ha d (List.mem_cons_of_mem _ hd)
    simp [List.takeWhile_cons, hc, ih']

theorem dropWhile_append_of_all {α} (p : α → Bool) {a : List α} (ha : ∀ c ∈ a, p c = true)
    {x : α} (hx : p x = false) (b : List α) : (a ++ x :: b).dropWhile p = x :: b := by
  induction a with
  | nil => simp [List.dropWhile_cons, hx]
  | cons c t ih =>
    have hc : p c = true := ha c (List.mem_cons_self _ _)
    simp only [List.cons_append, List.dropWhile_cons, hc, if_pos]
    exact ih (fun d hd => ha d (List.mem_cons_of_mem _ hd))

theorem strOk_ne_quote {s : String} (hs : strOk s = true) : ∀ c ∈ s.data, c ≠ '"' := by
  intro c hc
  have := (List.all_eq_true.1 hs) c hc
  simpa using this

theorem parseStringLit_printed {s : String} (hs : strOk s = true) (rest : List Char) :
    parseStringLit (s.data ++ '"' :: rest) = some (s, rest) := by
  unfold parseStringLit
  have hall : ∀ c ∈ s.data, (fun c => decide (c ≠ '"')) c = true := by
    intro c hc
    simpa using strOk_ne_quote hs c hc
  have hq : (fun c => decide (c ≠ '"')) '"' = false := by decide
  rw [dropWhile_append_of_all _ hall hq, takeWhile_append_of_all _ hall hq]
  rw [strMkData]
  rfl

theorem isDigit_ne_quote {c : Char} (h : c.isDigit = true) : c ≠ '"' := by
  intro he
  subst he
  simp at h

theorem parseNatLit_printed (n : Nat) {c0 : Char} (hc : c0.isDigit = false)
    (rr : List Char) : parseNatLit (natPrintL n ++ c0 :: rr) = some (n, c0 :: rr) := by
  unfold parseNatLit
  have hall : ∀ c ∈ natPrintL n, Char.isDigit c = true := fun c hc => natPrintL_digits hc
  rw [takeWhile_append_of_all _ hall hc, dropWhile_append_of_all _ hall hc]
  have hne : (natPrintL n).isEmpty = false := by
    cases h : natPrintL n with
    | nil => exact absurd h (natPrintL_ne_nil n)
    | cons a t => simp [List.isEmpty]
  simp only [hne, Bool.false_eq_true, if_false, natParse_natPrint]

theorem parseVal_printed {v : JVal} (hv : valOk v = true) (hu : v ≠ .undefv) {c0 : Char}
    (hc0 : c0.isDigit = false) (rr : List Char) :
    parseVal (printVal v ++ c0 :: rr) = some (v, c0 :: rr) := by
  cases v with
  | undefv => exact absurd rfl hu
  | str s =>
    show parseVal ('"' :: (s.data ++ ['"'] ++ c0 :: rr)) = some (.str s, c0 :: rr)
    rw [parseVal]
    rw [if_pos rfl]
    rw [List.append_assoc, List.singleton_append]
    rw [parseStringLit_printed hv]
    rfl
  | num n =>
    show parseVal (natPrintL n ++ c0 :: rr) = some (.num n, c0 :: rr)
    obtain ⟨d, ds, hds⟩ : ∃ d ds, natPrintL n = d :: ds := by
      cases h : natPrintL n with
      | nil => exact absurd h (natPrintL_ne_nil n)
      | cons a t => exact ⟨a, t, rfl⟩
    have hd : d.isDigit = true := natPrintL_digits (hds ▸ List.mem_cons_self d ds)
    rw [hds, List.cons_append, parseVal, if_neg (isDigit_ne_quote hd), ← List.cons_append,
      ← hds, parseNatLit_printed n hc0]
    rfl

theorem parseEntry_printed {k : String} {v : JVal} (hk : strOk k = true) (hv : valOk v = true)
    (hu : v ≠ .undefv) {c0 : Char} (hc0 : c0.isDigit = false) (rr : List Char) :
    parseEntry (printEntry (k, v) ++ c0 :: rr) = some ((k, v), c0 :: rr) := by
  show parseEntry ('"' :: (k.data ++ ['"', ':'] ++ printVal v ++ c0 :: rr)) =
    some ((k, v), c0 :: rr)
  rw [parseEntry]
  have : k.data ++ ['"', ':'] ++ printVal v ++ c0 :: rr =
      k.data ++ '"' :: (':' :: (printVal v ++ c0 :: rr)) := by
    simp
  rw [this, parseStringLit_printed hk]
  simp only [Option.bind_eq_bind, Option.some_bind]
  rw [parseVal_printed hv hu hc0]
  rfl

theorem intercalate_cons₂ {α} (s : List α) (a b : List α) (t : List (List α)) :
    List.intercalate s (a :: b :: t) = a ++ s ++ List.intercalate s (b :: t) := by
  simp [List.intercalate, List.intersperse]

theorem entries_length_le (o : JsObj) :
    o.length ≤ (List.intercalate [','] (o.map printEntry)).length + 1 := by
  match o with
  | [] => simp
  | [p] => simp
  | p :: q :: t =>
    have ih := entries_length_le (q :: t)
    have hpe : 1 ≤ (printEntry p).length := by
      show 1 ≤ (('"' : Char) :: (p.1.data ++ ['"', ':'] ++ printVal p.2)).length
      simp
    rw [show List.map printEntry (p :: q :: t) =
      printEntry p :: printEntry q :: List.map printEntry t from by simp]
    rw [intercalate_cons₂]
    rw [show List.map printEntry (q :: t) =
      printEntry q :: List.map printEntry t from by simp] at ih
    simp only [List.length_cons, List.length_append] at *
    omega

theorem objSet_append_of_none {o : JsObj} {k : String} (v : JVal)
    (hn : objGet o k = none) : objSet o k v = o ++ [(k, v)] := by
  induction o with
  | nil => simp [objSet]
  | cons p t ih =>
    by_cases hp : p.1 = k
    · simp [objGet, hp] at hn
    · simp only [objGet, if_neg hp] at hn
      simp only [objSet, if_neg hp, List.cons_append, ih hn]

theorem objGet_append_single_ne (o : JsObj) {k k' : String} (v : JVal) (hne : k' ≠ k) :
    objGet (o ++ [(k, v)]) k' = objGet o k' := by
  induction o with
  | nil => simp [objGet, if_neg (Ne.symm hne)]
  | cons p t ih =>
    by_cases hp' : p.1 = k'
    · simp [objGet, hp']
    · simp only [List.cons_append, objGet, if_neg hp']
      exact ih

theorem foldl_objSet_of_nodup {o : JsObj} (hnd : (o.map Prod.fst).Nodup) {acc : JsObj}
    (hacc : ∀ p ∈ o, objGet acc p.1 = none) :
    o.foldl (fun a p => objSet a p.1 p.2) acc = acc ++ o := by
  induction o generalizing acc with
  | nil => simp
  | cons p t ih =>
    simp only [List.map_cons, List.nodup_cons] at hnd
    simp only [List.foldl_cons]
    rw [objSet_append_of_none p.2 (hacc p (List.mem_cons_self _ _))]
    have hacc' : ∀ q ∈ t, objGet (acc ++ [(p.1, p.2)]) q.1 = none := by
      intro q hq
      have hne : q.1 ≠ p.1 := fun he => hnd.1 (he ▸ List.mem_map.2 ⟨q, hq, rfl⟩)
      rw [objGet_append_single_ne acc p.2 hne]
      exact hacc q (List.mem_cons_of_mem _ hq)
    rw [ih hnd.2 hacc']
    simp

theorem parseEntriesAux_printed {o : JsObj} (ho : o ≠ [])
    (hwf : ∀ p ∈ o, strOk p.1 = true ∧ valOk p.2 = true ∧ p.2 ≠ .undefv)
    (acc : JsObj) {fuel : Nat} (hfuel : o.length ≤ fuel) :
    parseEntriesAux fuel acc (List.intercalate [','] (o.map printEntry) ++ ['}']) =
      some (o.foldl (fun a p => objSet a p.1 p.2) acc) := by
  match o with
  | [] => exact absurd rfl ho
  | [p] =>
    match fuel with
    | 0 => simp at hfuel
    | f + 1 =>
      obtain ⟨hk, hv, hu⟩ := hwf p (List.mem_cons_self _ _)
      rw [show List.intercalate [','] ([p].map printEntry) = printEntry p from by
        simp [List.intercalate, List.intersperse]]
      rw [show printEntry p ++ ['}'] = printEntry (p.1, p.2) ++ '}' :: [] from by simp]
      rw [parseEntriesAux, parseEntry_printed hk hv hu (by decide)]
      simp
  | p :: q :: t =>
    match fuel with
    | 0 => simp at hfuel
    | f + 1 =>
      obtain ⟨hk, hv, hu⟩ := hwf p (List.mem_cons_self _ _)
      rw [show (p :: q :: t).map printEntry =
        printEntry p :: printEntry q :: t.map printEntry from by simp]
      rw [intercalate_cons₂]
      rw [show printEntry p ++ [','] ++ List.intercalate [','] (printEntry q :: t.map printEntry)
          ++ ['}'] = printEntry (p.1, p.2) ++ ',' ::
          (List.intercalate [','] ((q :: t).map printEntry) ++ ['}']) from by simp]
      rw [parseEntriesAux, parseEntry_printed hk hv hu (by decide)]
      simp only [Option.bind_eq_bind, Option.some_bind]
      have ih := @parseEntriesAux_printed (q :: t) (by simp)
        (fun r hr => hwf r (List.mem_cons_of_mem _ hr))
        (objSet acc p.1 p.2) f (by simp at hfuel ⊢; omega)
      rw [ih]
      simp

/-- Main round trip: printing a well-formed flat object and parsing it back
yields the object minus its `undefined` properties. -/
theorem parseObj_stringify {o : JsObj} (hwf : wfObj o) :
    parseObj (stringifyObj o) = some (stripUndef o) := by
  obtain ⟨hnd, hok⟩ := hwf
  have hsub : ∀ p ∈ stripUndef o, strOk p.1 = true ∧ valOk p.2 = true ∧ p.2 ≠ .undefv := by
    intro p hp
    have hmem := List.mem_of_mem_filter hp
    have hne : p.2 ≠ .undefv := by
      have := List.of_mem_filter hp
      simpa using this
    exact ⟨(hok p hmem).1, (hok p hmem).2, hne⟩
  have hndsub : ((stripUndef o).map Prod.fst).Nodup :=
    hnd.sublist ((List.filter_sublist o).map Prod.fst)
  cases hstrip : stripUndef o with
  | nil =>
    show parseObj ⟨'{' :: (List.intercalate [','] ((stripUndef o).map printEntry) ++ ['}'])⟩
      = some []
    rw [hstrip]
    rfl
  | cons p t =>
    show parseObj ⟨'{' :: (List.intercalate [','] ((stripUndef o).map printEntry) ++ ['}'])⟩
      = some (p :: t)
    rw [hstrip]
    have hfuel : (p :: t).length ≤
        (List.intercalate [','] ((p :: t).map printEntry) ++ ['}']).length := by
      have := entries_length_le (p :: t)
      simp only [List.length_append, List.length_cons, List.length_nil] at *
      omega
    have hent := @parseEntriesAux_printed (p :: t) (by simp) (hstrip ▸ hsub) ([] : JsObj)
      ((List.intercalate [','] ((p :: t).map printEntry) ++ ['}']).length + 1)
      (hfuel.trans (by omega))
    have hfold : (p :: t).foldl (fun a r => objSet a r.1 r.2) ([] : JsObj) = p :: t := by
      have hres := foldl_objSet_of_nodup (hstrip ▸ hndsub)
        (fun q hq => (rfl : objGet [] q.1 = none))
      simpa using hres
    obtain ⟨ds, hds⟩ : ∃ ds, List.intercalate [','] ((p :: t).map printEntry) ++ ['}'] =
        '"' :: (ds : List Char) := by
      rw [show (p :: t).map printEntry = printEntry p :: t.map printEntry from by simp]
      cases ht : t.map printEntry with
      | nil =>
        refine ⟨(p.1.data ++ ['"', ':'] ++ printVal p.2) ++ ['}'], ?_⟩
        simp [List.intercalate, List.intersperse, printEntry]
      | cons x xs =>
        refine ⟨(p.1.data ++ ['"', ':'] ++ printVal p.2) ++ [','] ++
          List.intercalate [','] (x :: xs) ++ ['}'], ?_⟩
        rw [intercalate_cons₂]
        simp [printEntry]
    rw [hfold] at hent
    -- reduce `parseObj` on a string whose body starts with `"`
    have hred : parseObj ⟨'{' :: (List.intercalate [','] ((p :: t).map printEntry)
        ++ ['}'])⟩ =
        parseEntriesAux ((List.intercalate [','] ((p :: t).map printEntry)
          ++ ['}']).length + 1) []
          (List.intercalate [','] ((p :: t).map printEntry) ++ ['}']) := by
      rw [hds]
      rfl
    rw [hred]
    exact hent

/-- No property of the object holds JS `undefined`. -/
def noUndef (o : JsObj) : Prop := ∀ p ∈ o, p.2 ≠ JVal.undefv

theorem stripUndef_eq_self {o : JsObj} (h : noUndef o) : stripUndef o = o := by
  unfold stripUndef
  apply List.filter_eq_self.2
  intro p hp
  simpa using h p hp

theorem parseStringLit_strOk {s : List Char} {k : String} {r : List Char}
    (h : parseStringLit s = some (k, r)) : strOk k = true := by
  unfold parseStringLit at h
  split at h
  · next heq =>
    simp only [Option.some.injEq, Prod.mk.injEq] at h
    obtain ⟨hk, _⟩ := h
    subst hk
    apply List.all_eq_true.2
    intro c hc
    have := List.mem_takeWhile_imp hc
    simpa using this
  · exact absurd h (by simp)

theorem parseVal_ok {s : List Char} {v : JVal} {r : List Char}
    (h : parseVal s = some (v, r)) : valOk v = true ∧ v ≠ .undefv := by
  match s with
  | [] => exact absurd h (by simp [parseVal])
  | c :: cs =>
    rw [parseVal] at h
    split at h
    · match hs : parseStringLit cs with
      | none => rw [hs] at h; exact absurd h (by simp)
      | some (k, r') =>
        rw [hs] at h
        simp only [Option.map_some', Option.some.injEq, Prod.mk.injEq] at h
        obtain ⟨hv, _⟩ := h
        subst hv
        exact ⟨parseStringLit_strOk hs, by simp⟩
    · match hs : parseNatLit (c :: cs) with
      | none => rw [hs] at h; exact absurd h (by simp)
      | some (n, r') =>
        rw [hs] at h
        simp only [Option.map_some', Option.some.injEq, Prod.mk.injEq] at h
        obtain ⟨hv, _⟩ := h
        subst hv
        exact ⟨rfl, by simp⟩

theorem parseEntry_ok {s : List Char} {k : String} {v : JVal} {r : List Char}
    (h : parseEntry s = some ((k, v), r)) :
    strOk k = true ∧ valOk v = true ∧ v ≠ .undefv := by
  rw [parseEntry.eq_def] at h
  split at h
  · next cs =>
    match hs : parseStringLit cs with
    | none => rw [hs] at h; exact absurd h (by simp)
    | some (k', r1) =>
      rw [hs] at h
      simp only [Option.bind_eq_bind, Option.some_bind] at h
      split at h
      · next r2 =>
        match hv : parseVal r2 with
        | none => rw [hv] at h; exact absurd h (by simp)
        | some (v', r3) =>
          rw [hv] at h
          simp only [Option.bind_eq_bind, Option.some_bind, pure, Option.some.injEq,
            Prod.mk.injEq] at h
          obtain ⟨⟨hk, hvv⟩, _⟩ := h
          subst hk
          subst hvv
          exact ⟨parseStringLit_strOk hs, parseVal_ok hv⟩
      · exact absurd h (by simp)
  · exact absurd h (by simp)

theorem map_fst_objSet (o : JsObj) (k : String) (v : JVal) :
    (objSet o k v).map Prod.fst =
      if k ∈ o.map Prod.fst then o.map Prod.fst else o.map Prod.fst ++ [k] := by
  induction o with
  | nil => simp [objSet]
  | cons p t ih =>
    by_cases hp : p.1 = k
    · simp [objSet, hp]
    · rw [show objSet (p :: t) k v = p :: objSet t k v from by simp [objSet, hp]]
      simp only [List.map_cons, ih]
      have hne : ¬ k = p.1 := fun hh => hp hh.symm
      by_cases hm : k ∈ t.map Prod.fst
      · simp [hm, hne]
      · simp [hm, hne]

theorem mem_objSet {o : JsObj} {k : String} {v : JVal} {q : String × JVal}
    (h : q ∈ objSet o k v) : q = (k, v) ∨ q ∈ o := by
  induction o with
  | nil => simpa [objSet] using h
  | cons p t ih =>
    by_cases hp : p.1 = k
    · rw [show objSet (p :: t) k v = (k, v) :: t from by simp [objSet, hp]] at h
      rcases List.mem_cons.1 h with rfl | h'
      · exact Or.inl rfl
      · exact Or.inr (List.mem_cons_of_mem _ h')
    · rw [show objSet (p :: t) k v = p :: objSet t k v from by simp [objSet, hp]] at h
      rcases List.mem_cons.1 h with rfl | h'
      · exact Or.inr (List.mem_cons_self _ _)
      · rcases ih h' with h'' | h''
        · exact Or.inl h''
        · exact Or.inr (List.mem_cons_of_mem _ h'')

theorem wfObj_objSet {o : JsObj} (hwf : wfObj o) {k : String} {v : JVal}
    (hk : strOk k = true) (hv : valOk v = true) : wfObj (objSet o k v) := by
  obtain ⟨hnd, hok⟩ := hwf
  constructor
  · rw [map_fst_objSet]
    split
    · exact hnd
    · next hm =>
      rw [List.nodup_append]
      refine ⟨hnd, by simp, ?_⟩
      intro a ha
      simp only [List.mem_singleton]
      exact fun hae => hm (hae ▸ ha)
  · intro p hp
    rcases mem_objSet hp with rfl | hp'
    · exact ⟨hk, hv⟩
    · exact hok p hp'

theorem noUndef_objSet {o : JsObj} (hnu : noUndef o) {k : String} {v : JVal}
    (hv : v ≠ .undefv) : noUndef (objSet o k v) := by
  intro p hp
  rcases mem_objSet hp with rfl | hp'
  · exact hv
  · exact hnu p hp'

theorem parseEntriesAux_wf : ∀ {fuel : Nat} {acc : JsObj} {s : List Char} {o : JsObj},
    parseEntriesAux fuel acc s = some o → wfObj acc → noUndef acc →
    wfObj o ∧ noUndef o := by
  intro fuel
  induction fuel with
  | zero => intro acc s o h; exact absurd h (by simp [parseEntriesAux])
  | succ f ih =>
    intro acc s o h hwf hnu
    rw [parseEntriesAux] at h
    match he : parseEntry s with
    | none => rw [he] at h; exact absurd h (by simp)
    | some ((k, v), r) =>
      rw [he] at h
      simp only [Option.bind_eq_bind, Option.some_bind] at h
      obtain ⟨hk, hv, hu⟩ := parseEntry_ok he
      have hwf' := wfObj_objSet hwf hk hv
      have hnu' : noUndef (objSet acc k v) := noUndef_objSet hnu hu
      split at h
      · split at h
        · simp only [Option.some.injEq] at h
          subst h
          exact ⟨hwf', hnu'⟩
        · exact absurd h (by simp)
      · exact ih h hwf' hnu'
      · exact absurd h (by simp)

/-- Anything `JSON.parse` (our fragment) accepts is a well-formed object with no
`undefined` properties. -/
theorem parseObj_wf {s : String} {o : JsObj} (h : parseObj s = some o) :
    wfObj o ∧ stripUndef o = o := by
  unfold parseObj at h
  split at h
  · split at h
    · simp only [Option.some.injEq] at h
      subst h
      exact ⟨⟨by simp, by simp⟩, rfl⟩
    · exact absurd h (by simp)
  · next rest _ _ =>
    have := parseEntriesAux_wf h ⟨by simp, by simp⟩ (by intro p hp; simp at hp)
    exact ⟨this.1, stripUndef_eq_self this.2⟩
  · exact absurd h (by simp)

/-! ## jws model lemmas -/

theorem objGet_stripUndef {o : JsObj} {k : String} {v : JVal}
    (h : objGet o k = some v) (hv : v ≠ .undefv) :
    objGet (stripUndef o) k = some v := by
  induction o with
  | nil => simp [objGet] at h
  | cons p t ih =>
    by_cases hp : p.1 = k
    · simp only [objGet, if_pos hp, Option.some.injEq] at h
      subst h
      rw [show stripUndef (p :: t) = p :: stripUndef t from by
        simp [stripUndef, List.filter_cons, hv]]
      simp [objGet, hp]
    · simp only [objGet, if_neg hp] at h
      by_cases hq : p.2 = JVal.undefv
      · rw [show stripUndef (p :: t) = stripUndef t from by
          simp [stripUndef, List.filter_cons, hq]]
        exact ih h
      · rw [show stripUndef (p :: t) = p :: stripUndef t from by
          simp [stripUndef, List.filter_cons, hq]]
        simp only [objGet, if_neg hp]
        exact ih h

theorem hexAlphabet_chars : ∀ c ∈ hexAlphabet, c ≠ '.' ∧ c ≠ '"' ∧ c ≠ '\'' := by
  decide

theorem mkSig_chars {a i s : String} {x y : List Char}
    (hi : i.data = encL x ++ '.' :: encL y) {c : Char} (h : c ∈ (mkSig a i s).data) :
    c ≠ '.' ∧ c ≠ '"' ∧ c ≠ '\'' := by
  unfold mkSig at h
  simp only [String.data_append, hi] at h
  rcases List.mem_append.1 h with h' | h'
  · rcases List.mem_append.1 h' with h'' | h''
    · rcases List.mem_append.1 h'' with h3 | h3
      · fin_cases h3 <;> refine ⟨by decide, by decide, by decide⟩
      · exact hexAlphabet_chars _ (mem_encL h3)
    · fin_cases h'' <;> refine ⟨by decide, by decide, by decide⟩
  · rcases List.mem_map.1 h' with ⟨d, hd, rfl⟩
    by_cases hdot : d = '.'
    · simp only [hdot, if_pos rfl]
      refine ⟨by decide, by decide, by decide⟩
    · simp only [if_neg hdot]
      rcases List.mem_append.1 hd with h4 | h4
      · exact hexAlphabet_chars _ (mem_encL h4)
      · rcases List.mem_cons.1 h4 with rfl | h5
        · exact absurd rfl hdot
        · exact hexAlphabet_chars _ (mem_encL h5)

theorem strDataEq {a b : String} (h : a.data = b.data) : a = b := by
  rw [← strMkData a, ← strMkData b, h]

theorem dot_not_mem_encL (x : List Char) : '.' ∉ encL x := by
  intro h
  have := mem_encL h
  exact absurd this (by decide)

theorem jws_sign_eq {header claims : JsObj} {secret alg : String}
    (halg : algOf header = some alg) :
    jws_sign header claims secret = some (encS (stringifyObj header) ++ "." ++
      encS (stringifyObj claims) ++ "." ++
      mkSig alg (encS (stringifyObj header) ++ "." ++ encS (stringifyObj claims)) secret) := by
  unfold jws_sign
  rw [halg]

/-- The signing input of `jws_sign` has the `encL x ++ '.' :: encL y` shape
`mkSig_chars` wants. -/
theorem sign_input_data (header claims : JsObj) :
    (encS (stringifyObj header) ++ "." ++ encS (stringifyObj claims)).data =
      encL (stringifyObj header).data ++ '.' :: encL (stringifyObj claims).data := by
  simp [encS, String.data_append]

theorem signed_data (header claims : JsObj) (secret alg : String) :
    (encS (stringifyObj header) ++ "." ++ encS (stringifyObj claims) ++ "." ++
      mkSig alg (encS (stringifyObj header) ++ "." ++ encS (stringifyObj claims)) secret).data
    = encL (stringifyObj header).data ++ '.' ::
        (encL (stringifyObj claims).data ++ '.' ::
          (mkSig alg (encS (stringifyObj header) ++ "." ++
            encS (stringifyObj claims)) secret).data) := by
  simp [String.data_append, encS, List.append_assoc]

theorem splitOnCharL_signed (H P S : List Char)
    (hS : ∀ c ∈ S, c ≠ '.') :
    splitOnCharL '.' (encL H ++ '.' :: (encL P ++ '.' :: S)) =
      [encL H, encL P, S] := by
  rw [splitOnCharL_append_of_not_mem (dot_not_mem_encL H)]
  rw [splitOnCharL_append_of_not_mem (dot_not_mem_encL P)]
  rw [splitOnCharL_of_not_mem (fun hm => hS '.' hm rfl)]

/-- Decoding a freshly signed token: the header comes back stripped of
`undefined` properties, the payload is the printed claims. -/
theorem jws_decode_signed {header claims : JsObj} {secret alg : String}
    (halg : algOf header = some alg) (hwfh : wfObj header) {out : String}
    (hout : jws_sign header claims secret = some out) :
    jws_decode out = some ⟨stripUndef header, stringifyObj claims,
      mkSig alg (encS (stringifyObj header) ++ "." ++ encS (stringifyObj claims)) secret⟩ := by
  rw [jws_sign_eq halg] at hout
  simp only [Option.some.injEq] at hout
  subst hout
  unfold jws_decode
  rw [signed_data]
  rw [splitOnCharL_signed _ _ _ (fun c hc =>
    (mkSig_chars (sign_input_data header claims) hc).1)]
  simp only [decL_encL, Option.bind_eq_bind, Option.some_bind]
  rw [strMkData, strMkData, parseObj_stringify hwfh]
  simp only [Option.some_bind]
  rw [strMkData]
  rfl

/-- A token signed with the fixed private key verifies against the fixed
public key. -/
theorem jws_verify_signed {header claims : JsObj} {alg : String}
    (halg : algOf header = some alg) (hwfh : wfObj header)
    (halg' : objGet header "alg" = some (.str alg)) {out : String}
    (hout : jws_sign header claims keys_privatePem = some out) :
    jws_verify out keys_publicPem = true := by
  rw [jws_sign_eq halg] at hout
  simp only [Option.some.injEq] at hout
  subst hout
  unfold jws_verify
  rw [signed_data]
  rw [splitOnCharL_signed _ _ _ (fun c hc =>
    (mkSig_chars (sign_input_data header claims) hc).1)]
  simp only [decL_encL, Option.bind_eq_bind, Option.some_bind]
  rw [strMkData, parseObj_stringify hwfh]
  have halgS : algOf (stripUndef header) = some alg := by
    unfold algOf
    rw [objGet_stripUndef halg' (by simp)]
  have hpriv : privateFor keys_publicPem = keys_privatePem := by
    unfold privateFor
    rw [if_pos rfl]
  have hinput : (⟨encL (stringifyObj header).data ++ '.' ::
      encL (stringifyObj claims).data⟩ : String)
      = encS (stringifyObj header) ++ "." ++ encS (stringifyObj claims) := by
    apply strDataEq
    rw [sign_input_data]
  simp only [halgS, hpriv, hinput]
  simp

theorem algOf_eq_some {h : JsObj} {a : String} (halg : algOf h = some a) :
    objGet h "alg" = some (.str a) := by
  unfold algOf at halg
  split at halg
  · next heq =>
    simp only [Option.some.injEq] at halg
    subst halg
    exact heq
  · exact absurd halg (by simp)

theorem jws_decode_wf {tok : String} {dec : DecodedJws} (h : jws_decode tok = some dec) :
    wfObj dec.header ∧ stripUndef dec.header = dec.header := by
  unfold jws_decode at h
  split at h
  · next h64 p64 sig heq =>
    match hd : decL h64 with
      | none => rw [hd] at h; exact absurd h (by simp)
      | some hs =>
        rw [hd] at h
        simp only [Option.bind_eq_bind, Option.some_bind] at h
        match hp : parseObj ⟨hs⟩ with
        | none => rw [hp] at h; exact absurd h (by simp)
        | some header =>
          rw [hp] at h
          simp only [Option.some_bind] at h
          match hq : decL p64 with
          | none => rw [hq] at h; exact absurd h (by simp)
          | some ps =>
            rw [hq] at h
            simp only [Option.some_bind, pure, Option.some.injEq] at h
            subst h
            exact parseObj_wf hp
  · exact absurd h (by simp)

theorem swapIdToken_props {tok : String} {nonce iss at_hash : JVal} {now : Nat}
    {out : String} (h : swapIdToken tok nonce iss at_hash now = .ok out)
    (hn : valOk nonce = true) (hi : valOk iss = true) (ha : valOk at_hash = true) :
    ∃ (dec d : DecodedJws) (claims' : JsObj),
      jws_decode tok = some dec ∧
      jws_decode out = some d ∧
      parseObj d.payload = some claims' ∧
      objGet d.header "kid" = some (JVal.str keys_publicJwk_kid) ∧
      (∀ a : String, objGet dec.header "alg" = some (.str a) →
        objGet d.header "alg" = some (.str a)) ∧
      objGet claims' "exp" = some (.num (now + 3600)) ∧
      (nonce ≠ .undefv → objGet claims' "nonce" = some nonce) ∧
      (iss ≠ .undefv → objGet claims' "iss" = some iss) ∧
      (jsNeqStrUndefined at_hash = true → at_hash ≠ .undefv →
        objGet claims' "at_hash" = some at_hash) ∧
      jws_verify out keys_publicPem = true := by
  unfold swapIdToken at h
  match hdec : jws_decode tok with
  | none => rw [hdec] at h; exact absurd h (by simp)
  | some dec =>
    rw [hdec] at h
    dsimp only at h
    match hparse : parseObj dec.payload with
    | none => rw [hparse] at h; exact absurd h (by simp)
    | some claims0 =>
      rw [hparse] at h
      dsimp only at h
      match hsign : jws_sign (objSet dec.header "kid" (.str keys_publicJwk_kid))
          (objSet (if jsNeqStrUndefined at_hash then
              objSet (objSet (objSet claims0 "nonce" nonce) "iss" iss) "at_hash" at_hash
            else objSet (objSet claims0 "nonce" nonce) "iss" iss)
            "exp" (.num (now + 3600))) keys_privatePem with
      | none => rw [hsign] at h; exact absurd h (by simp)
      | some tok' =>
        rw [hsign] at h
        simp only [Except.ok.injEq] at h
        subst h
        -- name the intermediate objects
        set header' := objSet dec.header "kid" (.str keys_publicJwk_kid) with hh'
        set claims4 := objSet (if jsNeqStrUndefined at_hash then
            objSet (objSet (objSet claims0 "nonce" nonce) "iss" iss) "at_hash" at_hash
          else objSet (objSet claims0 "nonce" nonce) "iss" iss)
          "exp" (.num (now + 3600)) with hc4
        have hwfdec := (jws_decode_wf hdec).1
        have hwfh' : wfObj header' := wfObj_objSet hwfdec (by decide) (by decide)
        have hwfc0 := (parseObj_wf hparse).1
        have hwfc4 : wfObj claims4 := by
          rw [hc4]
          refine wfObj_objSet ?_ (by decide) (by rfl)
          split
          · exact wfObj_objSet (wfObj_objSet (wfObj_objSet hwfc0 (by decide) hn)
              (by decide) hi) (by decide) ha
          · exact wfObj_objSet (wfObj_objSet hwfc0 (by decide) hn) (by decide) hi
        obtain ⟨alg, halg⟩ : ∃ alg, algOf header' = some alg := by
          unfold jws_sign at hsign
          split at hsign
          · exact absurd hsign (by simp)
          · next a heq => exact ⟨a, heq⟩
        refine ⟨dec, _, stripUndef claims4, rfl, jws_decode_signed halg hwfh' hsign, ?_, ?_,
          ?_, ?_, ?_, ?_, ?_, ?_⟩
        · show parseObj (stringifyObj claims4) = some (stripUndef claims4)
          exact parseObj_stringify hwfc4
        · show objGet (stripUndef header') "kid" = some (.str keys_publicJwk_kid)
          exact objGet_stripUndef (objGet_objSet_self _ _ _) (by simp)
        · intro a haa
          show objGet (stripUndef header') "alg" = some (.str a)
          refine objGet_stripUndef ?_ (by simp)
          rw [hh', objGet_objSet_ne _ _ (by decide)]
          exact haa
        · refine objGet_stripUndef ?_ (by simp)
          rw [hc4]
          exact objGet_objSet_self _ _ _
        · intro hnu
          refine objGet_stripUndef ?_ hnu
          rw [hc4, objGet_objSet_ne _ _ (by decide)]
          split
          · rw [objGet_objSet_ne _ _ (by decide), objGet_objSet_ne _ _ (by decide)]
            exact objGet_objSet_self _ _ _
          · rw [objGet_objSet_ne _ _ (by decide)]
            exact objGet_objSet_self _ _ _
        · intro hiu
          refine objGet_stripUndef ?_ hiu
          rw [hc4, objGet_objSet_ne _ _ (by decide)]
          split
          · rw [objGet_objSet_ne _ _ (by decide)]
            exact objGet_objSet_self _ _ _
          · exact objGet_objSet_self _ _ _
        · intro hcond hau
          refine objGet_stripUndef ?_ hau
          rw [hc4, objGet_objSet_ne _ _ (by decide)]
          rw [if_pos hcond]
          exact objGet_objSet_self _ _ _
        · exact jws_verify_signed halg hwfh' (algOf_eq_some halg) hsign

theorem swapAccessToken_props {tok : String} {nonce iss : JVal} {now : Nat}
    {out : String} (h : swapAccessToken tok nonce iss now = .ok out)
    (hn : valOk nonce = true) (hi : valOk iss = true) :
    ∃ (dec d : DecodedJws) (claims' : JsObj),
      jws_decode tok = some dec ∧
      jws_decode out = some d ∧
      parseObj d.payload = some claims' ∧
      objGet d.header "kid" = some (JVal.str keys_publicJwk_kid) ∧
      (∀ a : String, objGet dec.header "alg" = some (.str a) →
        objGet d.header "alg" = some (.str a)) ∧
      objGet claims' "exp" = some (.num (now + 3600)) ∧
      (nonce ≠ .undefv → objGet claims' "nonce" = some nonce) ∧
      (iss ≠ .undefv → objGet claims' "iss" = some iss) ∧
      jws_verify out keys_publicPem = true := by
  unfold swapAccessToken at h
  match hdec : jws_decode tok with
  | none => rw [hdec] at h; exact absurd h (by simp)
  | some dec =>
    rw [hdec] at h
    dsimp only at h
    match hparse : parseObj dec.payload with
    | none => rw [hparse] at h; exact absurd h (by simp)
    | some claims0 =>
      rw [hparse] at h
      dsimp only at h
      match hsign : jws_sign (objSet dec.header "kid" (.str keys_publicJwk_kid))
          (objSet (objSet (objSet claims0 "nonce" nonce) "iss" iss)
            "exp" (.num (now + 3600))) keys_privatePem with
      | none => rw [hsign] at h; exact absurd h (by simp)
      | some tok' =>
        rw [hsign] at h
        simp only [Except.ok.injEq] at h
        subst h
        set header' := objSet dec.header "kid" (.str keys_publicJwk_kid) with hh'
        set claims3 := objSet (objSet (objSet claims0 "nonce" nonce) "iss" iss)
          "exp" (.num (now + 3600)) with hc3
        have hwfdec := (jws_decode_wf hdec).1
        have hwfh' : wfObj header' := wfObj_objSet hwfdec (by decide) (by decide)
        have hwfc0 := (parseObj_wf hparse).1
        have hwfc3 : wfObj claims3 := by
          rw [hc3]
          refine wfObj_objSet ?_ (by decide) (by rfl)
          exact wfObj_objSet (wfObj_objSet hwfc0 (by decide) hn) (by decide) hi
        obtain ⟨alg, halg⟩ : ∃ alg, algOf header' = some alg := by
          unfold jws_sign at hsign
          split at hsign
          · exact absurd hsign (by simp)
          · next a heq => exact ⟨a, heq⟩
        refine ⟨dec, _, stripUndef claims3, rfl, jws_decode_signed halg hwfh' hsign, ?_, ?_,
          ?_, ?_, ?_, ?_, ?_⟩
        · show parseObj (stringifyObj claims3) = some (stripUndef claims3)
          exact parseObj_stringify hwfc3
        · show objGet (stripUndef header') "kid" = some (.str keys_publicJwk_kid)
          exact objGet_stripUndef (objGet_objSet_self _ _ _) (by simp)
        · intro a haa
          show objGet (stripUndef header') "alg" = some (.str a)
          refine objGet_stripUndef ?_ (by simp)
          rw [hh', objGet_objSet_ne _ _ (by decide)]
          exact haa
        · refine objGet_stripUndef ?_ (by simp)
          rw [hc3]
          exact objGet_objSet_self _ _ _
        · intro hnu
          refine objGet_stripUndef ?_ hnu
          rw [hc3, objGet_objSet_ne _ _ (by decide), objGet_objSet_ne _ _ (by decide)]
          exact objGet_objSet_self _ _ _
        · intro hiu
          refine objGet_stripUndef ?_ hiu
          rw [hc3, objGet_objSet_ne _ _ (by decide)]
          exact objGet_objSet_self _ _ _
        · exact jws_verify_signed halg hwfh' (algOf_eq_some halg) hsign

/-! ## Stage lemmas for the request normalizer -/

theorem hGet_normBase_other (req : Req) (k : String)
    (hk : k ∉ ["upgrade-insecure-requests", "x-okta-user-agent-extended", "if-none-match",
      "if-modified-since", "expect", "referer", "user-agent", "connection",
      "accept-language", "accept-encoding", "accept", "content-type"]) :
    hGet (normBase req) k = hGet req.headers k := by
  simp only [List.mem_cons, List.not_mem_nil, or_false] at hk
  push_neg at hk
  obtain ⟨k1, k2, k3, k4, k5, k6, k7, k8, k9, k10, k11, k12⟩ := hk
  have hbase : hGet (hSet (hSet (hSet (hSet (hDel (hDel (hDel (hDel (hDel (hDel req.headers
      "upgrade-insecure-requests") "x-okta-user-agent-extended") "if-none-match")
      "if-modified-since") "expect") "referer") "user-agent" uaString) "connection"
      "keep-alive") "accept-language" "en-US") "accept-encoding" "gzip") k
      = hGet req.headers k := by
    rw [hGet_hSet_ne _ _ k10, hGet_hSet_ne _ _ k9, hGet_hSet_ne _ _ k8,
      hGet_hSet_ne _ _ k7, hGet_hDel_ne _ k6, hGet_hDel_ne _ k5, hGet_hDel_ne _ k4,
      hGet_hDel_ne _ k3, hGet_hDel_ne _ k2, hGet_hDel_ne _ k1]
  unfold normBase
  dsimp only
  split
  all_goals
    first
    | (rw [hGet_hSet_ne _ _ k12]
       split
       · split
         · rw [hGet_hSet_ne _ _ k11]; exact hbase
         · split
           · rw [hGet_hSet_ne _ _ k11]; exact hbase
           · rw [hGet_hSet_ne _ _ k11]; exact hbase
       · exact hbase)
    | (split
       · split
         · rw [hGet_hSet_ne _ _ k11]; exact hbase
         · split
           · rw [hGet_hSet_ne _ _ k11]; exact hbase
           · rw [hGet_hSet_ne _ _ k11]; exact hbase
       · exact hbase)

theorem hGet_normBase_consts (req : Req) :
    hGet (normBase req) "user-agent" = some uaString ∧
    hGet (normBase req) "connection" = some "keep-alive" ∧
    hGet (normBase req) "accept-language" = some "en-US" ∧
    hGet (normBase req) "accept-encoding" = some "gzip" := by
  unfold normBase
  dsimp only
  refine ⟨?_, ?_, ?_, ?_⟩ <;>
  · split
    all_goals
      first
      | (rw [hGet_hSet_ne _ _ (by decide)]
         split
         · split
           · rw [hGet_hSet_ne _ _ (by decide)]
             simp [hGet_hSet_self, hGet_hSet_ne _ _ (show ("user-agent" : String) ≠ _ by decide)]
           · split
             · rw [hGet_hSet_ne _ _ (by decide)]
               simp [hGet_hSet_self, hGet_hSet_ne]
             · rw [hGet_hSet_ne _ _ (by decide)]
               simp [hGet_hSet_self, hGet_hSet_ne]
         · simp [hGet_hSet_self, hGet_hSet_ne])
      | (split
         · split
           · rw [hGet_hSet_ne _ _ (by decide)]
             simp [hGet_hSet_self, hGet_hSet_ne]
           · split
             · rw [hGet_hSet_ne _ _ (by decide)]
               simp [hGet_hSet_self, hGet_hSet_ne]
             · rw [hGet_hSet_ne _ _ (by decide)]
               simp [hGet_hSet_self, hGet_hSet_ne]
         · simp [hGet_hSet_self, hGet_hSet_ne])

theorem hGet_normBase_accept_none (req : Req)
    (h : hGet req.headers "accept" = none) :
    hGet (normBase req) "accept" = none := by
  have hb : hGet (hSet (hSet (hSet (hSet (hDel (hDel (hDel (hDel (hDel (hDel req.headers
      "upgrade-insecure-requests") "x-okta-user-agent-extended") "if-none-match")
      "if-modified-since") "expect") "referer") "user-agent" uaString) "connection"
      "keep-alive") "accept-language" "en-US") "accept-encoding" "gzip") "accept"
      = none := by
    rw [hGet_hSet_ne _ _ (by decide), hGet_hSet_ne _ _ (by decide),
      hGet_hSet_ne _ _ (by decide), hGet_hSet_ne _ _ (by decide),
      hGet_hDel_ne _ (by decide), hGet_hDel_ne _ (by decide), hGet_hDel_ne _ (by decide),
      hGet_hDel_ne _ (by decide), hGet_hDel_ne _ (by decide), hGet_hDel_ne _ (by decide)]
    exact h
  unfold normBase
  dsimp only
  rw [hb]
  split
  · rw [hGet_hSet_ne _ _ (by decide)]
    simp [truthy, hb]
  · simp [truthy, hb]

theorem hGet_normBase_accept_some (req : Req) {a : String}
    (h : hGet req.headers "accept" = some a) (hne : a ≠ "") :
    hGet (normBase req) "accept" =
      some (if containsS a "text/html" then htmlAccept
        else if containsS a "json" then "application/json" else "*/*") := by
  have hb : hGet (hSet (hSet (hSet (hSet (hDel (hDel (hDel (hDel (hDel (hDel req.headers
      "upgrade-insecure-requests") "x-okta-user-agent-extended") "if-none-match")
      "if-modified-since") "expect") "referer") "user-agent" uaString) "connection"
      "keep-alive") "accept-language" "en-US") "accept-encoding" "gzip") "accept"
      = some a := by
    rw [hGet_hSet_ne _ _ (by decide), hGet_hSet_ne _ _ (by decide),
      hGet_hSet_ne _ _ (by decide), hGet_hSet_ne _ _ (by decide),
      hGet_hDel_ne _ (by decide), hGet_hDel_ne _ (by decide), hGet_hDel_ne _ (by decide),
      hGet_hDel_ne _ (by decide), hGet_hDel_ne _ (by decide), hGet_hDel_ne _ (by decide)]
    exact h
  have htr : truthy (some a) = true := by
    have hq : a.isEmpty = false := by
      cases hq : a.isEmpty with
      | false => rfl
      | true => exact absurd ((String.isEmpty_iff a).1 hq) hne
    simp [truthy, hq]
  unfold normBase
  dsimp only
  rw [hb]
  rw [htr]
  split
  · rw [hGet_hSet_ne _ _ (by decide)]
    simp only [if_true, Option.getD_some]
    split
    · rw [hGet_hSet_self]
    · split
      · rw [hGet_hSet_self]
      · rw [hGet_hSet_self]
  · simp only [if_true, Option.getD_some]
    split
    · rw [hGet_hSet_self]
    · split
      · rw [hGet_hSet_self]
      · rw [hGet_hSet_self]

theorem normPreflight_not (req : Req) (h : Headers)
    (hp : isPreflightReq req = false) : normPreflight req h = .ok h := by
  unfold normPreflight
  rw [hp]
  rfl

theorem normPreflight_ok (req : Req) (h : Headers) {a : String}
    (hp : isPreflightReq req = true)
    (ha : hGet (if hGet h "content-length" = some "0" then hDel h "content-length" else h)
      "access-control-request-headers" = some a) :
    normPreflight req h = .ok (hSet
      (if hGet h "content-length" = some "0" then hDel h "content-length" else h)
      "access-control-request-headers" (normalizeAcrhVal a)) := by
  unfold normPreflight
  rw [hp]
  dsimp only
  rw [ha]
  rfl

theorem hGet_contentLength_stage (h : Headers) (k : String) (hk : k ≠ "content-length") :
    hGet (if hGet h "content-length" = some "0" then hDel h "content-length" else h) k
      = hGet h k := by
  split
  · exact hGet_hDel_ne _ hk
  · rfl

theorem hGet_normCookieCache (h : Headers) (k : String)
    (hk : k ∉ ["cookie", "cache-control", "pragma"]) :
    hGet (normCookieCache h).1 k = hGet h k := by
  simp only [List.mem_cons, List.not_mem_nil, or_false] at hk
  push_neg at hk
  obtain ⟨k1, k2, k3⟩ := hk
  unfold normCookieCache
  dsimp only
  rw [hGet_hSet_ne _ _ k3, hGet_hSet_ne _ _ k2, hGet_hSet_ne _ _ k1]

theorem hGet_normCookieCache_cookie (h : Headers) :
    hGet (normCookieCache h).1 "cookie" = some (adrumStrip ((hGet h "cookie").getD "")) := by
  unfold normCookieCache
  dsimp only
  rw [hGet_hSet_ne _ _ (by decide), hGet_hSet_ne _ _ (by decide), hGet_hSet_self]

theorem normCookieCache_snd (h : Headers) :
    (normCookieCache h).2 = adrumStrip ((hGet h "cookie").getD "") := rfl

theorem hGet_normFlow (req : Req) (record : Bool) (h10 : Headers) (c1 : String)
    (k : String) (hk : k ∉ ["cookie", "authorization"]) :
    hGet (normFlow req record h10 c1).1.headers k = hGet h10 k := by
  simp only [List.mem_cons, List.not_mem_nil, or_false] at hk
  push_neg at hk
  obtain ⟨k1, k2⟩ := hk
  unfold normFlow
  dsimp only
  split
  · exact hGet_hDel_ne _ k1
  · split
    · exact hGet_hDel_ne _ k1
    · split
      · rfl
      · split
        · rfl
        · split
          · rfl
          · split
            · exact hGet_hSet_ne _ _ k2
            · rfl

theorem hGet_normPreflight_other {req : Req} {h h8 : Headers}
    (hok : normPreflight req h = .ok h8) (k : String)
    (hk : k ∉ ["access-control-request-headers", "content-length"]) :
    hGet h8 k = hGet h k := by
  simp only [List.mem_cons, List.not_mem_nil, or_false] at hk
  push_neg at hk
  obtain ⟨k1, k2⟩ := hk
  unfold normPreflight at hok
  split at hok
  · dsimp only at hok
    match ha : hGet (if hGet h "content-length" = some "0" then hDel h "content-length"
        else h) "access-control-request-headers" with
    | none => rw [ha] at hok; exact absurd hok (by simp)
    | some a =>
      rw [ha] at hok
      simp only [Except.ok.injEq] at hok
      subst hok
      rw [hGet_hSet_ne _ _ k1]
      exact hGet_contentLength_stage h k k2
  · simp only [Except.ok.injEq] at hok
    subst hok
    rfl

/-- Through the whole successful pipeline, a header key outside the touched set
keeps its original value; and convenience access to the final headers. -/
theorem mapRequestToCache_ok_headers {req : Req} {record : Bool} {r : Req}
    {d : SessionData} (hrun : mapRequestToCache req record = .ok (r, d)) :
    ∃ h8, normPreflight req (normBase req) = .ok h8 ∧
      r.headers = (normFlow req record (normCookieCache h8).1 (normCookieCache h8).2).1.headers := by
  unfold mapRequestToCache at hrun
  match hp : normPreflight req (normBase req) with
  | .error e => rw [hp] at hrun; exact absurd hrun (by simp)
  | .ok h8 =>
    rw [hp] at hrun
    simp only [Except.ok.injEq] at hrun
    refine ⟨h8, rfl, ?_⟩
    have h1 : (normFlow req record (normCookieCache h8).1 (normCookieCache h8).2).1 = r := by
      rw [hrun]
    rw [h1]

/-! ## Concrete fixtures for witnesses and counterexamples -/

/-- A small Endpoint Configuration: proxy `http://p`, upstream
`http://rain.okta1.com:1802`, cdn host `cdn.ok`. -/
def cfg0 : Cfg := ⟨"http://p", "http:", "rain.okta1.com", some "1802", "cdn.ok"⟩

/-- A JWS header with an `alg` and a recording-time `kid`. -/
def hdr0 : JsObj := [("alg", JVal.str "RS256"), ("kid", JVal.str "OLDKID")]

/-- Recorded ID-token claims carrying an `at_hash`. -/
def clm0 : JsObj := [("iss", JVal.str "orig"), ("at_hash", JVal.str "OH")]

/-- A recorded ID token signed over `hdr0`/`clm0` with an arbitrary recording key. -/
def tok0 : String := (jws_sign hdr0 clm0 "OK").getD ""

/-- The total result of a `mapRequestToCache` run (the request itself when the
run errors), convenient for stating concrete examples. -/
def mapReqOut (req : Req) (record : Bool) : Req × SessionData :=
  match mapRequestToCache req record with
  | .ok rd => rd
  | .error _ => (req, {})

/-- The `at_hash` claim of a compact-serialized token: `none` when the token
does not decode or its payload does not parse, `some (objGet claims "at_hash")`
otherwise. -/
def atHashOf (tok : String) : Option (Option JVal) :=
  match jws_decode tok with
  | some d =>
    match parseObj d.payload with
    | some c => some (objGet c "at_hash")
    | none => none
  | none => none

/-- The `at_hash` claim of the output of `swapIdToken`, `none` when the swap
fails. -/
def swappedIdTokenAtHash (tok : String) (nonce iss at_hash : JVal) (now : Nat) :
    Option (Option JVal) :=
  match swapIdToken tok nonce iss at_hash now with
  | .ok out => atHashOf out
  | .error _ => none

/-- Claim C2 (the conditional `at_hash` overwrite of `swapIdToken`, `util.js`
line 318).  The spec's intended reading — an unsupplied `at_hash` leaves the
input token's `at_hash` claim unchanged — is refuted by the code: the recorded
token `tok0` carries `at_hash = "OH"`, yet swapping it with no supplied hash
erases the claim entirely, because `data.at_hash != 'undefined'` is true for
the JS value `undefined`, so `claims.at_hash` is assigned `undefined` and
`JSON.stringify` then drops the property.  A supplied hash does land as
stated. -/
theorem C2_at_hash_conditional_overwrite :
    atHashOf tok0 = some (some (JVal.str "OH")) ∧
    swappedIdTokenAtHash tok0 (JVal.str "N") (JVal.str "I") JVal.undefv 5 = some none ∧
    swappedIdTokenAtHash tok0 (JVal.str "N") (JVal.str "I") (JVal.str "AH") 5 =
      some (some (JVal.str "AH")) := by
  set_option maxRecDepth 100000 in
  refine ⟨by decide, by decide, by decide⟩

/-- Session data of an authorize request replayed as `okta_post_message`. -/
def dAuth0 : SessionData :=
  { isAuthorizeReq := true, responseMode := some "okta_post_message",
    nonce := some "NN", state := some "SS" }

/-- Session data of a token-endpoint request. -/
def dTok0 : SessionData := { isTokenReq := true }

/-- Claim C7 (missing-marker errors, `util.js` lines 448-463 and 469-499).
Whenever a flow flag says the body embeds a token but a marker regex does not
match — at either lookup of its flow — `mapCachedBodyToResponse` surfaces the
`TypeError` of indexing the `null` match result instead of returning the body
with the token unswapped: (1) the `okta_post_message` authorize replay with no
`data.id_token = '...'` marker (line 449), (2) the same replay whose body has
the id-token marker but no `"access_token":"..."` marker after the id-token
substitution (line 457), (3) the recording-side token response with no
`"id_token":"..."` marker (line 473), (4) the playback-side token response
with no `"access_token":"..."` marker (line 481), and (5) the playback-side
token response whose body has the access-token marker but no
`"id_token":"..."` marker after the access-token substitution (line 491) all
error out. -/
theorem C7_missing_marker_is_fatal (chunk : String) (cfg : Cfg) (d : SessionData)
    (record : Bool) (now : Nat) :
    (d.isAuthorizeReq = true → d.responseMode = some "okta_post_message" →
      findCapL idTokenAuthPre '\'' (replaceUrls chunk cfg).data = none →
      mapCachedBodyToResponse chunk cfg d record now =
        .error "TypeError: cannot read 1 of null") ∧
    (∀ idTok newId, d.isAuthorizeReq = true → d.responseMode = some "okta_post_message" →
      findCapL idTokenAuthPre '\'' (replaceUrls chunk cfg).data = some idTok →
      swapIdToken ⟨idTok⟩ (jvalOfOpt d.nonce) (.str (cfg.proxy ++ "/oauth2/default"))
        .undefv now = .ok newId →
      findCapL accessTokenPre '"'
        (replaceFirstL idTok newId.data (replaceUrls chunk cfg).data) = none →
      mapCachedBodyToResponse chunk cfg d record now =
        .error "TypeError: cannot read 1 of null") ∧
    (d.isAuthorizeReq = false → d.isTokenReq = true →
      findCapL idTokenJsonPre '"' (replaceUrls chunk cfg).data = none →
      mapCachedBodyToResponse chunk cfg d true now =
        .error "TypeError: cannot read 1 of null") ∧
    (d.isAuthorizeReq = false → d.isTokenReq = true →
      findCapL accessTokenPre '"' (replaceUrls chunk cfg).data = none →
      mapCachedBodyToResponse chunk cfg d false now =
        .error "TypeError: cannot read 1 of null") ∧
    (∀ accTok newAcc, d.isAuthorizeReq = false → d.isTokenReq = true →
      findCapL accessTokenPre '"' (replaceUrls chunk cfg).data = some accTok →
      swapAccessToken ⟨accTok⟩ (jvalOfOpt d.nonce) (.str (cfg.proxy ++ "/oauth2/default"))
        now = .ok newAcc →
      findCapL idTokenJsonPre '"'
        (replaceFirstL accTok newAcc.data (replaceUrls chunk cfg).data) = none →
      mapCachedBodyToResponse chunk cfg d false now =
        .error "TypeError: cannot read 1 of null") := by
  refine ⟨?_, ?_, ?_, ?_, ?_⟩
  · intro h1 h2 h3
    unfold mapCachedBodyToResponse
    rw [h1, h2]
    simp [h3, pure, Except.pure, Bind.bind, Except.bind]
  · intro idTok newId h1 h2 h3 h4 h5
    unfold mapCachedBodyToResponse
    rw [h1, h2]
    simp [h3, h4, h5, pure, Except.pure, Bind.bind, Except.bind]
  · intro h1 h2 h3
    unfold mapCachedBodyToResponse
    rw [h1, h2]
    simp [h3, pure, Except.pure, Bind.bind, Except.bind]
  · intro h1 h2 h3
    unfold mapCachedBodyToResponse
    rw [h1, h2]
    simp [h3, pure, Except.pure, Bind.bind, Except.bind]
  · intro accTok newAcc h1 h2 h3 h4 h5
    unfold mapCachedBodyToResponse
    rw [h1, h2]
    simp [h3, h4, h5, pure, Except.pure, Bind.bind, Except.bind]

/-- Claim C10 (the `accept` fallback, `util.js` lines 160-169).  The accept
normalization is guarded by JS truthiness of the header: a request with no
`accept` header at all keeps none through the whole normalizer, while a
present, non-empty `accept` containing neither `text/html` nor `json` is
forced to `*/*` — so requests with and without an `accept` header normalize
to different header sets. -/
theorem C10_accept_fallback_only_when_present (req : Req) (record : Bool) (r : Req)
    (d : SessionData) (hrun : mapRequestToCache req record = .ok (r, d)) :
    (hGet req.headers "accept" = none → hGet r.headers "accept" = none) ∧
    (∀ v, hGet req.headers "accept" = some v → v ≠ "" →
      containsS v "text/html" = false → containsS v "json" = false →
      hGet r.headers "accept" = some "*/*") := by
  obtain ⟨h8, hok, hr⟩ := mapRequestToCache_ok_headers hrun
  have hstep : hGet r.headers "accept" = hGet (normBase req) "accept" := by
    rw [hr, hGet_normFlow _ _ _ _ _ (by decide), hGet_normCookieCache _ _ (by decide),
      hGet_normPreflight_other hok _ (by decide)]
  constructor
  · intro hnone
    rw [hstep]
    exact hGet_normBase_accept_none req hnone
  · intro v hv hne h1 h2
    rw [hstep, hGet_normBase_accept_some req hv hne, h1, h2]
    simp

/-- A request with no `accept` header. -/
def req10a : Req := ⟨"GET", "/x", []⟩

/-- A request whose `accept` is present but mentions neither `text/html` nor
`json`. -/
def req10b : Req := ⟨"GET", "/x", [("accept", "foo")]⟩

/-- Witness for `C10_accept_fallback_only_when_present` at `req10a`/`req10b`. -/
theorem C10_accept_fallback_only_when_present_witness :
    hGet (mapReqOut req10a false).1.headers "accept" = none ∧
    hGet (mapReqOut req10b false).1.headers "accept" = some "*/*" :=
  ⟨(C10_accept_fallback_only_when_present req10a false (mapReqOut req10a false).1
      (mapReqOut req10a false).2 (by rfl)).1 (by decide),
   (C10_accept_fallback_only_when_present req10b false (mapReqOut req10b false).1
      (mapReqOut req10b false).2 (by rfl)).2 "foo" (by decide) (by decide) (by decide)
      (by decide)⟩

/-- A CORS preflight request carrying the spec's example
`access-control-request-headers` value. -/
def req3 : Req := ⟨"OPTIONS", "/x",
  [("access-control-request-method", "POST"),
   ("access-control-request-headers", "Origin, X-Foo, Accept")]⟩

/-- Counterexample to claim C3's example: the filter of `util.js` line 187
compares entries to the lower-case literals `'accept'`/`'origin'` exactly and
nothing lower-cases the entries, so `"Origin, X-Foo, Accept"` keeps all three
entries and normalizes to `"Accept, Origin, X-Foo"`, not to `"x-foo"`. -/
theorem C3_preflight_acrh_counterexample :
    hGet (mapReqOut req3 false).1.headers "access-control-request-headers" ≠
      some "x-foo" ∧
    hGet (mapReqOut req3 false).1.headers "access-control-request-headers" =
      some "Accept, Origin, X-Foo" := by
  refine ⟨by decide, by decide⟩

/-- Claim C3 as amended (preflight `access-control-request-headers`
normalization, `util.js` lines 177-191).  For every preflight request whose
`access-control-request-headers` header is present, the normalized request
carries `normalizeAcrhVal` of the original value: split on comma, trim each
entry, drop entries exactly equal to `accept` or `origin` (case-sensitively —
the spec's example answer `"x-foo"` presumed lower-casing that the code never
does), sort lexicographically, re-join with `", "`.  The lower-case input
`"origin, x-foo, accept"` does normalize to `"x-foo"`. -/
theorem C3_preflight_acrh_normalization (req : Req) (record : Bool) (r : Req)
    (d : SessionData) (a : String)
    (hpre : isPreflightReq req = true)
    (ha : hGet req.headers "access-control-request-headers" = some a)
    (hrun : mapRequestToCache req record = .ok (r, d)) :
    hGet r.headers "access-control-request-headers" = some (normalizeAcrhVal a) ∧
    normalizeAcrhVal "origin, x-foo, accept" = "x-foo" := by
  obtain ⟨h8, hok, hr⟩ := mapRequestToCache_ok_headers hrun
  have ha' : hGet (if hGet (normBase req) "content-length" = some "0" then
      hDel (normBase req) "content-length" else normBase req)
      "access-control-request-headers" = some a := by
    rw [hGet_contentLength_stage _ _ (by decide), hGet_normBase_other _ _ (by decide)]
    exact ha
  have hok' := normPreflight_ok req (normBase req) hpre ha'
  rw [hok] at hok'
  simp only [Except.ok.injEq] at hok'
  refine ⟨?_, by decide⟩
  rw [hr, hGet_normFlow _ _ _ _ _ (by decide), hGet_normCookieCache _ _ (by decide),
    hok', hGet_hSet_self]

/-- Witness for `C3_preflight_acrh_normalization` at `req3`, together with the
concrete value of the normalized header. -/
theorem C3_preflight_acrh_normalization_witness :
    (hGet (mapReqOut req3 false).1.headers "access-control-request-headers" =
      some (normalizeAcrhVal "Origin, X-Foo, Accept") ∧
      normalizeAcrhVal "origin, x-foo, accept" = "x-foo") ∧
    normalizeAcrhVal "Origin, X-Foo, Accept" = "Accept, Origin, X-Foo" :=
  ⟨C3_preflight_acrh_normalization req3 false (mapReqOut req3 false).1
      (mapReqOut req3 false).2 "Origin, X-Foo, Accept" (by decide) (by decide) (by rfl),
   by decide⟩

/-- The URL rewrite applied to response header values (strings are rewritten,
arrays are carried as they are). -/
def rewriteHVal (cfg : Cfg) : HVal → HVal
  | .str s => .str (replaceUrls s cfg)
  | v => v

/-- Claim C9 (header reconstruction, `util.js` lines 385-411), for the
ordinary (non-redirect-callback) reconstruction path; the redirect callback's
extra `location` substitution is claim C4's subject.  The reconstruction is a
pure function of the cached map (the cached input itself is a value and is
never mutated): in the produced map `cache-control` and `pragma` are forced,
`etag` and `last-modified` are gone, and every other key carries exactly its
cached value with string values passed through `replaceUrls`. -/
theorem C9_header_reconstruction (headers : RHeaders) (cfg : Cfg) (d : SessionData)
    (record : Bool) (out : RHeaders)
    (hnr : d.isRedirectCallback = false)
    (hrun : mapCachedHeadersToResponse headers cfg d record = .ok out) :
    rGet out "cache-control" = some (.str "no-cache, no-store") ∧
    rGet out "pragma" = some (.str "no-cache") ∧
    rGet out "etag" = none ∧
    rGet out "last-modified" = none ∧
    ∀ k, k ∉ ["cache-control", "pragma", "etag", "last-modified"] →
      rGet out k = (rGet headers k).map (rewriteHVal cfg) := by
  unfold mapCachedHeadersToResponse at hrun
  rw [hnr] at hrun
  simp only [Bool.false_eq_true, if_false, Except.ok.injEq] at hrun
  subst hrun
  refine ⟨?_, ?_, ?_, ?_, ?_⟩
  · rw [rGet_rDel_ne _ (by decide), rGet_rDel_ne _ (by decide),
      rGet_rSet_ne _ _ (by decide), rGet_rSet_self]
  · rw [rGet_rDel_ne _ (by decide), rGet_rDel_ne _ (by decide), rGet_rSet_self]
  · rw [rGet_rDel_ne _ (by decide), rGet_rDel_self]
  · rw [rGet_rDel_self]
  · intro k hk
    simp only [List.mem_cons, List.not_mem_nil, or_false] at hk
    push_neg at hk
    obtain ⟨k1, k2, k3, k4⟩ := hk
    rw [rGet_rDel_ne _ k4, rGet_rDel_ne _ k3, rGet_rSet_ne _ _ k2, rGet_rSet_ne _ _ k1]
    have := rGet_map_rewrite headers (rewriteHVal cfg) k
    rw [show (fun p : String × HVal => (p.1, rewriteHVal cfg p.2)) = fun p =>
      (p.1, match p.2 with | .str s => .str (replaceUrls s cfg) | v => v) from ?_] at this
    · exact this
    · funext p
      cases p.2 <;> rfl

/-- A cached response header map: a rewritable string value, an `etag`, a
recorded `cache-control` and an array-valued `set-cookie`. -/
def rh0 : RHeaders :=
  [("content-location", .str "http://rain.okta1.com:1802/home"),
   ("etag", .str "W-abc"),
   ("cache-control", .str "max-age=60"),
   ("set-cookie", .arr ["sid=1"])]

/-- The total result of a `mapCachedHeadersToResponse` run. -/
def rhOut (headers : RHeaders) (cfg : Cfg) (d : SessionData) (record : Bool) : RHeaders :=
  match mapCachedHeadersToResponse headers cfg d record with
  | .ok out => out
  | .error _ => []

/-- Witness for `C9_header_reconstruction` at `rh0`: the forced and dropped
keys, a URL-rewritten string carry-over and an array carry-over. -/
theorem C9_header_reconstruction_witness :
    rGet (rhOut rh0 cfg0 {} false) "cache-control" = some (.str "no-cache, no-store") ∧
    rGet (rhOut rh0 cfg0 {} false) "etag" = none ∧
    rGet (rhOut rh0 cfg0 {} false) "content-location" =
      (rGet rh0 "content-location").map (rewriteHVal cfg0) ∧
    rGet (rhOut rh0 cfg0 {} false) "set-cookie" =
      (rGet rh0 "set-cookie").map (rewriteHVal cfg0) :=
  ⟨(C9_header_reconstruction rh0 cfg0 {} false (rhOut rh0 cfg0 {} false) (by decide)
      (by rfl)).1,
   (C9_header_reconstruction rh0 cfg0 {} false (rhOut rh0 cfg0 {} false) (by decide)
      (by rfl)).2.2.1,
   (C9_header_reconstruction rh0 cfg0 {} false (rhOut rh0 cfg0 {} false) (by decide)
      (by rfl)).2.2.2.2 "content-location" (by decide),
   (C9_header_reconstruction rh0 cfg0 {} false (rhOut rh0 cfg0 {} false) (by decide)
      (by rfl)).2.2.2.2 "set-cookie" (by decide)⟩

/-- The result of `replaceAllAux` does not depend on the fuel once the fuel
covers the length of the input. -/
theorem replaceAllAux_fuel {m : List Char → Option Nat} {r : List Char} :
    ∀ (f1 : Nat) (s : List Char) (f2 : Nat), s.length ≤ f1 → s.length ≤ f2 →
      replaceAllAux m r f1 s = replaceAllAux m r f2 s := by
  intro f1
  induction f1 with
  | zero =>
    intro s f2 h1 _
    have hs : s = [] := List.eq_nil_of_length_eq_zero (Nat.le_zero.mp h1)
    subst hs
    cases f2 <;> rfl
  | succ n ih =>
    intro s f2 h1 h2
    cases s with
    | nil => cases f2 <;> rfl
    | cons c rest =>
      cases f2 with
      | zero => simp at h2
      | succ k =>
        simp only [List.length_cons] at h1 h2
        simp only [replaceAllAux]
        match hm : m (c :: rest) with
        | some (j + 1) =>
          dsimp only
          have hd : (List.drop (j + 1) (c :: rest)).length ≤ n := by
            simp only [List.length_drop, List.length_cons]
            omega
          have hd2 : (List.drop (j + 1) (c :: rest)).length ≤ k := by
            simp only [List.length_drop, List.length_cons]
            omega
          rw [ih _ k hd hd2]
        | none =>
          dsimp only
          rw [ih rest k (by omega) (by omega)]
        | some 0 =>
          dsimp only
          rw [ih rest k (by omega) (by omega)]

/-- A region in which the matcher fails at every position is copied verbatim
by the scan, which continues on the rest with the remaining fuel. -/
theorem replaceAllAux_skip {m : List Char → Option Nat} {r : List Char} :
    ∀ (A T : List Char) (fuel : Nat),
      (∀ b, b ≠ [] → b <:+ A → m (b ++ T) = none) →
      replaceAllAux m r (A.length + fuel) (A ++ T) = A ++ replaceAllAux m r fuel T := by
  intro A
  induction A with
  | nil =>
    intro T fuel _
    simp
  | cons c A' ih =>
    intro T fuel hA
    have hstep : (c :: A').length + fuel = (A'.length + fuel) + 1 := by
      simp only [List.length_cons]
      omega
    rw [hstep]
    show replaceAllAux m r ((A'.length + fuel) + 1) (c :: (A' ++ T)) = _
    simp only [replaceAllAux]
    have hm0 : m (c :: (A' ++ T)) = none := hA (c :: A') (by simp) (List.suffix_refl _)
    rw [hm0]
    dsimp only
    rw [ih T fuel fun b hb hs => hA b hb (hs.trans (List.suffix_cons c A'))]
    rfl

/-- A list in which the matcher fails at every position is a fixed point of the
scan, whatever the fuel. -/
theorem replaceAllAux_id {m : List Char → Option Nat} {r : List Char} :
    ∀ (fuel : Nat) (A : List Char),
      (∀ b, b ≠ [] → b <:+ A → m b = none) →
      replaceAllAux m r fuel A = A := by
  intro fuel
  induction fuel with
  | zero => intro A _; cases A <;> rfl
  | succ n ih =>
    intro A hA
    cases A with
    | nil => rfl
    | cons c A' =>
      simp only [replaceAllAux]
      rw [hA (c :: A') (by simp) (List.suffix_refl _)]
      dsimp only
      rw [ih A' fun b hb hs => hA b hb (hs.trans (List.suffix_cons c A'))]

/-- A full match at the head of the scan is replaced, and the scan continues
after it. -/
theorem replaceAllAux_replace {m : List Char → Option Nat} {r : List Char}
    (O T : List Char) (fuel : Nat) (hO : O ≠ [])
    (hm : m (O ++ T) = some O.length) (hT : T.length ≤ fuel) :
    replaceAllAux m r (O.length + fuel) (O ++ T) = r ++ replaceAllAux m r fuel T := by
  cases O with
  | nil => exact absurd rfl hO
  | cons c O' =>
    have hstep : (c :: O').length + fuel = (O'.length + fuel) + 1 := by
      simp only [List.length_cons]
      omega
    rw [hstep]
    show replaceAllAux m r ((O'.length + fuel) + 1) (c :: (O' ++ T)) = _
    simp only [replaceAllAux]
    simp only [List.length_cons] at hm
    have hm0 : m (c :: (O' ++ T)) = some (O'.length + 1) := hm
    rw [hm0]
    dsimp only
    have hdrop : List.drop (O'.length + 1) (c :: (O' ++ T)) = T := by
      show List.drop O'.length (O' ++ T) = T
      exact List.drop_left _ _
    rw [hdrop]
    rw [replaceAllAux_fuel (O'.length + fuel) T fuel (by omega) hT]

/-- Peeling the greatest length off a descending length range. -/
theorem descRange_cons (hi lo : Nat) (h1 : 1 ≤ lo) (h2 : lo ≤ hi) :
    descRange hi lo = hi :: descRange (hi - 1) lo := by
  unfold descRange
  have e1 : hi + 1 - lo = (hi - lo) + 1 := by omega
  have e2 : hi - 1 + 1 - lo = hi - lo := by omega
  rw [e1, e2, List.range_succ_eq_map, List.map_cons, List.map_map]
  refine congrArg₂ _ (by omega) ?_
  refine congrArg (fun f => List.map f (List.range (hi - lo))) ?_
  funext i
  show hi - (i + 1) = hi - 1 - i
  omega

/-- Evaluating `findSome?` over a descending range `[hi, ..., lo]` when every
length above `n` fails and `n` succeeds. -/
theorem findSome?_descRange {β : Type} (F : Nat → Option β) (hi lo n : Nat) (b : β)
    (h1 : 1 ≤ lo) (h2 : lo ≤ n) (h3 : n ≤ hi)
    (hnone : ∀ k, n < k → k ≤ hi → F k = none) (hn : F n = some b) :
    (descRange hi lo).findSome? F = some b := by
  induction hi with
  | zero =>
    have : n = 0 := by omega
    subst this
    omega
  | succ h ih =>
    rcases Nat.eq_or_lt_of_le h3 with heq | hlt
    · subst heq
      rw [descRange_cons _ _ h1 (le_trans h2 h3), List.findSome?_cons, hn]
    · have hhi : n ≤ h := by omega
      rw [descRange_cons _ _ h1 (by omega), List.findSome?_cons,
        hnone (h + 1) (by omega) (le_refl _)]
      simpa using ih hhi fun k hk1 hk2 => hnone k hk1 (by omega)

/-- The host-url matcher of `replaceUrls` at the sample configuration `cfg0`:
protocol `http`, hostname `rain.okta1.com` ('.' a wildcard), port `1802`. -/
def hostM0 : List Char → Option Nat :=
  matchHostPat [.lit 'h', .lit 't', .lit 't', .lit 'p']
    [.lit 'r', .lit 'a', .lit 'i', .lit 'n', .any, .lit 'o', .lit 'k', .lit 't',
     .lit 'a', .lit '1', .any, .lit 'c', .lit 'o', .lit 'm']
    (some [.lit '1', .lit '8', .lit '0', .lit '2'])

/-- The cdn pattern of `replaceUrls` at `cfg0`: `//cdn.ok` ('.' a wildcard). -/
def cdnP0 : List MPat :=
  [.lit '/', .lit '/', .lit 'c', .lit 'd', .lit 'n', .any, .lit 'o', .lit 'k']

/-- `replaceUrls` at `cfg0` is the two-pass scan with the concrete matchers. -/
theorem replaceUrls_cfg0 (s : String) :
    replaceUrls s cfg0 =
      ⟨replaceAllMatches (matchCdnPat cdnP0) "http://p".data
        (replaceAllMatches hostM0 "http://p".data s.data)⟩ := rfl

/-- The host matcher fails instantly anywhere the head is not `h`. -/
theorem hostM0_head (c : Char) (s : List Char) (hc : c ≠ 'h') :
    hostM0 (c :: s) = none := by
  unfold hostM0 matchHostPat
  rw [show matchPre [.lit 'h', .lit 't', .lit 't', .lit 'p'] (c :: s) = none from by
    simp [matchPre, hc]]

/-- The cdn matcher fails instantly anywhere the head is neither `h` nor `/`. -/
theorem cdnM0_head (c : Char) (s : List Char) (h1 : c ≠ 'h') (h2 : c ≠ '/') :
    matchCdnPat cdnP0 (c :: s) = none := by
  unfold matchCdnPat
  rw [show "https:".data.isPrefixOf (c :: s) = false from by
    simp [List.isPrefixOf, Ne.symm h1]]
  rw [show matchPre cdnP0 (c :: s) = none from by
    simp [cdnP0, matchPre, h2]]
  rfl

/-- A host-url occurrence: scheme, `f` filler characters, hostname, `g` filler
characters, port. -/
def renderHost (f g : List Char) : List Char :=
  "http".data ++ (f ++ ("rain.okta1.com".data ++ (g ++ "1802".data)))

/-- The host matcher matches a well-formed host occurrence at its head, over
its exact length, whatever the filler contents and whatever follows. -/
theorem hostM0_occ (f g T : List Char) (hf3 : 3 ≤ f.length) (hf12 : f.length ≤ 12)
    (hg1 : 1 ≤ g.length) (hg4 : g.length ≤ 4) :
    hostM0 (renderHost f g ++ T) = some (renderHost f g).length := by
  have hassoc : renderHost f g ++ T
      = "http".data ++ (f ++ ("rain.okta1.com".data ++ (g ++ ("1802".data ++ T)))) := by
    simp [renderHost, List.append_assoc]
  rw [hassoc]
  unfold hostM0 matchHostPat
  rw [show matchPre [.lit 'h', .lit 't', .lit 't', .lit 'p']
      ("http".data ++ (f ++ ("rain.okta1.com".data ++ (g ++ ("1802".data ++ T)))))
      = some (f ++ ("rain.okta1.com".data ++ (g ++ ("1802".data ++ T)))) from rfl]
  dsimp only
  refine findSome?_descRange _ 12 3 f.length _ (by omega) hf3 hf12 ?_ ?_
  · intro k hk1 hk2
    obtain ⟨i, rfl⟩ : ∃ i, k = f.length + i := ⟨k - f.length, by omega⟩
    rw [if_pos (by
      simp only [List.length_append, show ("rain.okta1.com".data).length = 14 from rfl,
        show ("1802".data).length = 4 from rfl]
      omega)]
    rw [List.drop_append]
    rw [List.drop_append_of_le_length (by
      rw [show ("rain.okta1.com".data).length = 14 from rfl]
      omega)]
    have hi1 : 1 ≤ i := by omega
    have hi9 : i ≤ 9 := by omega
    interval_cases i <;> rfl
  · rw [if_pos (by
      simp only [List.length_append, show ("rain.okta1.com".data).length = 14 from rfl,
        show ("1802".data).length = 4 from rfl]
      omega)]
    rw [List.drop_left]
    rw [show matchPre [.lit 'r', .lit 'a', .lit 'i', .lit 'n', .any, .lit 'o', .lit 'k',
        .lit 't', .lit 'a', .lit '1', .any, .lit 'c', .lit 'o', .lit 'm']
      ("rain.okta1.com".data ++ (g ++ ("1802".data ++ T)))
      = some (g ++ ("1802".data ++ T)) from rfl]
    dsimp only
    refine findSome?_descRange _ 4 1 g.length _ (by omega) hg1 hg4 ?_ ?_
    · intro mm hm1 hm2
      obtain ⟨j, rfl⟩ : ∃ j, mm = g.length + j := ⟨mm - g.length, by omega⟩
      rw [if_pos (by
        simp only [List.length_append, show ("1802".data).length = 4 from rfl]
        omega)]
      rw [List.drop_append]
      rw [List.drop_append_of_le_length (by
        rw [show ("1802".data).length = 4 from rfl]
        omega)]
      have hj1 : 1 ≤ j := by omega
      have hj3 : j ≤ 3 := by omega
      interval_cases j <;> rfl
    · rw [if_pos (by
        simp only [List.length_append, show ("1802".data).length = 4 from rfl]
        omega)]
      rw [List.drop_left]
      rw [show matchPre [.lit '1', .lit '8', .lit '0', .lit '2'] ("1802".data ++ T)
        = some T from rfl]
      dsimp only
      refine congrArg some ?_
      simp only [renderHost, List.length_append, List.length_cons, List.length_nil,
        show ("http".data).length = 4 from rfl,
        show ("rain.okta1.com".data).length = 14 from rfl,
        show ("1802".data).length = 4 from rfl]
      omega

/-- The cdn matcher matches a scheme-ful cdn occurrence over its exact length. -/
theorem cdnM0_https (T : List Char) :
    matchCdnPat cdnP0 ("https://cdn.ok".data ++ T) = some ("https://cdn.ok".data).length :=
  rfl

/-- The cdn matcher matches a bare cdn occurrence over its exact length. -/
theorem cdnM0_bare (T : List Char) :
    matchCdnPat cdnP0 ("//cdn.ok".data ++ T) = some ("//cdn.ok".data).length :=
  rfl

/-- The head of `T.drop j` is an element of `T.take 3` when `j < 3`. -/
theorem head_drop_mem_take {T : List Char} {j : Nat} {c : Char} {rest : List Char}
    (h : List.drop j T = c :: rest) (hj : j < 3) : c ∈ T.take 3 := by
  have h1 : T[j]? = some c := by
    rw [← List.head?_drop, h]
    rfl
  have h2 : (T.take 3)[j]? = some c := by
    rw [List.getElem?_take]
    simp [hj, h1]
  exact List.getElem?_mem h2

/-- The literal-head failure of `matchPre`. -/
theorem matchPre_lit_ne {c x : Char} {ps : List MPat} {s : List Char} (h : x ≠ c) :
    matchPre (.lit c :: ps) (x :: s) = none := by
  simp [matchPre, h]

/-- The hostname pattern of `cfg0` fails on `T.drop j` when the first three
characters of `T` cannot begin the hostname. -/
theorem hostPats0_drop_ne (T : List Char) (hT : ∀ c ∈ T.take 3, c ≠ 'r')
    (j : Nat) (hj : j < 3) :
    matchPre [.lit 'r', .lit 'a', .lit 'i', .lit 'n', .any, .lit 'o', .lit 'k',
      .lit 't', .lit 'a', .lit '1', .any, .lit 'c', .lit 'o', .lit 'm']
      (List.drop j T) = none := by
  cases hd : List.drop j T with
  | nil => rfl
  | cons c rest => exact matchPre_lit_ne (hT c (head_drop_mem_take hd hj))

/-- The host matcher fails at the head of a scheme-ful cdn occurrence as long
as the three characters after the occurrence cannot begin the hostname. -/
theorem hostM0_cdn_https (T : List Char) (hT : ∀ c ∈ T.take 3, c ≠ 'r') :
    hostM0 ("https://cdn.ok".data ++ T) = none := by
  unfold hostM0 matchHostPat
  rw [show matchPre [.lit 'h', .lit 't', .lit 't', .lit 'p']
      ("https://cdn.ok".data ++ T) = some ("s://cdn.ok".data ++ T) from rfl]
  dsimp only
  refine List.findSome?_eq_none_iff.mpr ?_
  intro k hk
  have hlen : ("s://cdn.ok".data ++ T).length = 10 + T.length := by
    simp [List.length_append]
    omega
  rw [show descRange 12 3 = [12, 11, 10, 9, 8, 7, 6, 5, 4, 3] from rfl] at hk
  fin_cases hk
  · by_cases hc : (12 : Nat) ≤ ("s://cdn.ok".data ++ T).length
    · rw [if_pos hc]
      rw [show (12 : Nat) = ("s://cdn.ok".data).length + 2 from rfl, List.drop_append]
      rw [hostPats0_drop_ne T hT 2 (by omega)]
    · rw [if_neg hc]
  · by_cases hc : (11 : Nat) ≤ ("s://cdn.ok".data ++ T).length
    · rw [if_pos hc]
      rw [show (11 : Nat) = ("s://cdn.ok".data).length + 1 from rfl, List.drop_append]
      rw [hostPats0_drop_ne T hT 1 (by omega)]
    · rw [if_neg hc]
  · rw [if_pos (by rw [hlen]; omega)]
    rw [show (10 : Nat) = ("s://cdn.ok".data).length + 0 from rfl, List.drop_append]
    rw [hostPats0_drop_ne T hT 0 (by omega)]
  · rw [if_pos (by rw [hlen]; omega)]
    rfl
  · rw [if_pos (by rw [hlen]; omega)]
    rfl
  · rw [if_pos (by rw [hlen]; omega)]
    rfl
  · rw [if_pos (by rw [hlen]; omega)]
    rfl
  · rw [if_pos (by rw [hlen]; omega)]
    rfl
  · rw [if_pos (by rw [hlen]; omega)]
    rfl
  · rw [if_pos (by rw [hlen]; omega)]
    rfl

/-- A url occurrence in an input to the rewriter at `cfg0`: a host url with
fillers `f` (between scheme and hostname) and `g` (between hostname and port),
or a cdn url with or without the `https:` scheme. -/
inductive UrlOcc where
  | host (f g : List Char)
  | cdn (scheme : Bool)

/-- The text of an occurrence. -/
def renderOcc : UrlOcc → List Char
  | .host f g => renderHost f g
  | .cdn true => "https://cdn.ok".data
  | .cdn false => "//cdn.ok".data

/-- A context character that can neither begin a url pattern (`h`, `/`) nor
continue one across a boundary (`r`, the hostname head). -/
def benignChar (c : Char) : Prop := c ≠ 'h' ∧ c ≠ '/' ∧ c ≠ 'r'

instance : DecidablePred benignChar := fun c => by unfold benignChar; infer_instance

def benignL (l : List Char) : Prop := ∀ c ∈ l, benignChar c

/-- Well-formedness of an occurrence: the filler counts the host regex
tolerates. -/
def wfOcc : UrlOcc → Prop
  | .host f g => 3 ≤ f.length ∧ f.length ≤ 12 ∧ 1 ≤ g.length ∧ g.length ≤ 4
  | .cdn _ => True

/-- An input to the rewriter: benign contexts alternating with occurrences,
closed by a final benign context. -/
def interpSegs : List (List Char × UrlOcc) → List Char → List Char
  | [], tl => tl
  | (ctx, occ) :: rest, tl => ctx ++ (renderOcc occ ++ interpSegs rest tl)

/-- The same input after the first pass (host urls replaced by the proxy). -/
def pass1Segs : List (List Char × UrlOcc) → List Char → List Char
  | [], tl => tl
  | (ctx, .host _ _) :: rest, tl => ctx ++ ("http://p".data ++ pass1Segs rest tl)
  | (ctx, .cdn b) :: rest, tl => ctx ++ (renderOcc (.cdn b) ++ pass1Segs rest tl)

/-- The same input with every occurrence replaced by the proxy url. -/
def rewrittenSegs : List (List Char × UrlOcc) → List Char → List Char
  | [], tl => tl
  | (ctx, _) :: rest, tl => ctx ++ ("http://p".data ++ rewrittenSegs rest tl)

def wfSegs (segs : List (List Char × UrlOcc)) : Prop :=
  ∀ p ∈ segs, benignL p.1 ∧ wfOcc p.2

/-- The first three characters of a segment interpretation never carry the
hostname head `r`: they are benign context characters or the first characters
of an occurrence (`http`, `https:`, `//cd`). -/
theorem interpSegs_take3 (segs : List (List Char × UrlOcc)) (tl : List Char)
    (hw : wfSegs segs) (ht : benignL tl) :
    ∀ c ∈ (interpSegs segs tl).take 3, c ≠ 'r' := by
  intro c hc
  cases segs with
  | nil =>
    exact (ht c (List.take_subset _ _ hc)).2.2
  | cons p rest =>
    obtain ⟨ctx, occ⟩ := p
    rw [show interpSegs ((ctx, occ) :: rest) tl = ctx ++ (renderOcc occ ++ interpSegs rest tl)
      from rfl, List.take_append_eq_append_take] at hc
    rcases List.mem_append.mp hc with h1 | h2
    · exact ((hw (ctx, occ) (by simp)).1 c (List.take_subset _ _ h1)).2.2
    · rw [List.take_append_eq_append_take] at h2
      rcases List.mem_append.mp h2 with h3 | h4
      · have h5 : c ∈ (renderOcc occ).take 3 :=
          List.take_subset_take_left _ (by omega) h3
        cases occ with
        | host f g =>
          rw [show renderOcc (.host f g) = "http".data ++
            (f ++ ("rain.okta1.com".data ++ (g ++ "1802".data))) from rfl,
            List.take_append_eq_append_take,
            show (3 : Nat) - ("http".data).length = 0 from rfl,
            List.take_zero, List.append_nil,
            show List.take 3 ("http".data) = ['h', 't', 't'] from rfl] at h5
          fin_cases h5 <;> decide
        | cdn b =>
          cases b with
          | true =>
            rw [show (renderOcc (.cdn true)).take 3 = ['h', 't', 't'] from rfl] at h5
            fin_cases h5 <;> decide
          | false =>
            rw [show (renderOcc (.cdn false)).take 3 = ['/', '/', 'c'] from rfl] at h5
            fin_cases h5 <;> decide
      · have h8 : 8 ≤ (renderOcc occ).length := by
          cases occ with
          | host f g =>
            rw [show renderOcc (.host f g) = "http".data ++
              (f ++ ("rain.okta1.com".data ++ (g ++ "1802".data))) from rfl]
            simp only [List.length_append, show ("http".data).length = 4 from rfl,
              show ("rain.okta1.com".data).length = 14 from rfl,
              show ("1802".data).length = 4 from rfl]
            omega
          | cdn b => cases b <;> decide
        rw [show 3 - ctx.length - (renderOcc occ).length = 0 from by omega,
          List.take_zero] at h4
        exact absurd h4 (List.not_mem_nil c)

/-- First pass of the rewriter at `cfg0` over a segmented input: every host
occurrence is replaced by the proxy url, contexts and cdn occurrences are
copied. -/
theorem pass1_segs : ∀ (segs : List (List Char × UrlOcc)) (tl : List Char),
    wfSegs segs → benignL tl →
    replaceAllAux hostM0 "http://p".data (interpSegs segs tl).length (interpSegs segs tl)
      = pass1Segs segs tl := by
  intro segs
  induction segs with
  | nil =>
    intro tl _ ht
    refine replaceAllAux_id _ _ ?_
    intro b hb hs
    cases b with
    | nil => exact absurd rfl hb
    | cons c b'' =>
      exact hostM0_head c _ ((ht c (hs.subset (by simp))).1)
  | cons p rest ih =>
    intro tl hw ht
    obtain ⟨ctx, occ⟩ := p
    have hw1 : benignL ctx := (hw (ctx, occ) (by simp)).1
    have hwo : wfOcc occ := (hw (ctx, occ) (by simp)).2
    have hwr : wfSegs rest := fun q hq => hw q (by simp [hq])
    show replaceAllAux hostM0 "http://p".data
      (ctx ++ (renderOcc occ ++ interpSegs rest tl)).length
      (ctx ++ (renderOcc occ ++ interpSegs rest tl)) = pass1Segs ((ctx, occ) :: rest) tl
    rw [List.length_append]
    rw [replaceAllAux_skip ctx _ _ (by
      intro b hb hs
      cases b with
      | nil => exact absurd rfl hb
      | cons c b'' =>
        exact hostM0_head c _ ((hw1 c (hs.subset (by simp))).1))]
    cases occ with
    | host f g =>
      rw [List.length_append]
      rw [replaceAllAux_replace (renderOcc (.host f g)) (interpSegs rest tl) _
        (by simp [renderOcc, renderHost]) (hostM0_occ f g _ hwo.1 hwo.2.1 hwo.2.2.1 hwo.2.2.2)
        (le_refl _)]
      rw [ih tl hwr ht]
      rfl
    | cdn b =>
      rw [List.length_append]
      rw [replaceAllAux_skip (renderOcc (.cdn b)) _ _ (by
        intro bb hbb hs
        have hmem : bb ∈ (renderOcc (.cdn b)).tails := (List.mem_tails _ _).mpr hs
        cases b with
        | true =>
          rw [show renderOcc (.cdn true) = "https://cdn.ok".data from rfl] at hmem
          fin_cases hmem
          · exact hostM0_cdn_https _ (interpSegs_take3 rest tl hwr ht)
          · exact hostM0_head _ _ (by decide)
          · exact hostM0_head _ _ (by decide)
          · exact hostM0_head _ _ (by decide)
          · exact hostM0_head _ _ (by decide)
          · exact hostM0_head _ _ (by decide)
          · exact hostM0_head _ _ (by decide)
          · exact hostM0_head _ _ (by decide)
          · exact hostM0_head _ _ (by decide)
          · exact hostM0_head _ _ (by decide)
          · exact hostM0_head _ _ (by decide)
          · exact hostM0_head _ _ (by decide)
          · exact hostM0_head _ _ (by decide)
          · exact hostM0_head _ _ (by decide)
          · exact absurd rfl hbb
        | false =>
          rw [show renderOcc (.cdn false) = "//cdn.ok".data from rfl] at hmem
          fin_cases hmem
          · exact hostM0_head _ _ (by decide)
          · exact hostM0_head _ _ (by decide)
          · exact hostM0_head _ _ (by decide)
          · exact hostM0_head _ _ (by decide)
          · exact hostM0_head _ _ (by decide)
          · exact hostM0_head _ _ (by decide)
          · exact hostM0_head _ _ (by decide)
          · exact hostM0_head _ _ (by decide)
          · exact absurd rfl hbb)]
      rw [ih tl hwr ht]
      cases b <;> rfl

/-- Second pass of the rewriter at `cfg0` over the first pass's output: every
cdn occurrence is replaced by the proxy url; contexts and the proxy urls the
first pass inserted are copied. -/
theorem pass2_segs : ∀ (segs : List (List Char × UrlOcc)) (tl : List Char),
    wfSegs segs → benignL tl →
    replaceAllAux (matchCdnPat cdnP0) "http://p".data
      (pass1Segs segs tl).length (pass1Segs segs tl) = rewrittenSegs segs tl := by
  intro segs
  induction segs with
  | nil =>
    intro tl _ ht
    refine replaceAllAux_id _ _ ?_
    intro b hb hs
    cases b with
    | nil => exact absurd rfl hb
    | cons c b'' =>
      exact cdnM0_head c _ ((ht c (hs.subset (by simp))).1) ((ht c (hs.subset (by simp))).2.1)
  | cons p rest ih =>
    intro tl hw ht
    obtain ⟨ctx, occ⟩ := p
    have hw1 : benignL ctx := (hw (ctx, occ) (by simp)).1
    have hwr : wfSegs rest := fun q hq => hw q (by simp [hq])
    cases occ with
    | host f g =>
      show replaceAllAux (matchCdnPat cdnP0) "http://p".data
        (ctx ++ ("http://p".data ++ pass1Segs rest tl)).length
        (ctx ++ ("http://p".data ++ pass1Segs rest tl)) = _
      rw [List.length_append]
      rw [replaceAllAux_skip ctx _ _ (by
        intro b hb hs
        cases b with
        | nil => exact absurd rfl hb
        | cons c b'' =>
          exact cdnM0_head c _ ((hw1 c (hs.subset (by simp))).1)
            ((hw1 c (hs.subset (by simp))).2.1))]
      rw [List.length_append]
      rw [replaceAllAux_skip ("http://p".data) _ _ (by
        intro bb hbb hs
        have hmem : bb ∈ ("http://p".data).tails := (List.mem_tails _ _).mpr hs
        fin_cases hmem
        · rfl
        · rfl
        · rfl
        · rfl
        · rfl
        · rfl
        · rfl
        · rfl
        · exact absurd rfl hbb)]
      rw [ih tl hwr ht]
      rfl
    | cdn b =>
      show replaceAllAux (matchCdnPat cdnP0) "http://p".data
        (ctx ++ (renderOcc (.cdn b) ++ pass1Segs rest tl)).length
        (ctx ++ (renderOcc (.cdn b) ++ pass1Segs rest tl)) = _
      rw [List.length_append]
      rw [replaceAllAux_skip ctx _ _ (by
        intro b' hb hs
        cases b' with
        | nil => exact absurd rfl hb
        | cons c b'' =>
          exact cdnM0_head c _ ((hw1 c (hs.subset (by simp))).1)
            ((hw1 c (hs.subset (by simp))).2.1))]
      rw [List.length_append]
      rw [replaceAllAux_replace (renderOcc (.cdn b)) (pass1Segs rest tl) _
        (by cases b <;> simp [renderOcc])
        (by cases b
            · exact cdnM0_bare _
            · exact cdnM0_https _)
        (le_refl _)]
      rw [ih tl hwr ht]
      rfl

instance : DecidablePred wfOcc := fun o => by
  cases o with
  | host f g =>
    exact inferInstanceAs (Decidable (3 ≤ f.length ∧ f.length ≤ 12 ∧
      1 ≤ g.length ∧ g.length ≤ 4))
  | cdn b => exact inferInstanceAs (Decidable True)

instance (l : List Char) : Decidable (benignL l) := List.decidableBAll _ _

instance (segs : List (List Char × UrlOcc)) : Decidable (wfSegs segs) :=
  List.decidableBAll _ _

/-- The witness input: the literal host url, its backslash-hex escaped form,
a scheme-ful cdn url and a bare cdn url, in benign contexts. -/
def segsW : List (List Char × UrlOcc) :=
  [("A ".data, .host "://".data ":".data),
   (" B ".data, .host ":\\x2F\\x2F".data "\\x3A".data),
   (" C ".data, .cdn true),
   (" D ".data, .cdn false)]

/-- Claim C6 (the Token Swapper, `util.js` lines 295-332 and 343-371).  For
every input token either swapper accepts — necessarily a decodable compact
serialization — and every claims patch `{nonce, iss}` of plain JSON strings,
the output token's header `kid` is the fixed public-key id, its header `alg`
is the input token's original algorithm, its decoded payload carries the
supplied `nonce` and `iss` and `exp = now + 3600`, and its signature — made
with the fixed private key — verifies against the fixed public key. -/
theorem C6_token_swapper (tok : String) (nonce iss : String) (now : Nat)
    (hn : strOk nonce = true) (hi : strOk iss = true) :
    (∀ out, swapIdToken tok (.str nonce) (.str iss) JVal.undefv now = .ok out →
      ∃ (dec d : DecodedJws) (claims' : JsObj),
        jws_decode tok = some dec ∧
        jws_decode out = some d ∧
        parseObj d.payload = some claims' ∧
        objGet d.header "kid" = some (JVal.str keys_publicJwk_kid) ∧
        (∀ a : String, objGet dec.header "alg" = some (.str a) →
          objGet d.header "alg" = some (.str a)) ∧
        objGet claims' "nonce" = some (.str nonce) ∧
        objGet claims' "iss" = some (.str iss) ∧
        objGet claims' "exp" = some (.num (now + 3600)) ∧
        jws_verify out keys_publicPem = true) ∧
    (∀ out, swapAccessToken tok (.str nonce) (.str iss) now = .ok out →
      ∃ (dec d : DecodedJws) (claims' : JsObj),
        jws_decode tok = some dec ∧
        jws_decode out = some d ∧
        parseObj d.payload = some claims' ∧
        objGet d.header "kid" = some (JVal.str keys_publicJwk_kid) ∧
        (∀ a : String, objGet dec.header "alg" = some (.str a) →
          objGet d.header "alg" = some (.str a)) ∧
        objGet claims' "nonce" = some (.str nonce) ∧
        objGet claims' "iss" = some (.str iss) ∧
        objGet claims' "exp" = some (.num (now + 3600)) ∧
        jws_verify out keys_publicPem = true) := by
  constructor
  · intro out h
    obtain ⟨dec, d, claims', h1, h2, h3, h4, h5, h6, h7, h8, _, h10⟩ :=
      swapIdToken_props h (by simpa [valOk] using hn) (by simpa [valOk] using hi)
        (by decide)
    exact ⟨dec, d, claims', h1, h2, h3, h4, h5, h7 (by simp), h8 (by simp), h6, h10⟩
  · intro out h
    obtain ⟨dec, d, claims', h1, h2, h3, h4, h5, h6, h7, h8, h10⟩ :=
      swapAccessToken_props h (by simpa [valOk] using hn) (by simpa [valOk] using hi)
    exact ⟨dec, d, claims', h1, h2, h3, h4, h5, h7 (by simp), h8 (by simp), h6, h10⟩

/-- The total output of `swapIdToken` (empty string on error). -/
def swapIdOut (tok : String) (nonce iss at_hash : JVal) (now : Nat) : String :=
  match swapIdToken tok nonce iss at_hash now with
  | .ok out => out
  | .error _ => ""

/-- The total output of `swapAccessToken` (empty string on error). -/
def swapAccOut (tok : String) (nonce iss : JVal) (now : Nat) : String :=
  match swapAccessToken tok nonce iss now with
  | .ok out => out
  | .error _ => ""

/-- Witness for `C6_token_swapper`: swapping the recorded token `tok0` with
`{nonce: "abc", iss: "http://p/oauth2/default"}` at time 7. -/
theorem C6_token_swapper_witness :
    (∃ (dec d : DecodedJws) (claims' : JsObj),
      jws_decode tok0 = some dec ∧
      jws_decode (swapIdOut tok0 (.str "abc") (.str "http://p/oauth2/default")
        JVal.undefv 7) = some d ∧
      parseObj d.payload = some claims' ∧
      objGet d.header "kid" = some (JVal.str keys_publicJwk_kid) ∧
      (∀ a : String, objGet dec.header "alg" = some (.str a) →
        objGet d.header "alg" = some (.str a)) ∧
      objGet claims' "nonce" = some (.str "abc") ∧
      objGet claims' "iss" = some (.str "http://p/oauth2/default") ∧
      objGet claims' "exp" = some (.num (7 + 3600)) ∧
      jws_verify (swapIdOut tok0 (.str "abc") (.str "http://p/oauth2/default")
        JVal.undefv 7) keys_publicPem = true) ∧
    (∃ (dec d : DecodedJws) (claims' : JsObj),
      jws_decode tok0 = some dec ∧
      jws_decode (swapAccOut tok0 (.str "abc") (.str "http://p/oauth2/default") 7)
        = some d ∧
      parseObj d.payload = some claims' ∧
      objGet d.header "kid" = some (JVal.str keys_publicJwk_kid) ∧
      (∀ a : String, objGet dec.header "alg" = some (.str a) →
        objGet d.header "alg" = some (.str a)) ∧
      objGet claims' "nonce" = some (.str "abc") ∧
      objGet claims' "iss" = some (.str "http://p/oauth2/default") ∧
      objGet claims' "exp" = some (.num (7 + 3600)) ∧
      jws_verify (swapAccOut tok0 (.str "abc") (.str "http://p/oauth2/default") 7)
        keys_publicPem = true) :=
  ⟨(C6_token_swapper tok0 "abc" "http://p/oauth2/default" 7 (by decide) (by decide)).1
      (swapIdOut tok0 (.str "abc") (.str "http://p/oauth2/default") JVal.undefv 7)
      (by set_option maxRecDepth 100000 in rfl),
   (C6_token_swapper tok0 "abc" "http://p/oauth2/default" 7 (by decide) (by decide)).2
      (swapAccOut tok0 (.str "abc") (.str "http://p/oauth2/default") 7)
      (by set_option maxRecDepth 100000 in rfl)⟩

/-- An authorize-replay body carrying only the first marker of its flow: the
`data.id_token = '...'` marker is present (with the recorded token `tok0`) but
no `"access_token":"..."` marker follows. -/
def bodyAuth1 : String := "data.id_token = '" ++ tok0 ++ "' end"

/-- A token-response body carrying only the first marker of the playback flow:
the `"access_token":"..."` marker is present (with the recorded token `tok0`)
but no `"id_token":"..."` marker follows. -/
def bodyTok1 : String := "\"access_token\":\"" ++ tok0 ++ "\" end"

/-- Witness for `C7_missing_marker_is_fatal`: the body `"nobody"` carries no
marker at all and trips the first lookup of each flow, while `bodyAuth1` and
`bodyTok1` carry exactly the first marker of their flow and trip the second
lookup; all five cases reject. -/
theorem C7_missing_marker_is_fatal_witness :
    mapCachedBodyToResponse "nobody" cfg0 dAuth0 false 5 =
      .error "TypeError: cannot read 1 of null" ∧
    mapCachedBodyToResponse bodyAuth1 cfg0 dAuth0 false 5 =
      .error "TypeError: cannot read 1 of null" ∧
    mapCachedBodyToResponse "nobody" cfg0 dTok0 true 5 =
      .error "TypeError: cannot read 1 of null" ∧
    mapCachedBodyToResponse "nobody" cfg0 dTok0 false 5 =
      .error "TypeError: cannot read 1 of null" ∧
    mapCachedBodyToResponse bodyTok1 cfg0 dTok0 false 5 =
      .error "TypeError: cannot read 1 of null" :=
  ⟨(C7_missing_marker_is_fatal "nobody" cfg0 dAuth0 false 5).1 (by decide) (by decide)
      (by decide),
   (C7_missing_marker_is_fatal bodyAuth1 cfg0 dAuth0 false 5).2.1 tok0.data
      (swapIdOut tok0 (jvalOfOpt dAuth0.nonce) (.str (cfg0.proxy ++ "/oauth2/default"))
        JVal.undefv 5)
      (by decide) (by decide) (by set_option maxRecDepth 200000 in decide)
      (by set_option maxRecDepth 200000 in rfl)
      (by set_option maxRecDepth 200000 in decide),
   (C7_missing_marker_is_fatal "nobody" cfg0 dTok0 true 5).2.2.1 (by decide) (by decide)
      (by decide),
   (C7_missing_marker_is_fatal "nobody" cfg0 dTok0 false 5).2.2.2.1 (by decide)
      (by decide) (by decide),
   (C7_missing_marker_is_fatal bodyTok1 cfg0 dTok0 false 5).2.2.2.2 tok0.data
      (swapAccOut tok0 (jvalOfOpt dTok0.nonce) (.str (cfg0.proxy ++ "/oauth2/default")) 5)
      (by decide) (by decide) (by set_option maxRecDepth 200000 in decide)
      (by set_option maxRecDepth 200000 in rfl)
      (by set_option maxRecDepth 200000 in decide)⟩

theorem strOk_append (a b : String) : strOk (a ++ b) = (strOk a && strOk b) := by
  simp [strOk, String.data_append, List.all_append]

theorem strOk_tokenHash (t : String) : strOk (tokenHash_generate t) = true := by
  unfold tokenHash_generate
  rw [strOk_append, strOk_append, strOk_append]
  simp only [Bool.and_eq_true]
  refine ⟨⟨⟨by decide, ?_⟩, by decide⟩, ?_⟩
  · simp only [strOk, encS, List.all_eq_true]
    intro c hc
    have hm := mem_encL hc
    simpa using (hexAlphabet_chars c hm).2.1
  · simp only [strOk, List.all_eq_true]
    intro c hc
    have := natPrintL_digits hc
    simpa using isDigit_ne_quote this
theorem tokenHash_head (t : String) :
    ∃ r, (tokenHash_generate t).data = 'a' :: r := by
  unfold tokenHash_generate
  simp [String.data_append]

theorem tokenHash_ne_undefined (t : String) :
    (tokenHash_generate t == "undefined") = false := by
  obtain ⟨r, hr⟩ := tokenHash_head t
  cases hq : tokenHash_generate t == "undefined"
  · rfl
  · have : tokenHash_generate t = "undefined" := eq_of_beq hq
    rw [this] at hr
    exact absurd hr (by simp [show ("undefined" : String).data =
      ['u','n','d','e','f','i','n','e','d'] from rfl])

/-- Claim C1 (`at_hash` binding on playback of a token response, `util.js`
lines 479-498).  In playback (`record = false`) of a token-endpoint body, the
access token found in the body is swapped and re-signed first, the token hash
is computed over that newly signed access token, the ID token is then swapped
with exactly that digest supplied as `at_hash`, and the decoded payload of the
new ID token carries that digest as its `at_hash` claim. -/
theorem C1_at_hash_binding (chunk : String) (cfg : Cfg) (d : SessionData) (now : Nat)
    (body : String)
    (hna : d.isAuthorizeReq = false) (ht : d.isTokenReq = true)
    (hnon : valOk (jvalOfOpt d.nonce) = true)
    (hiss : strOk cfg.proxy = true)
    (hrun : mapCachedBodyToResponse chunk cfg d false now = .ok body) :
    ∃ (accTok idTok : List Char) (newAcc newId : String),
      findCapL accessTokenPre '"' (replaceUrls chunk cfg).data = some accTok ∧
      swapAccessToken ⟨accTok⟩ (jvalOfOpt d.nonce)
        (.str (cfg.proxy ++ "/oauth2/default")) now = .ok newAcc ∧
      findCapL idTokenJsonPre '"'
        (replaceFirstL accTok newAcc.data (replaceUrls chunk cfg).data) = some idTok ∧
      swapIdToken ⟨idTok⟩ (jvalOfOpt d.nonce) (.str (cfg.proxy ++ "/oauth2/default"))
        (.str (tokenHash_generate newAcc)) now = .ok newId ∧
      body = ⟨replaceFirstL idTok newId.data
        (replaceFirstL accTok newAcc.data (replaceUrls chunk cfg).data)⟩ ∧
      ∃ (dId : DecodedJws) (cId : JsObj),
        jws_decode newId = some dId ∧
        parseObj dId.payload = some cId ∧
        objGet cId "at_hash" = some (.str (tokenHash_generate newAcc)) := by
  unfold mapCachedBodyToResponse at hrun
  rw [hna, ht] at hrun
  simp only [Bool.false_and, Bool.false_eq_true, if_false, if_true, pure, Except.pure,
    Bind.bind, Except.bind] at hrun
  match hacc : findCapL accessTokenPre '"' (replaceUrls chunk cfg).data with
  | none => rw [hacc] at hrun; exact absurd hrun (by simp)
  | some accTok =>
    rw [hacc] at hrun
    dsimp only at hrun
    match hswapA : swapAccessToken ⟨accTok⟩ (jvalOfOpt d.nonce)
        (.str (cfg.proxy ++ "/oauth2/default")) now with
    | .error e => rw [hswapA] at hrun; exact absurd hrun (by simp)
    | .ok newAcc =>
      rw [hswapA] at hrun
      dsimp only at hrun
      match hid : findCapL idTokenJsonPre '"'
          (replaceFirstL accTok newAcc.data (replaceUrls chunk cfg).data) with
      | none => rw [hid] at hrun; exact absurd hrun (by simp)
      | some idTok =>
        rw [hid] at hrun
        dsimp only at hrun
        match hswapI : swapIdToken ⟨idTok⟩ (jvalOfOpt d.nonce)
            (.str (cfg.proxy ++ "/oauth2/default"))
            (.str (tokenHash_generate newAcc)) now with
        | .error e => rw [hswapI] at hrun; exact absurd hrun (by simp)
        | .ok newId =>
          rw [hswapI] at hrun
          simp only [Except.ok.injEq] at hrun
          refine ⟨accTok, idTok, newAcc, newId, rfl, hswapA, hid, hswapI, hrun.symm, ?_⟩
          obtain ⟨_, dId, cId, _, hdec, hparse, _, _, _, _, _, hath, _⟩ :=
            swapIdToken_props hswapI hnon
              (by simp [valOk, strOk_append, hiss]; decide)
              (by simp [valOk, strOk_tokenHash])
          exact ⟨dId, cId, hdec, hparse,
            hath (by simp [jsNeqStrUndefined, tokenHash_ne_undefined]) (by simp)⟩

/-- A recorded access token with small claims. -/
def atok0 : String := (jws_sign hdr0 [("e", JVal.num 5)] "OK").getD ""

/-- A recorded token-endpoint response body embedding both tokens. -/
def body0 : String :=
  "\x7b\"access_token\":\"" ++ atok0 ++ "\",\"id_token\":\"" ++ tok0 ++ "\"\x7d"

/-- The total result of a `mapCachedBodyToResponse` run. -/
def bodyOut (chunk : String) (cfg : Cfg) (d : SessionData) (record : Bool)
    (now : Nat) : String :=
  match mapCachedBodyToResponse chunk cfg d record now with
  | .ok b => b
  | .error _ => ""

/-- Witness for `C1_at_hash_binding`: playback of the concrete token response
`body0`. -/
theorem C1_at_hash_binding_witness :
    ∃ (accTok idTok : List Char) (newAcc newId : String),
      findCapL accessTokenPre '"' (replaceUrls body0 cfg0).data = some accTok ∧
      swapAccessToken ⟨accTok⟩ (jvalOfOpt dTok0.nonce)
        (.str (cfg0.proxy ++ "/oauth2/default")) 5 = .ok newAcc ∧
      findCapL idTokenJsonPre '"'
        (replaceFirstL accTok newAcc.data (replaceUrls body0 cfg0).data) = some idTok ∧
      swapIdToken ⟨idTok⟩ (jvalOfOpt dTok0.nonce) (.str (cfg0.proxy ++ "/oauth2/default"))
        (.str (tokenHash_generate newAcc)) 5 = .ok newId ∧
      bodyOut body0 cfg0 dTok0 false 5 = ⟨replaceFirstL idTok newId.data
        (replaceFirstL accTok newAcc.data (replaceUrls body0 cfg0).data)⟩ ∧
      ∃ (dId : DecodedJws) (cId : JsObj),
        jws_decode newId = some dId ∧
        parseObj dId.payload = some cId ∧
        objGet cId "at_hash" = some (.str (tokenHash_generate newAcc)) :=
  C1_at_hash_binding body0 cfg0 dTok0 5 (bodyOut body0 cfg0 dTok0 false 5)
    (by decide) (by decide) (by decide) (by decide)
    (by set_option maxRecDepth 200000 in rfl)

theorem splitFirstChar_append {sep : Char} {a : List Char} (ha : sep ∉ a) (b : List Char) :
    splitFirstChar sep (a ++ sep :: b) = some (a, b) := by
  induction a with
  | nil => simp [splitFirstChar]
  | cons c r ih =>
    have hc : c ≠ sep := fun h => ha (h ▸ List.mem_cons_self c r)
    have hr : sep ∉ r := fun h => ha (List.mem_cons_of_mem _ h)
    simp [splitFirstChar, if_neg hc, ih hr]

theorem takeWhile_of_all {α} {p : α → Bool} {l : List α} (h : ∀ c ∈ l, p c = true) :
    l.takeWhile p = l := by
  induction l with
  | nil => rfl
  | cons c r ih =>
    rw [List.takeWhile_cons, if_pos (h c (List.mem_cons_self c r))]
    rw [ih fun x hx => h x (List.mem_cons_of_mem _ hx)]

theorem containsL_append_left {t a : List Char} (h : containsL t a = true) (b : List Char) :
    containsL t (a ++ b) = true := by
  induction a with
  | nil =>
    simp only [containsL, List.isEmpty_iff] at h
    subst h
    cases b with
    | nil => rfl
    | cons c r => simp [containsL, List.isPrefixOf]
  | cons c r ih =>
    simp only [containsL, Bool.or_eq_true] at h ⊢
    rcases h with h | h
    · left
      have hp : t <+: c :: r := List.isPrefixOf_iff_prefix.1 h
      exact List.isPrefixOf_iff_prefix.2 (hp.trans (List.prefix_append _ b))
    · right
      exact ih h

theorem replaceFirstL_at {t : List Char} {c : Char} {t' : List Char} (r : List Char)
    (ht : t = c :: t') {a : List Char} (ha : c ∉ a) (b : List Char) :
    replaceFirstL t r (a ++ (t ++ b)) = a ++ (r ++ b) := by
  subst ht
  induction a with
  | nil =>
    simp only [List.nil_append, List.cons_append]
    have hp : (c :: t').isPrefixOf (c :: (t' ++ b)) = true := by
      simp only [List.isPrefixOf, beq_self_eq_true, Bool.true_and]
      exact List.isPrefixOf_iff_prefix.2 (List.prefix_append t' b)
    rw [replaceFirstL, if_pos hp]
    simp only [List.length_cons, List.drop_succ_cons, List.drop_left]
  | cons d a' ih =>
    have hd : d ≠ c := fun h => ha (h ▸ List.mem_cons_self d a')
    have ha' : c ∉ a' := fun h => ha (List.mem_cons_of_mem _ h)
    have hnp : (c :: t').isPrefixOf (d :: (a' ++ c :: (t' ++ b))) = false := by
      simp only [List.isPrefixOf, Bool.and_eq_false_iff]
      left
      exact beq_eq_false_iff_ne.2 (fun h => hd h.symm)
    simp only [List.cons_append]
    rw [replaceFirstL, if_neg (by rw [hnp]; simp)]
    rw [List.cons.injEq]
    refine ⟨rfl, ?_⟩
    have := ih ha'
    simpa [List.cons_append] using this

theorem replaceFirstL_nop {t : List Char} {c : Char} {t' : List Char} (r : List Char)
    (ht : t = c :: t') {s : List Char} (hs : c ∉ s) :
    replaceFirstL t r s = s := by
  subst ht
  induction s with
  | nil => simp [replaceFirstL]
  | cons d s' ih =>
    have hd : d ≠ c := fun h => hs (h ▸ List.mem_cons_self d s')
    have hs' : c ∉ s' := fun h => hs (List.mem_cons_of_mem _ h)
    have hnp : (c :: t').isPrefixOf (d :: s') = false := by
      simp only [List.isPrefixOf, Bool.and_eq_false_iff]
      left
      exact beq_eq_false_iff_ne.2 (fun h => hd h.symm)
    rw [replaceFirstL, if_neg (by rw [hnp]; simp), ih hs']

theorem qsUnescapeL_plain {l : List Char} (h : ∀ c ∈ l, c.isAlphanum = true) :
    qsUnescapeL l = l := by
  induction l with
  | nil => rfl
  | cons c r ih =>
    have hc := h c (List.mem_cons_self c r)
    have hplus : c ≠ '+' := fun he => by subst he; exact absurd hc (by decide)
    have hpct : c ≠ '%' := fun he => by subst he; exact absurd hc (by decide)
    have hr := ih fun x hx => h x (List.mem_cons_of_mem _ hx)
    rw [qsUnescapeL.eq_def]
    split
    · next heq => cases heq
    · next r' heq => exact absurd (List.cons.inj heq).1 hplus
    · next a b r' heq => exact absurd (List.cons.inj heq).1 hpct
    · next c' r' h3 h4 heq =>
      obtain ⟨h1, h2⟩ := List.cons.inj heq
      subst h1
      subst h2
      rw [hr]

theorem alphanum_ne {c : Char} (h : c.isAlphanum = true) {d : Char}
    (hd : d.isAlphanum = false) : c ≠ d := by
  intro he
  subst he
  rw [h] at hd
  exact absurd hd (by simp)

/-! ## Claim C4: the state/nonce round trip -/

theorem parseQuery_auth (S N : List Char)
    (hSa : ∀ c ∈ S, c.isAlphanum = true)
    (hNa : ∀ c ∈ N, c.isAlphanum = true) :
    parseQuery ("/oauth2/v1/authorize?x=1&state=" ++ ⟨S⟩ ++ "&nonce=" ++ ⟨N⟩) =
      [("x", "1"), ("state", ⟨S⟩), ("nonce", ⟨N⟩)] := by
  have hdata : ("/oauth2/v1/authorize?x=1&state=" ++ (⟨S⟩ : String) ++ "&nonce=" ++
      (⟨N⟩ : String)).data
      = "/oauth2/v1/authorize".data ++ '?' ::
        ("x=1".data ++ '&' :: (("state=".data ++ S) ++ '&' :: ("nonce=".data ++ N))) := by
    rw [String.data_append, String.data_append, String.data_append]
    rw [show ("/oauth2/v1/authorize?x=1&state=" : String).data =
      "/oauth2/v1/authorize".data ++ '?' :: ("x=1".data ++ '&' :: "state=".data) from by
        decide]
    rw [show ("&nonce=" : String).data = '&' :: "nonce=".data from by decide]
    rw [show ((⟨S⟩ : String)).data = S from rfl, show ((⟨N⟩ : String)).data = N from rfl]
    simp only [List.append_assoc, List.cons_append]
  unfold parseQuery
  rw [hdata]
  rw [splitFirstChar_append (show ('?' : Char) ∉ "/oauth2/v1/authorize".data by decide)]
  have hQall : ∀ c ∈ "x=1".data ++ '&' ::
      (("state=".data ++ S) ++ '&' :: ("nonce=".data ++ N)),
      (fun c => decide (c ≠ '#')) c = true := by
    rw [List.forall_mem_append]
    refine ⟨by decide, ?_⟩
    rw [List.forall_mem_cons]
    refine ⟨by decide, ?_⟩
    rw [List.forall_mem_append, List.forall_mem_append]
    refine ⟨⟨by decide, fun c hc => ?_⟩, ?_⟩
    · simp only [decide_eq_true_eq]
      exact alphanum_ne (hSa c hc) (by decide)
    · rw [List.forall_mem_cons]
      refine ⟨by decide, ?_⟩
      rw [List.forall_mem_append]
      refine ⟨by decide, fun c hc => ?_⟩
      simp only [decide_eq_true_eq]
      exact alphanum_ne (hNa c hc) (by decide)
  dsimp only
  rw [takeWhile_of_all hQall]
  have hS1 : ('&' : Char) ∉ "state=".data ++ S := by
    intro h
    rcases List.mem_append.1 h with h | h
    · exact absurd h (by decide)
    · exact absurd rfl (alphanum_ne (hSa _ h) (by decide)).symm
  have hN1 : ('&' : Char) ∉ "nonce=".data ++ N := by
    intro h
    rcases List.mem_append.1 h with h | h
    · exact absurd h (by decide)
    · exact absurd rfl (alphanum_ne (hNa _ h) (by decide)).symm
  rw [splitOnCharL_append_of_not_mem (show ('&' : Char) ∉ "x=1".data by decide),
    splitOnCharL_append_of_not_mem hS1, splitOnCharL_of_not_mem hN1]
  rw [List.filter_cons_of_pos (by decide), List.filter_cons_of_pos (by rfl),
    List.filter_cons_of_pos (by rfl), List.filter_nil]
  rw [List.map_cons, List.map_cons, List.map_cons, List.map_nil]
  rw [show ("state=".data ++ S) = "state".data ++ '=' :: S from rfl,
    show ("nonce=".data ++ N) = "nonce".data ++ '=' :: N from rfl,
    splitFirstChar_append (show ('=' : Char) ∉ "state".data by decide),
    splitFirstChar_append (show ('=' : Char) ∉ "nonce".data by decide),
    show splitFirstChar '=' "x=1".data = some ("x".data, "1".data) from rfl]
  dsimp only
  rw [qsUnescapeL_plain hSa, qsUnescapeL_plain hNa]
  rfl

theorem authUrl_contains (S N : List Char) :
    containsS ("/oauth2/v1/authorize?x=1&state=" ++ ⟨S⟩ ++ "&nonce=" ++ ⟨N⟩)
      "authorize?" = true := by
  unfold containsS
  rw [String.data_append, String.data_append, String.data_append]
  exact containsL_append_left (containsL_append_left
    (containsL_append_left (by decide) S) "&nonce=".data) N

theorem authUrl_rewrite (S N : List Char) :
    replaceFirstS (replaceFirstS (replaceFirstS
        ("/oauth2/v1/authorize?x=1&state=" ++ ⟨S⟩ ++ "&nonce=" ++ ⟨N⟩)
        ("state=" ++ (⟨S⟩ : String)) "state=STATE")
        ("nonce=" ++ (⟨N⟩ : String)) "nonce=NONCE")
        "profile%20email%20openid" "openid%20profile%20email"
      = "/oauth2/v1/authorize?x=1&state=STATE&nonce=NONCE" := by
  have h1 : replaceFirstS ("/oauth2/v1/authorize?x=1&state=" ++ ⟨S⟩ ++ "&nonce=" ++ ⟨N⟩)
      ("state=" ++ (⟨S⟩ : String)) "state=STATE"
      = ⟨"/oauth2/v1/authorize?x=1&".data ++
          ("state=STATE".data ++ ("&nonce=".data ++ N))⟩ := by
    unfold replaceFirstS
    have hu : ("/oauth2/v1/authorize?x=1&state=" ++ (⟨S⟩ : String) ++ "&nonce=" ++
        (⟨N⟩ : String)).data = "/oauth2/v1/authorize?x=1&".data ++
          (("state=".data ++ S) ++ ("&nonce=".data ++ N)) := by
      rw [String.data_append, String.data_append, String.data_append]
      rw [show ("/oauth2/v1/authorize?x=1&state=" : String).data =
        "/oauth2/v1/authorize?x=1&".data ++ "state=".data from by decide]
      simp only [List.append_assoc]
    rw [hu]
    rw [show ("state=" ++ (⟨S⟩ : String)).data = "state=".data ++ S from by
      rw [String.data_append]]
    rw [replaceFirstL_at _ (show "state=".data ++ S = 's' :: ("tate=".data ++ S) from rfl)
      (show ('s' : Char) ∉ "/oauth2/v1/authorize?x=1&".data by decide)]
  rw [h1]
  have h2 : replaceFirstS (⟨"/oauth2/v1/authorize?x=1&".data ++
        ("state=STATE".data ++ ("&nonce=".data ++ N))⟩ : String)
      ("nonce=" ++ (⟨N⟩ : String)) "nonce=NONCE"
      = ⟨"/oauth2/v1/authorize?x=1&state=STATE&".data ++ ("nonce=NONCE".data ++ [])⟩ := by
    unfold replaceFirstS
    have hu : (⟨"/oauth2/v1/authorize?x=1&".data ++
        ("state=STATE".data ++ ("&nonce=".data ++ N))⟩ : String).data
        = "/oauth2/v1/authorize?x=1&state=STATE&".data ++ (("nonce=".data ++ N) ++ []) := by
      show "/oauth2/v1/authorize?x=1&".data ++ ("state=STATE".data ++ ("&nonce=".data ++ N))
        = _
      rw [show ("/oauth2/v1/authorize?x=1&state=STATE&" : String).data =
        "/oauth2/v1/authorize?x=1&".data ++ ("state=STATE".data ++ "&".data) from by decide]
      simp only [List.append_assoc, List.append_nil]
      rfl
    rw [hu]
    rw [show ("nonce=" ++ (⟨N⟩ : String)).data = "nonce=".data ++ N from by
      rw [String.data_append]]
    rw [replaceFirstL_at _ (show "nonce=".data ++ N = 'n' :: ("once=".data ++ N) from rfl)
      (show ('n' : Char) ∉ "/oauth2/v1/authorize?x=1&state=STATE&".data by decide)]
  rw [h2]
  decide

/-- Claim C4 (state/nonce round trip, `util.js` lines 203-220 and 396-400).
For every authorize request over the url family
`/oauth2/v1/authorize?x=1&state=S&nonce=N` with alphanumeric `S`, `N` (and any
non-preflight headers), normalization succeeds, rewrites the url to
`state=STATE&nonce=NONCE` and records `{state: S, nonce: N}` in the Session
Extract; reconstructing the headers of a matching redirect-callback response
whose `location` carries `state=STATE` (and is otherwise untouched by the URL
rewriter) restores `state=S` in the `location` header. -/
theorem C4_state_roundtrip (S N : List Char)
    (hSa : ∀ c ∈ S, c.isAlphanum = true) (hNa : ∀ c ∈ N, c.isAlphanum = true)
    (hdr : Headers) (record : Bool)
    (hnp : truthy (hGet hdr "access-control-request-method") = false) :
    ∃ r d, mapRequestToCache ⟨"GET",
        "/oauth2/v1/authorize?x=1&state=" ++ ⟨S⟩ ++ "&nonce=" ++ ⟨N⟩, hdr⟩ record
        = .ok (r, d) ∧
      r.url = "/oauth2/v1/authorize?x=1&state=STATE&nonce=NONCE" ∧
      d.state = some ⟨S⟩ ∧ d.nonce = some ⟨N⟩ ∧
      ∀ (d2 : SessionData) (cfg : Cfg), d2.isRedirectCallback = true →
        d2.state = d.state →
        replaceUrls "HTTP://RP.EXAMPLE/CB?CODE=1&state=STATE" cfg =
          "HTTP://RP.EXAMPLE/CB?CODE=1&state=STATE" →
        ∃ out, mapCachedHeadersToResponse
            [("location", .str "HTTP://RP.EXAMPLE/CB?CODE=1&state=STATE")] cfg d2 record
            = .ok out ∧
          rGet out "location" =
            some (.str ("HTTP://RP.EXAMPLE/CB?CODE=1&state=" ++ ⟨S⟩)) := by
  have hpf : isPreflightReq ⟨"GET",
      "/oauth2/v1/authorize?x=1&state=" ++ ⟨S⟩ ++ "&nonce=" ++ ⟨N⟩, hdr⟩ = false := hnp
  have hnf : ∀ (h10 : Headers) (c1 : String),
      normFlow ⟨"GET", "/oauth2/v1/authorize?x=1&state=" ++ ⟨S⟩ ++ "&nonce=" ++ ⟨N⟩, hdr⟩
        record h10 c1 =
      ({ method := "GET", url := "/oauth2/v1/authorize?x=1&state=STATE&nonce=NONCE",
         headers := hDel h10 "cookie" },
       { isAuthorizeReq := true, responseMode := none, state := some ⟨S⟩,
         nonce := some ⟨N⟩, cookie := some c1 }) := by
    intro h10 c1
    unfold normFlow
    rw [show (⟨"GET", "/oauth2/v1/authorize?x=1&state=" ++ ⟨S⟩ ++ "&nonce=" ++ ⟨N⟩,
      hdr⟩ : Req).url = "/oauth2/v1/authorize?x=1&state=" ++ ⟨S⟩ ++ "&nonce=" ++ ⟨N⟩
      from rfl]
    rw [authUrl_contains S N]
    rw [if_pos rfl]
    rw [parseQuery_auth S N hSa hNa]
    dsimp only
    rw [show qGet [("x", "1"), ("state", (⟨S⟩ : String)), ("nonce", (⟨N⟩ : String))]
      "state" = some ⟨S⟩ from by simp [qGet, List.find?],
      show qGet [("x", "1"), ("state", (⟨S⟩ : String)), ("nonce", (⟨N⟩ : String))]
      "nonce" = some ⟨N⟩ from by simp [qGet, List.find?],
      show qGet [("x", "1"), ("state", (⟨S⟩ : String)), ("nonce", (⟨N⟩ : String))]
      "response_mode" = none from by simp [qGet, List.find?]]
    dsimp only [Option.getD_some]
    rw [authUrl_rewrite S N]
  have hrun : mapRequestToCache ⟨"GET",
      "/oauth2/v1/authorize?x=1&state=" ++ ⟨S⟩ ++ "&nonce=" ++ ⟨N⟩, hdr⟩ record
      = .ok (normFlow ⟨"GET",
          "/oauth2/v1/authorize?x=1&state=" ++ ⟨S⟩ ++ "&nonce=" ++ ⟨N⟩, hdr⟩ record
        (normCookieCache (normBase ⟨"GET",
          "/oauth2/v1/authorize?x=1&state=" ++ ⟨S⟩ ++ "&nonce=" ++ ⟨N⟩, hdr⟩)).1
        (normCookieCache (normBase ⟨"GET",
          "/oauth2/v1/authorize?x=1&state=" ++ ⟨S⟩ ++ "&nonce=" ++ ⟨N⟩, hdr⟩)).2) := by
    unfold mapRequestToCache
    rw [normPreflight_not _ _ hpf]
  rw [hnf] at hrun
  refine ⟨_, _, hrun, rfl, rfl, rfl, ?_⟩
  · intro d2 cfg hrc hst hcfg
    dsimp only at hst
    unfold mapCachedHeadersToResponse
    simp only [List.map]
    rw [hcfg, hrc]
    rw [show rGet [("location", HVal.str "HTTP://RP.EXAMPLE/CB?CODE=1&state=STATE")]
      "location" = some (HVal.str "HTTP://RP.EXAMPLE/CB?CODE=1&state=STATE") from rfl]
    dsimp only
    refine ⟨_, rfl, ?_⟩
    rw [rGet_rDel_ne _ (by decide), rGet_rDel_ne _ (by decide),
      rGet_rSet_ne _ _ (by decide), rGet_rSet_ne _ _ (by decide), rGet_rSet_self]
    rw [hst]
    dsimp only [Option.getD_some]
    have hrepl : replaceFirstS "HTTP://RP.EXAMPLE/CB?CODE=1&state=STATE" "state=STATE"
        ("state=" ++ (⟨S⟩ : String))
        = "HTTP://RP.EXAMPLE/CB?CODE=1&state=" ++ (⟨S⟩ : String) := by
      unfold replaceFirstS
      rw [show ("HTTP://RP.EXAMPLE/CB?CODE=1&state=STATE" : String).data =
        "HTTP://RP.EXAMPLE/CB?CODE=1&".data ++ ("state=STATE".data ++ []) from by decide]
      rw [replaceFirstL_at _
        (show ("state=STATE" : String).data = 's' :: "tate=STATE".data from rfl)
        (show ('s' : Char) ∉ "HTTP://RP.EXAMPLE/CB?CODE=1&".data by decide)]
      apply strDataEq
      rw [String.data_append]
      show "HTTP://RP.EXAMPLE/CB?CODE=1&".data ++ (("state=".data ++ S) ++ [])
        = "HTTP://RP.EXAMPLE/CB?CODE=1&state=".data ++ S
      rw [show ("HTTP://RP.EXAMPLE/CB?CODE=1&state=" : String).data =
        "HTTP://RP.EXAMPLE/CB?CODE=1&".data ++ "state=".data from by decide]
      simp only [List.append_assoc, List.append_nil]
    rw [hrepl]

/-- Witness for `C4_state_roundtrip` at `S = "s1"`, `N = "n9"`, together with
the concrete redirect-callback reconstruction it licenses. -/
theorem C4_state_roundtrip_witness :
    (∃ r d, mapRequestToCache ⟨"GET",
        "/oauth2/v1/authorize?x=1&state=" ++ ⟨"s1".data⟩ ++ "&nonce=" ++ ⟨"n9".data⟩,
        []⟩ false = .ok (r, d) ∧
      r.url = "/oauth2/v1/authorize?x=1&state=STATE&nonce=NONCE" ∧
      d.state = some ⟨"s1".data⟩ ∧ d.nonce = some ⟨"n9".data⟩ ∧
      ∀ (d2 : SessionData) (cfg : Cfg), d2.isRedirectCallback = true →
        d2.state = d.state →
        replaceUrls "HTTP://RP.EXAMPLE/CB?CODE=1&state=STATE" cfg =
          "HTTP://RP.EXAMPLE/CB?CODE=1&state=STATE" →
        ∃ out, mapCachedHeadersToResponse
            [("location", .str "HTTP://RP.EXAMPLE/CB?CODE=1&state=STATE")] cfg d2 false
            = .ok out ∧
          rGet out "location" =
            some (.str ("HTTP://RP.EXAMPLE/CB?CODE=1&state=" ++ ⟨"s1".data⟩))) ∧
    ∃ out, mapCachedHeadersToResponse
        [("location", .str "HTTP://RP.EXAMPLE/CB?CODE=1&state=STATE")] cfg0
        { isRedirectCallback := true, state := some ⟨"s1".data⟩ } false = .ok out ∧
      rGet out "location" =
        some (.str ("HTTP://RP.EXAMPLE/CB?CODE=1&state=" ++ ⟨"s1".data⟩)) := by
  have h := C4_state_roundtrip "s1".data "n9".data (by decide) (by decide) [] false
    (by decide)
  refine ⟨h, ?_⟩
  obtain ⟨r, d, h1, h2, h3, h4, h5⟩ := h
  exact h5 _ cfg0 rfl (by rw [h3]) (by decide)

/-! ## Sorting, trimming and `normalizeAcrhVal` idempotence (for claim C8) -/

theorem lexLe_total (a b : List Char) : lexLe a b = true ∨ lexLe b a = true := by
  induction a generalizing b with
  | nil => left; rfl
  | cons x xs ih =>
    cases b with
    | nil => right; rfl
    | cons y ys =>
      rcases lt_trichotomy x y with h | h | h
      · left
        simp [lexLe, if_pos h]
      · subst h
        rcases ih ys with h' | h'
        · left
          simp [lexLe, lt_irrefl, h']
        · right
          simp [lexLe, lt_irrefl, h']
      · right
        simp [lexLe, if_pos h]

theorem dropWhile_head_not {p : Char → Bool} {l : List Char} {c : Char} {r : List Char}
    (h : l.dropWhile p = c :: r) : p c = false := by
  induction l with
  | nil => simp at h
  | cons d t ih =>
    rw [List.dropWhile_cons] at h
    split at h
    · exact ih h
    · next hp =>
      obtain ⟨rfl, _⟩ := List.cons.inj h
      exact Bool.not_eq_true _ ▸ (by simpa using hp)

theorem dropWhile_of_head_not {p : Char → Bool} {c : Char} (h : p c = false)
    (r : List Char) : (c :: r).dropWhile p = c :: r := by
  rw [List.dropWhile_cons, if_neg (by simp [h])]

theorem dropWhile_idem (p : Char → Bool) (l : List Char) :
    (l.dropWhile p).dropWhile p = l.dropWhile p := by
  match hm : l.dropWhile p with
  | [] => rfl
  | c :: r => exact dropWhile_of_head_not (dropWhile_head_not hm) r

theorem dropWhile_eq_self_of_head {p : Char → Bool} {l : List Char}
    (h : ∀ c r, l = c :: r → p c = false) : l.dropWhile p = l := by
  cases l with
  | nil => rfl
  | cons c r => exact dropWhile_of_head_not (h c r rfl) r

theorem trimL_idem (l : List Char) : trimL (trimL l) = trimL l := by
  unfold trimL
  set u := l.dropWhile isWsChar with hu
  set w := u.reverse.dropWhile isWsChar with hw
  -- goal: ((w.reverse.dropWhile ws).reverse.dropWhile ws).reverse = w.reverse
  have hF1 : w.reverse.dropWhile isWsChar = w.reverse := by
    apply dropWhile_eq_self_of_head
    intro c r hc
    -- head of w.reverse is getLast of w, i.e. getLast of u.reverse, i.e. head of u
    have hwne : w ≠ [] := by
      intro h
      rw [h] at hc
      simp at hc
    have h1 : w.reverse.head? = some c := by rw [hc]; rfl
    have h2 : w.reverse.head? = w.getLast? := List.head?_reverse w
    have h3 : u.reverse = u.reverse.takeWhile isWsChar ++ w :=
      (List.takeWhile_append_dropWhile isWsChar u.reverse).symm
    have h4 : u.reverse.getLast? = w.getLast? := by
      rw [h3]
      exact List.getLast?_append_of_ne_nil _ hwne
    have h5 : u.reverse.getLast? = u.head? := by
      rw [List.getLast?_reverse]
    have h6 : u.head? = some c := by
      rw [← h5, h4, ← h2, h1]
    obtain ⟨r', hr'⟩ : ∃ r', u = c :: r' := by
      cases hcu : u with
      | nil => rw [hcu] at h6; simp at h6
      | cons x xs =>
        rw [hcu] at h6
        simp only [List.head?_cons, Option.some.injEq] at h6
        exact ⟨xs, by rw [h6]⟩
    exact dropWhile_head_not (p := isWsChar) (by rw [← hu, hr'])
  rw [hF1]
  have hF2 : w.reverse.reverse.dropWhile isWsChar = w := by
    rw [List.reverse_reverse]
    rw [hw]
    exact dropWhile_idem _ _
  rw [hF2]

theorem trimL_cons_space (l : List Char) : trimL (' ' :: l) = trimL l := by
  unfold trimL
  rw [List.dropWhile_cons, if_pos (by decide)]

theorem mem_of_mem_trimL {c : Char} {l : List Char} (h : c ∈ trimL l) : c ∈ l := by
  unfold trimL at h
  rw [List.mem_reverse] at h
  have h2 := (List.dropWhile_sublist (l := (l.dropWhile isWsChar).reverse)
    (p := isWsChar)).subset h
  rw [List.mem_reverse] at h2
  exact (List.dropWhile_sublist (l := l) (p := isWsChar)).subset h2

theorem mem_insertLe {a x : List Char} {l : List (List Char)} :
    a ∈ insertLe x l ↔ a = x ∨ a ∈ l := by
  induction l with
  | nil => simp [insertLe]
  | cons y ys ih =>
    unfold insertLe
    split
    · simp
    · simp only [List.mem_cons, ih]
      tauto

theorem mem_sortLe {a : List Char} {l : List (List Char)} :
    a ∈ sortLe l ↔ a ∈ l := by
  induction l with
  | nil => simp [sortLe]
  | cons x xs ih =>
    show a ∈ insertLe x (sortLe xs) ↔ _
    rw [mem_insertLe, ih]
    simp

theorem chain'_insertLe {x : List Char} {l : List (List Char)}
    (h : List.Chain' (fun a b => lexLe a b = true) l) :
    List.Chain' (fun a b => lexLe a b = true) (insertLe x l) := by
  induction l with
  | nil => simp [insertLe]
  | cons y ys ih =>
    unfold insertLe
    split
    · next hxy => exact List.Chain'.cons hxy h
    · next hxy =>
      have hyx : lexLe y x = true := by
        rcases lexLe_total x y with h' | h'
        · exact absurd h' (by simpa using hxy)
        · exact h'
      have htail := ih (List.Chain'.tail h)
      cases hys : ys with
      | nil =>
        subst hys
        exact List.Chain'.cons hyx (by simp [insertLe])
      | cons z zs =>
        subst hys
        show List.Chain' _ (y :: insertLe x (z :: zs))
        unfold insertLe
        split
        · next hxz =>
          exact List.Chain'.cons hyx (by
            rw [show insertLe x (z :: zs) = x :: z :: zs from by
              show (if lexLe x z then x :: z :: zs else z :: insertLe x zs) = x :: z :: zs
              rw [if_pos hxz]] at htail
            exact htail)
        · next hxz =>
          refine List.Chain'.cons ?_ (by
            rw [show insertLe x (z :: zs) = z :: insertLe x zs from by
              show (if lexLe x z then x :: z :: zs else z :: insertLe x zs)
                = z :: insertLe x zs
              rw [if_neg hxz]] at htail
            exact htail)
          exact (List.chain'_cons.1 h).1

theorem chain'_sortLe (l : List (List Char)) :
    List.Chain' (fun a b => lexLe a b = true) (sortLe l) := by
  induction l with
  | nil => simp [sortLe]
  | cons x xs ih =>
    show List.Chain' _ (insertLe x (sortLe xs))
    exact chain'_insertLe ih

theorem sortLe_of_chain {l : List (List Char)}
    (h : List.Chain' (fun a b => lexLe a b = true) l) : sortLe l = l := by
  induction l with
  | nil => rfl
  | cons x xs ih =>
    show insertLe x (sortLe xs) = x :: xs
    rw [ih (List.Chain'.tail h)]
    cases xs with
    | nil => rfl
    | cons y ys =>
      unfold insertLe
      rw [if_pos (List.chain'_cons.1 h).1]

theorem splitOnCharL_cons_of_ne {sep c : Char} (h : c ≠ sep) (r : List Char) :
    splitOnCharL sep (c :: r) =
      match splitOnCharL sep r with
      | hd :: tl => (c :: hd) :: tl
      | [] => [[c]] := by
  rw [splitOnCharL.eq_def]
  dsimp only
  rw [if_neg h]

theorem splitOnCharL_intercalate (p : List Char) (t : List (List Char))
    (hp : ',' ∉ p) :
    (∀ e ∈ t, ',' ∉ e) →
    splitOnCharL ',' (List.intercalate [',', ' '] (p :: t)) =
      p :: t.map (fun e => ' ' :: e) := by
  induction t generalizing p with
  | nil =>
    intro _
    rw [show List.intercalate [',', ' '] [p] = p from by simp [List.intercalate]]
    rw [splitOnCharL_of_not_mem hp]
    rfl
  | cons q t' ih =>
    intro ht
    rw [intercalate_cons₂]
    rw [List.append_assoc]
    rw [show ([',', ' '] : List Char) ++ List.intercalate [',', ' '] (q :: t') =
      ',' :: (' ' :: List.intercalate [',', ' '] (q :: t')) from rfl]
    rw [splitOnCharL_append_of_not_mem hp]
    have hX := ih q (ht q (List.mem_cons_self q t'))
      (fun e he => ht e (List.mem_cons_of_mem _ he))
    rw [splitOnCharL_cons_of_ne (by decide), hX]
    rfl

theorem normalizeAcrhVal_idem (s : String) :
    normalizeAcrhVal (normalizeAcrhVal s) = normalizeAcrhVal s := by
  unfold normalizeAcrhVal
  dsimp only
  set l2 := (((splitOnCharL ',' s.data).map trimL).filter fun e =>
    !(e == "accept".data) && !(e == "origin".data)) with hl2
  have hmem : ∀ e ∈ sortLe l2, trimL e = e ∧ ',' ∉ e ∧
      (!(e == "accept".data) && !(e == "origin".data)) = true := by
    intro e he
    have he2 := mem_sortLe.1 he
    rw [hl2] at he2
    obtain ⟨hmap, hpred⟩ := List.mem_filter.1 he2
    obtain ⟨e', he', heq⟩ := List.mem_map.1 hmap
    refine ⟨?_, ?_, hpred⟩
    · rw [← heq]
      exact trimL_idem e'
    · intro hc
      rw [← heq] at hc
      exact not_mem_of_mem_splitOnCharL he' (mem_of_mem_trimL hc)
  cases hps : sortLe l2 with
  | nil => decide
  | cons p t =>
    have hmem' : ∀ e ∈ p :: t, trimL e = e ∧ ',' ∉ e ∧
        (!(e == "accept".data) && !(e == "origin".data)) = true := by
      rw [← hps]
      exact hmem
    rw [splitOnCharL_intercalate p t
      (hmem' p (List.mem_cons_self p t)).2.1
      (fun e he => (hmem' e (List.mem_cons_of_mem p he)).2.1)]
    have hmt : List.map trimL (t.map (fun e => ' ' :: e)) = t := by
      rw [List.map_map]
      have h2 : ∀ e ∈ t, (trimL ∘ fun e => ' ' :: e) e = id e := by
        intro e he
        show trimL (' ' :: e) = e
        rw [trimL_cons_space, (hmem' e (List.mem_cons_of_mem p he)).1]
      rw [List.map_congr_left h2, List.map_id]
    rw [List.map_cons, hmt, (hmem' p (List.mem_cons_self p t)).1]
    rw [List.filter_eq_self.2 (fun a ha => (hmem' a ha).2.2)]
    rw [sortLe_of_chain (hps ▸ chain'_sortLe l2)]

/-! ## Claim C8: normalizer idempotence on the header map -/

theorem hGet_normBase_deleted (req : Req) (k : String)
    (hk : k ∈ ["upgrade-insecure-requests", "x-okta-user-agent-extended", "if-none-match",
      "if-modified-since", "expect", "referer"]) :
    hGet (normBase req) k = none := by
  have hbase : hGet (hSet (hSet (hSet (hSet (hDel (hDel (hDel (hDel (hDel (hDel req.headers
      "upgrade-insecure-requests") "x-okta-user-agent-extended") "if-none-match")
      "if-modified-since") "expect") "referer") "user-agent" uaString) "connection"
      "keep-alive") "accept-language" "en-US") "accept-encoding" "gzip") k
      = none := by
    fin_cases hk
    · rw [hGet_hSet_ne _ _ (by decide), hGet_hSet_ne _ _ (by decide),
        hGet_hSet_ne _ _ (by decide), hGet_hSet_ne _ _ (by decide),
        hGet_hDel_ne _ (by decide), hGet_hDel_ne _ (by decide), hGet_hDel_ne _ (by decide),
        hGet_hDel_ne _ (by decide), hGet_hDel_ne _ (by decide), hGet_hDel_self]
    · rw [hGet_hSet_ne _ _ (by decide), hGet_hSet_ne _ _ (by decide),
        hGet_hSet_ne _ _ (by decide), hGet_hSet_ne _ _ (by decide),
        hGet_hDel_ne _ (by decide), hGet_hDel_ne _ (by decide), hGet_hDel_ne _ (by decide),
        hGet_hDel_ne _ (by decide), hGet_hDel_self]
    · rw [hGet_hSet_ne _ _ (by decide), hGet_hSet_ne _ _ (by decide),
        hGet_hSet_ne _ _ (by decide), hGet_hSet_ne _ _ (by decide),
        hGet_hDel_ne _ (by decide), hGet_hDel_ne _ (by decide), hGet_hDel_ne _ (by decide),
        hGet_hDel_self]
    · rw [hGet_hSet_ne _ _ (by decide), hGet_hSet_ne _ _ (by decide),
        hGet_hSet_ne _ _ (by decide), hGet_hSet_ne _ _ (by decide),
        hGet_hDel_ne _ (by decide), hGet_hDel_ne _ (by decide), hGet_hDel_self]
    · rw [hGet_hSet_ne _ _ (by decide), hGet_hSet_ne _ _ (by decide),
        hGet_hSet_ne _ _ (by decide), hGet_hSet_ne _ _ (by decide),
        hGet_hDel_ne _ (by decide), hGet_hDel_self]
    · rw [hGet_hSet_ne _ _ (by decide), hGet_hSet_ne _ _ (by decide),
        hGet_hSet_ne _ _ (by decide), hGet_hSet_ne _ _ (by decide), hGet_hDel_self]
  have hk' : k ≠ "accept" ∧ k ≠ "content-type" := by
    fin_cases hk <;> exact ⟨by decide, by decide⟩
  unfold normBase
  dsimp only
  split
  · rw [hGet_hSet_ne _ _ hk'.2]
    split
    · split
      · rw [hGet_hSet_ne _ _ hk'.1]; exact hbase
      · split
        · rw [hGet_hSet_ne _ _ hk'.1]; exact hbase
        · rw [hGet_hSet_ne _ _ hk'.1]; exact hbase
    · exact hbase
  · split
    · split
      · rw [hGet_hSet_ne _ _ hk'.1]; exact hbase
      · split
        · rw [hGet_hSet_ne _ _ hk'.1]; exact hbase
        · rw [hGet_hSet_ne _ _ hk'.1]; exact hbase
    · exact hbase

theorem hGet_normBase_accept_empty (req : Req)
    (h : hGet req.headers "accept" = some "") :
    hGet (normBase req) "accept" = some "" := by
  have hb : hGet (hSet (hSet (hSet (hSet (hDel (hDel (hDel (hDel (hDel (hDel req.headers
      "upgrade-insecure-requests") "x-okta-user-agent-extended") "if-none-match")
      "if-modified-since") "expect") "referer") "user-agent" uaString) "connection"
      "keep-alive") "accept-language" "en-US") "accept-encoding" "gzip") "accept"
      = some "" := by
    rw [hGet_hSet_ne _ _ (by decide), hGet_hSet_ne _ _ (by decide),
      hGet_hSet_ne _ _ (by decide), hGet_hSet_ne _ _ (by decide),
      hGet_hDel_ne _ (by decide), hGet_hDel_ne _ (by decide), hGet_hDel_ne _ (by decide),
      hGet_hDel_ne _ (by decide), hGet_hDel_ne _ (by decide), hGet_hDel_ne _ (by decide)]
    exact h
  unfold normBase
  dsimp only
  rw [hb]
  split
  · rw [hGet_hSet_ne _ _ (by decide)]
    rw [show truthy (some "") = false from rfl]
    rw [if_neg (by simp)]
    exact hb
  · rw [show truthy (some "") = false from rfl]
    rw [if_neg (by simp)]
    exact hb

theorem hGet_normBase_ct (req : Req)
    (h : (!isPreflightReq req && containsS req.url "/api/v1") = true) :
    hGet (normBase req) "content-type" = some "application/json" := by
  unfold normBase
  dsimp only
  rw [h]
  rw [if_pos rfl]
  rw [hGet_hSet_self]

theorem hGet_normCookieCache_cc (h : Headers) :
    hGet (normCookieCache h).1 "cache-control" = some "no-cache, no-store" := by
  unfold normCookieCache
  dsimp only
  rw [hGet_hSet_ne _ _ (by decide), hGet_hSet_self]

theorem hGet_normCookieCache_pragma (h : Headers) :
    hGet (normCookieCache h).1 "pragma" = some "no-cache" := by
  unfold normCookieCache
  dsimp only
  rw [hGet_hSet_self]

theorem normFlow_headers (req : Req) (record : Bool) (h10 : Headers) (c1 : String) :
    (normFlow req record h10 c1).1.headers =
      if containsS req.url "authorize?" then hDel h10 "cookie"
      else if req.url = "/api/v1/authn" then hDel h10 "cookie"
      else if containsS req.url "/sessions/me" && (req.method = "DELETE") then h10
      else if "/oauth2/v1/authorize/redirect".isPrefixOf req.url then h10
      else if "/oauth2/default/v1/token".isPrefixOf req.url then h10
      else if !record && containsS req.url "/oauth2/default/v1/userinfo" then
        hSet h10 "authorization" ("Bearer " ++ keys_accessToken)
      else h10 := by
  unfold normFlow
  dsimp only
  split
  · rfl
  · split
    · rfl
    · split
      · rfl
      · split
        · rfl
        · split
          · rfl
          · split
            · rfl
            · rfl

theorem normFlow_method (req : Req) (record : Bool) (h10 : Headers) (c1 : String) :
    (normFlow req record h10 c1).1.method = req.method := by
  unfold normFlow
  dsimp only
  split
  · rfl
  · split
    · rfl
    · split
      · rfl
      · split
        · rfl
        · split
          · rfl
          · split
            · rfl
            · rfl

theorem normFlow_url_of_not_auth (req : Req) (record : Bool) (h10 : Headers) (c1 : String)
    (hna : containsS req.url "authorize?" = false) :
    (normFlow req record h10 c1).1.url = req.url := by
  unfold normFlow
  dsimp only
  rw [hna]
  rw [if_neg (by simp)]
  split
  · rfl
  · split
    · rfl
    · split
      · rfl
      · split
        · rfl
        · split
          · rfl
          · rfl

/-- A header map already shaped by `normBase` is a fixpoint of `normBase`. -/
theorem normBase_id (q : Req)
    (hd1 : hGet q.headers "upgrade-insecure-requests" = none)
    (hd2 : hGet q.headers "x-okta-user-agent-extended" = none)
    (hd3 : hGet q.headers "if-none-match" = none)
    (hd4 : hGet q.headers "if-modified-since" = none)
    (hd5 : hGet q.headers "expect" = none)
    (hd6 : hGet q.headers "referer" = none)
    (hua : hGet q.headers "user-agent" = some uaString)
    (hconn : hGet q.headers "connection" = some "keep-alive")
    (hal : hGet q.headers "accept-language" = some "en-US")
    (hae : hGet q.headers "accept-encoding" = some "gzip")
    (hacc : hGet q.headers "accept" = none ∨ hGet q.headers "accept" = some "" ∨
      hGet q.headers "accept" = some htmlAccept ∨
      hGet q.headers "accept" = some "application/json" ∨
      hGet q.headers "accept" = some "*/*")
    (hct : (!isPreflightReq q && containsS q.url "/api/v1") = true →
      hGet q.headers "content-type" = some "application/json") :
    normBase q = q.headers := by
  unfold normBase
  dsimp only
  rw [hDel_of_hGet_none hd1, hDel_of_hGet_none hd2, hDel_of_hGet_none hd3,
    hDel_of_hGet_none hd4, hDel_of_hGet_none hd5, hDel_of_hGet_none hd6,
    hSet_of_hGet_some hua, hSet_of_hGet_some hconn, hSet_of_hGet_some hal,
    hSet_of_hGet_some hae]
  have hacc6 : (if truthy (hGet q.headers "accept") then
      (if containsS ((hGet q.headers "accept").getD "") "text/html" then
        hSet q.headers "accept" htmlAccept
      else if containsS ((hGet q.headers "accept").getD "") "json" then
        hSet q.headers "accept" "application/json"
      else hSet q.headers "accept" "*/*")
    else q.headers) = q.headers := by
    rcases hacc with h | h | h | h | h
    · rw [h]
      rw [show truthy none = false from rfl, if_neg (by simp)]
    · rw [h]
      rw [show truthy (some "") = false from rfl, if_neg (by simp)]
    · rw [h]
      rw [show truthy (some htmlAccept) = true from rfl, if_pos rfl]
      rw [show ((some htmlAccept).getD "") = htmlAccept from rfl]
      rw [show containsS htmlAccept "text/html" = true from by decide, if_pos rfl]
      exact hSet_of_hGet_some h
    · rw [h]
      rw [show truthy (some "application/json") = true from rfl, if_pos rfl]
      rw [show ((some ("application/json" : String)).getD "") = "application/json"
        from rfl]
      rw [show containsS "application/json" "text/html" = false from by decide,
        if_neg (by simp)]
      rw [show containsS "application/json" "json" = true from by decide, if_pos rfl]
      exact hSet_of_hGet_some h
    · rw [h]
      rw [show truthy (some "*/*") = true from rfl, if_pos rfl]
      rw [show ((some ("*/*" : String)).getD "") = "*/*" from rfl]
      rw [show containsS "*/*" "text/html" = false from by decide, if_neg (by simp)]
      rw [show containsS "*/*" "json" = false from by decide, if_neg (by simp)]
      exact hSet_of_hGet_some h
  rw [hacc6]
  cases hcond : (!isPreflightReq q && containsS q.url "/api/v1") with
  | false => rw [if_neg (by simp)]
  | true =>
    rw [if_pos rfl]
    exact hSet_of_hGet_some (hct hcond)

/-- A header map already shaped by the preflight stage is a fixpoint of
`normPreflight`. -/
theorem normPreflight_id (q : Req)
    (hcl : isPreflightReq q = true → hGet q.headers "content-length" ≠ some "0")
    (hacrh : isPreflightReq q = true → ∃ b, hGet q.headers "access-control-request-headers"
      = some (normalizeAcrhVal b)) :
    normPreflight q q.headers = .ok q.headers := by
  unfold normPreflight
  cases hp : isPreflightReq q with
  | false => rw [if_neg (by simp)]
  | true =>
    rw [if_pos rfl]
    dsimp only
    rw [if_neg (hcl hp)]
    obtain ⟨b, hb⟩ := hacrh hp
    rw [hb]
    dsimp only
    rw [normalizeAcrhVal_idem]
    rw [hSet_of_hGet_some hb]

theorem normCookieCache_of_none {h : Headers} (hcn : hGet h "cookie" = none)
    (hcc : hGet h "cache-control" = some "no-cache, no-store")
    (hpr : hGet h "pragma" = some "no-cache") :
    (normCookieCache h).1 = h ++ [("cookie", "")] := by
  unfold normCookieCache
  dsimp only
  rw [show adrumStrip ((hGet h "cookie").getD "") = "" from by rw [hcn]; rfl]
  rw [hSet_append_of_none _ hcn]
  rw [hSet_of_hGet_some (show hGet (hSet (h ++ [("cookie", "")]) "cache-control"
      "no-cache, no-store") "pragma" = some "no-cache" from by
    rw [hGet_hSet_ne _ _ (by decide), hGet_append_single_ne _ _ (by decide)]
    exact hpr)]
  rw [hSet_of_hGet_some (show hGet (h ++ [("cookie", "")]) "cache-control"
      = some "no-cache, no-store" from by
    rw [hGet_append_single_ne _ _ (by decide)]
    exact hcc)]

theorem normCookieCache_of_some {h : Headers} {c : String} (hc : hGet h "cookie" = some c)
    (hst : adrumStrip c = c)
    (hcc : hGet h "cache-control" = some "no-cache, no-store")
    (hpr : hGet h "pragma" = some "no-cache") :
    (normCookieCache h).1 = h := by
  unfold normCookieCache
  dsimp only
  rw [show adrumStrip ((hGet h "cookie").getD "") = c from by rw [hc]; exact hst]
  rw [hSet_of_hGet_some (show hGet (hSet (hSet h "cookie" c) "cache-control"
      "no-cache, no-store") "pragma" = some "no-cache" from by
    rw [hGet_hSet_ne _ _ (by decide), hGet_hSet_ne _ _ (by decide)]
    exact hpr)]
  rw [hSet_of_hGet_some (show hGet (hSet h "cookie" c) "cache-control"
      = some "no-cache, no-store" from by
    rw [hGet_hSet_ne _ _ (by decide)]
    exact hcc)]
  rw [hSet_of_hGet_some hc]

/-- A request whose headers are already in fully normalized shape is mapped to
itself (headers-wise) by a second normalizer run. -/
theorem mapRequestToCache_id (q : Req) (record : Bool)
    (hd1 : hGet q.headers "upgrade-insecure-requests" = none)
    (hd2 : hGet q.headers "x-okta-user-agent-extended" = none)
    (hd3 : hGet q.headers "if-none-match" = none)
    (hd4 : hGet q.headers "if-modified-since" = none)
    (hd5 : hGet q.headers "expect" = none)
    (hd6 : hGet q.headers "referer" = none)
    (hua : hGet q.headers "user-agent" = some uaString)
    (hconn : hGet q.headers "connection" = some "keep-alive")
    (hal : hGet q.headers "accept-language" = some "en-US")
    (hae : hGet q.headers "accept-encoding" = some "gzip")
    (hacc : hGet q.headers "accept" = none ∨ hGet q.headers "accept" = some "" ∨
      hGet q.headers "accept" = some htmlAccept ∨
      hGet q.headers "accept" = some "application/json" ∨
      hGet q.headers "accept" = some "*/*")
    (hct : (!isPreflightReq q && containsS q.url "/api/v1") = true →
      hGet q.headers "content-type" = some "application/json")
    (hcl : isPreflightReq q = true → hGet q.headers "content-length" ≠ some "0")
    (hacrh : isPreflightReq q = true →
      ∃ b, hGet q.headers "access-control-request-headers" = some (normalizeAcrhVal b))
    (hcc : hGet q.headers "cache-control" = some "no-cache, no-store")
    (hpr : hGet q.headers "pragma" = some "no-cache")
    (hckdel : containsS q.url "authorize?" = true ∨ q.url = "/api/v1/authn" →
      hGet q.headers "cookie" = none)
    (hckkeep : containsS q.url "authorize?" = false → q.url ≠ "/api/v1/authn" →
      ∃ c, hGet q.headers "cookie" = some c ∧ adrumStrip c = c)
    (hbear : containsS q.url "authorize?" = false → q.url ≠ "/api/v1/authn" →
      (containsS q.url "/sessions/me" && (q.method = "DELETE")) = false →
      ("/oauth2/v1/authorize/redirect".isPrefixOf q.url) = false →
      ("/oauth2/default/v1/token".isPrefixOf q.url) = false →
      (!record && containsS q.url "/oauth2/default/v1/userinfo") = true →
      hGet q.headers "authorization" = some ("Bearer " ++ keys_accessToken)) :
    ∃ r2 d2, mapRequestToCache q record = .ok (r2, d2) ∧ r2.headers = q.headers := by
  unfold mapRequestToCache
  rw [normBase_id q hd1 hd2 hd3 hd4 hd5 hd6 hua hconn hal hae hacc hct]
  rw [normPreflight_id q hcl hacrh]
  refine ⟨(normFlow q record (normCookieCache q.headers).1
      (normCookieCache q.headers).2).1,
    (normFlow q record (normCookieCache q.headers).1
      (normCookieCache q.headers).2).2, rfl, ?_⟩
  rw [normFlow_headers]
  by_cases hb1 : containsS q.url "authorize?" = true
  · rw [hb1, if_pos rfl]
    rw [normCookieCache_of_none (hckdel (Or.inl hb1)) hcc hpr]
    exact hDel_append_single_self _ (hckdel (Or.inl hb1))
  · have hb1' : containsS q.url "authorize?" = false := by simpa using hb1
    rw [hb1', if_neg (by simp)]
    by_cases hb2 : q.url = "/api/v1/authn"
    · rw [if_pos hb2]
      rw [normCookieCache_of_none (hckdel (Or.inr hb2)) hcc hpr]
      exact hDel_append_single_self _ (hckdel (Or.inr hb2))
    · rw [if_neg hb2]
      obtain ⟨c, hc, hst⟩ := hckkeep hb1' hb2
      rw [normCookieCache_of_some hc hst hcc hpr]
      split
      · rfl
      · next h3 =>
        split
        · rfl
        · next h4 =>
          split
          · rfl
          · next h5 =>
            split
            · next h6 =>
              exact hSet_of_hGet_some (hbear hb1' hb2 (by simpa using h3)
                (by simpa using h4) (by simpa using h5) h6)
            · rfl

theorem mapRequestToCache_ok_eq {req : Req} {record : Bool} {r : Req} {d : SessionData}
    (hrun : mapRequestToCache req record = .ok (r, d)) :
    ∃ h8, normPreflight req (normBase req) = .ok h8 ∧
      r = (normFlow req record (normCookieCache h8).1 (normCookieCache h8).2).1 := by
  unfold mapRequestToCache at hrun
  match hp : normPreflight req (normBase req) with
  | .error e => rw [hp] at hrun; exact absurd hrun (by simp)
  | .ok h8 =>
    rw [hp] at hrun
    simp only [Except.ok.injEq] at hrun
    exact ⟨h8, rfl, (congrArg Prod.fst hrun).symm⟩

/-- Claim C8 as amended (idempotence of the normalizer on the header map,
`util.js` lines 132-253).  Re-normalizing a normalized request reproduces its
header map exactly, provided (1) one `ADRUM` scrub of the original cookie is a
fixpoint of the scrubber — false in general, see the counterexample: the
global regex can expose a fresh `ADRUM` match by deleting a first-pass match
between its fragments — and (2) the authorize-flow url rewrite preserves the
`authorize?` and `/api/v1` url markers that later branch decisions read. -/
theorem C8_normalization_idempotent (req : Req) (record : Bool)
    (r1 r2 : Req) (d1 d2 : SessionData)
    (h1 : mapRequestToCache req record = .ok (r1, d1))
    (h2 : mapRequestToCache r1 record = .ok (r2, d2))
    (hck : adrumStrip (adrumStrip ((hGet req.headers "cookie").getD ""))
      = adrumStrip ((hGet req.headers "cookie").getD ""))
    (hauth : containsS r1.url "authorize?" = containsS req.url "authorize?")
    (hapi : containsS r1.url "/api/v1" = containsS req.url "/api/v1") :
    r2.headers = r1.headers := by
  obtain ⟨h8, hok8, hr1eq⟩ := mapRequestToCache_ok_eq h1
  have hr1h : r1.headers = (normFlow req record (normCookieCache h8).1
      (normCookieCache h8).2).1.headers := by rw [hr1eq]
  have hmeth : r1.method = req.method := by rw [hr1eq]; exact normFlow_method _ _ _ _
  have hchain : ∀ k, k ≠ "cookie" → k ≠ "authorization" → k ≠ "cache-control" →
      k ≠ "pragma" → k ≠ "access-control-request-headers" → k ≠ "content-length" →
      hGet r1.headers k = hGet (normBase req) k := by
    intro k k1 k2 k3 k4 k5 k6
    rw [hr1h, hGet_normFlow _ _ _ _ _ (by simp [k1, k2]),
      hGet_normCookieCache _ _ (by simp [k1, k3, k4]),
      hGet_normPreflight_other hok8 _ (by simp [k5, k6])]
  have f_d1 : hGet r1.headers "upgrade-insecure-requests" = none := by
    rw [hchain _ (by decide) (by decide) (by decide) (by decide) (by decide) (by decide)]
    exact hGet_normBase_deleted req _ (by decide)
  have f_d2 : hGet r1.headers "x-okta-user-agent-extended" = none := by
    rw [hchain _ (by decide) (by decide) (by decide) (by decide) (by decide) (by decide)]
    exact hGet_normBase_deleted req _ (by decide)
  have f_d3 : hGet r1.headers "if-none-match" = none := by
    rw [hchain _ (by decide) (by decide) (by decide) (by decide) (by decide) (by decide)]
    exact hGet_normBase_deleted req _ (by decide)
  have f_d4 : hGet r1.headers "if-modified-since" = none := by
    rw [hchain _ (by decide) (by decide) (by decide) (by decide) (by decide) (by decide)]
    exact hGet_normBase_deleted req _ (by decide)
  have f_d5 : hGet r1.headers "expect" = none := by
    rw [hchain _ (by decide) (by decide) (by decide) (by decide) (by decide) (by decide)]
    exact hGet_normBase_deleted req _ (by decide)
  have f_d6 : hGet r1.headers "referer" = none := by
    rw [hchain _ (by decide) (by decide) (by decide) (by decide) (by decide) (by decide)]
    exact hGet_normBase_deleted req _ (by decide)
  have f_ua : hGet r1.headers "user-agent" = some uaString := by
    rw [hchain _ (by decide) (by decide) (by decide) (by decide) (by decide) (by decide)]
    exact (hGet_normBase_consts req).1
  have f_conn : hGet r1.headers "connection" = some "keep-alive" := by
    rw [hchain _ (by decide) (by decide) (by decide) (by decide) (by decide) (by decide)]
    exact (hGet_normBase_consts req).2.1
  have f_al : hGet r1.headers "accept-language" = some "en-US" := by
    rw [hchain _ (by decide) (by decide) (by decide) (by decide) (by decide) (by decide)]
    exact (hGet_normBase_consts req).2.2.1
  have f_ae : hGet r1.headers "accept-encoding" = some "gzip" := by
    rw [hchain _ (by decide) (by decide) (by decide) (by decide) (by decide) (by decide)]
    exact (hGet_normBase_consts req).2.2.2
  have f_pre : isPreflightReq r1 = isPreflightReq req := by
    unfold isPreflightReq
    rw [hchain _ (by decide) (by decide) (by decide) (by decide) (by decide) (by decide),
      hGet_normBase_other _ _ (by decide)]
  have f_acc : hGet r1.headers "accept" = none ∨ hGet r1.headers "accept" = some "" ∨
      hGet r1.headers "accept" = some htmlAccept ∨
      hGet r1.headers "accept" = some "application/json" ∨
      hGet r1.headers "accept" = some "*/*" := by
    have hstep : hGet r1.headers "accept" = hGet (normBase req) "accept" :=
      hchain _ (by decide) (by decide) (by decide) (by decide) (by decide) (by decide)
    rw [hstep]
    cases horig : hGet req.headers "accept" with
    | none => exact Or.inl (hGet_normBase_accept_none req horig)
    | some a =>
      by_cases ha : a = ""
      · subst ha
        exact Or.inr (Or.inl (hGet_normBase_accept_empty req horig))
      · rw [hGet_normBase_accept_some req horig ha]
        by_cases c1 : containsS a "text/html" = true
        · rw [c1, if_pos rfl]
          exact Or.inr (Or.inr (Or.inl rfl))
        · rw [show containsS a "text/html" = false from by simpa using c1,
            if_neg (by simp)]
          by_cases c2 : containsS a "json" = true
          · rw [c2, if_pos rfl]
            exact Or.inr (Or.inr (Or.inr (Or.inl rfl)))
          · rw [show containsS a "json" = false from by simpa using c2, if_neg (by simp)]
            exact Or.inr (Or.inr (Or.inr (Or.inr rfl)))
  have f_ct : (!isPreflightReq r1 && containsS r1.url "/api/v1") = true →
      hGet r1.headers "content-type" = some "application/json" := by
    intro hcond
    rw [f_pre, hapi] at hcond
    rw [hchain _ (by decide) (by decide) (by decide) (by decide) (by decide) (by decide)]
    exact hGet_normBase_ct req hcond
  have f_cc : hGet r1.headers "cache-control" = some "no-cache, no-store" := by
    rw [hr1h, hGet_normFlow _ _ _ _ _ (by decide)]
    exact hGet_normCookieCache_cc _
  have f_pr : hGet r1.headers "pragma" = some "no-cache" := by
    rw [hr1h, hGet_normFlow _ _ _ _ _ (by decide)]
    exact hGet_normCookieCache_pragma _
  have hpre8 : isPreflightReq req = true →
      (∃ a, hGet h8 "access-control-request-headers" = some (normalizeAcrhVal a)) ∧
      hGet h8 "content-length" ≠ some "0" := by
    intro hp
    unfold normPreflight at hok8
    rw [hp] at hok8
    rw [if_pos rfl] at hok8
    dsimp only at hok8
    match hA : hGet (if hGet (normBase req) "content-length" = some "0" then
        hDel (normBase req) "content-length" else normBase req)
        "access-control-request-headers" with
    | none => rw [hA] at hok8; exact absurd hok8 (by simp)
    | some a =>
      rw [hA] at hok8
      simp only [Except.ok.injEq] at hok8
      subst hok8
      constructor
      · exact ⟨a, by rw [hGet_hSet_self]⟩
      · rw [hGet_hSet_ne _ _ (by decide)]
        split
        · rw [hGet_hDel_self]
          simp
        · next hcl0 => exact hcl0
  have hstep2 : ∀ k, k ≠ "cookie" → k ≠ "authorization" → k ≠ "cache-control" →
      k ≠ "pragma" → hGet r1.headers k = hGet h8 k := by
    intro k k1 k2 k3 k4
    rw [hr1h, hGet_normFlow _ _ _ _ _ (by simp [k1, k2]),
      hGet_normCookieCache _ _ (by simp [k1, k3, k4])]
  have f_cl : isPreflightReq r1 = true → hGet r1.headers "content-length" ≠ some "0" := by
    intro hp
    rw [f_pre] at hp
    rw [hstep2 _ (by decide) (by decide) (by decide) (by decide)]
    exact (hpre8 hp).2
  have f_acrh : isPreflightReq r1 = true →
      ∃ b, hGet r1.headers "access-control-request-headers"
        = some (normalizeAcrhVal b) := by
    intro hp
    rw [f_pre] at hp
    obtain ⟨a, ha⟩ := (hpre8 hp).1
    exact ⟨a, by rw [hstep2 _ (by decide) (by decide) (by decide) (by decide)]; exact ha⟩
  have hck10 : hGet (normCookieCache h8).1 "cookie"
      = some (adrumStrip ((hGet req.headers "cookie").getD "")) := by
    rw [hGet_normCookieCache_cookie]
    rw [hGet_normPreflight_other hok8 _ (by decide), hGet_normBase_other _ _ (by decide)]
  have f_ckdel : containsS r1.url "authorize?" = true ∨ r1.url = "/api/v1/authn" →
      hGet r1.headers "cookie" = none := by
    intro hd
    rcases hd with hd | hd
    · rw [hauth] at hd
      rw [hr1h, normFlow_headers, hd, if_pos rfl]
      exact hGet_hDel_self _ _
    · by_cases hb1 : containsS req.url "authorize?" = true
      · have hcon : containsS r1.url "authorize?" = true := by rw [hauth]; exact hb1
        rw [hd] at hcon
        exact absurd hcon (by decide)
      · have hb1' : containsS req.url "authorize?" = false := by simpa using hb1
        have hurl : r1.url = req.url := by
          rw [hr1eq]
          exact normFlow_url_of_not_auth _ _ _ _ hb1'
        rw [hurl] at hd
        rw [hr1h, normFlow_headers, hb1', if_neg (by simp), if_pos hd]
        exact hGet_hDel_self _ _
  have f_ckkeep : containsS r1.url "authorize?" = false → r1.url ≠ "/api/v1/authn" →
      ∃ c, hGet r1.headers "cookie" = some c ∧ adrumStrip c = c := by
    intro hna hnb
    have hb1' : containsS req.url "authorize?" = false := by rw [← hauth]; exact hna
    have hurl : r1.url = req.url := by
      rw [hr1eq]
      exact normFlow_url_of_not_auth _ _ _ _ hb1'
    have hnb' : req.url ≠ "/api/v1/authn" := by rw [← hurl]; exact hnb
    refine ⟨adrumStrip ((hGet req.headers "cookie").getD ""), ?_, hck⟩
    rw [hr1h, normFlow_headers, hb1', if_neg (by simp), if_neg hnb']
    split
    · exact hck10
    · split
      · exact hck10
      · split
        · exact hck10
        · split
          · rw [hGet_hSet_ne _ _ (by decide)]
            exact hck10
          · exact hck10
  have f_bear : containsS r1.url "authorize?" = false → r1.url ≠ "/api/v1/authn" →
      (containsS r1.url "/sessions/me" && (r1.method = "DELETE")) = false →
      ("/oauth2/v1/authorize/redirect".isPrefixOf r1.url) = false →
      ("/oauth2/default/v1/token".isPrefixOf r1.url) = false →
      (!record && containsS r1.url "/oauth2/default/v1/userinfo") = true →
      hGet r1.headers "authorization" = some ("Bearer " ++ keys_accessToken) := by
    intro hna hnb h3 h4 h5 h6
    have hb1' : containsS req.url "authorize?" = false := by rw [← hauth]; exact hna
    have hurl : r1.url = req.url := by
      rw [hr1eq]
      exact normFlow_url_of_not_auth _ _ _ _ hb1'
    rw [hurl] at hnb h4 h5 h6
    rw [hurl, hmeth] at h3
    rw [hr1h, normFlow_headers, hb1', if_neg (by simp), if_neg hnb,
      if_neg (by simp [h3]), if_neg (by simp [h4]), if_neg (by simp [h5]), if_pos h6]
    exact hGet_hSet_self _ _ _
  obtain ⟨r2', d2', hrun2, hh2⟩ := mapRequestToCache_id r1 record f_d1 f_d2 f_d3 f_d4
    f_d5 f_d6 f_ua f_conn f_al f_ae f_acc f_ct f_cl f_acrh f_cc f_pr f_ckdel f_ckkeep
    f_bear
  rw [h2] at hrun2
  simp only [Except.ok.injEq, Prod.mk.injEq] at hrun2
  rw [hrun2.1]
  exact hh2

/-- A request whose cookie interleaves two `ADRUM` fragments. -/
def creq8 : Req := ⟨"GET", "/x", [("cookie", "ADRADRUMx;UMq;w")]⟩

/-- Counterexample to claim C8 as stated: one scrub of the cookie
`ADRADRUMx;UMq;w` removes the inner `ADRUMx;` and re-exposes `ADRUMq;`, so the
first normalization stores cookie `ADRUMq;w` and the second strips it again to
`w` — the second run does not reproduce the first run's header map. -/
theorem C8_normalization_idempotent_counterexample :
    hGet (mapReqOut (mapReqOut creq8 false).1 false).1.headers "cookie" ≠
      hGet (mapReqOut creq8 false).1.headers "cookie" ∧
    hGet (mapReqOut creq8 false).1.headers "cookie" = some "ADRUMq;w" ∧
    hGet (mapReqOut (mapReqOut creq8 false).1 false).1.headers "cookie" = some "w" := by
  refine ⟨by decide, by decide, by decide⟩

/-- A request with an `ADRUM`-free cookie, for the idempotence witness. -/
def req8 : Req := ⟨"GET", "/pix", [("cookie", "sid=1;x")]⟩

/-- Witness for `C8_normalization_idempotent` at `req8`. -/
theorem C8_normalization_idempotent_witness :
    (mapReqOut (mapReqOut req8 false).1 false).1.headers =
      (mapReqOut req8 false).1.headers :=
  C8_normalization_idempotent req8 false (mapReqOut req8 false).1
    (mapReqOut (mapReqOut req8 false).1 false).1 (mapReqOut req8 false).2
    (mapReqOut (mapReqOut req8 false).1 false).2 (by rfl) (by rfl)
    (by decide) (by decide) (by decide)
